import Mathlib

/-!
Verification of shrinkbolt.

A shallow embedding of `shrinkbolt.go` (package `shrinkbolt`, which copies the
live entries of a bbolt database file into a fresh file) together with a small
functional model of the part of the bbolt API the package calls.

* A bucket is an ordered sequence of items; an item is a key with a value or a
  key with a nested bucket (`Bucket`).
* A `*bbolt.Bucket` obtained inside a transaction is modelled by the location
  of that bucket below the transaction root (`Handle`); the nil pointer is
  `none`.
* Go return values `(x, error)` and runtime panics are modelled by `Res`.
* Mutation through pointers is explicit state passing: the destination
  database travels through the walker inside the `Upgrader`.
-/

namespace Shrinkbolt

/-! ## Byte strings -/

/-- Go `[]byte`. -/
abbrev Bytes := List UInt8

/-- Model of `bytes.Compare(a, b) < 0`, the key order of the engine. -/
def bytesLess : Bytes → Bytes → Bool
  | [], [] => false
  | [], _ :: _ => true
  | _ :: _, [] => false
  | a :: as, b :: bs =>
    if a.toNat < b.toNat then true
    else if b.toNat < a.toNat then false
    else bytesLess as bs

/-! ## Outcomes -/

/-- Error values returned by the package and by the engine. -/
inductive Error where
  /-- "missing current db path" -/
  | missingCurrentDbPath
  /-- "missing new db path (should not exist)" -/
  | missingNewDbPath
  /-- "paths should not equal" -/
  | pathsShouldNotEqual
  /-- "new db exists" -/
  | newDbExists
  /-- "need >1 keys" -/
  | needKeys
  /-- "bucket not found: " followed by the formatted path -/
  | bucketNotFound (path : String)
  /-- "this is experimental software: please set shrinkbolt.DangerZone = true ..." -/
  | experimental
  /-- bbolt `ErrBucketNameRequired` -/
  | bucketNameRequired
  /-- bbolt `ErrIncompatibleValue` -/
  | incompatibleValue
  /-- bbolt `ErrTxNotWritable` -/
  | txNotWritable
  /-- bbolt `ErrKeyRequired` -/
  | keyRequired
  /-- bbolt `ErrKeyTooLarge` -/
  | keyTooLarge
  /-- bbolt `ErrValueTooLarge` -/
  | valueTooLarge
  /-- `bbolt.Open` failed (lock timeout, permissions, invalid file) -/
  | openFailed
  /-- the engine failed to commit a write transaction -/
  | commitFailed
  deriving DecidableEq, Repr

/-- The errors `ShrinkBoltDatabase` produces while validating its arguments. -/
def Error.isArgument : Error → Bool
  | .missingCurrentDbPath => true
  | .missingNewDbPath => true
  | .pathsShouldNotEqual => true
  | .newDbExists => true
  | _ => false

/-- Go runtime panics that the modelled code can raise. -/
inductive Fault where
  /-- method call through a nil `*bbolt.Bucket` -/
  | nilDereference
  /-- slice index out of range -/
  | indexOutOfRange
  /-- the recursion budget of the walker is used up -/
  | stackExhausted
  deriving DecidableEq, Repr

/-- Outcome of a Go call: a result, a non-nil `error`, or a panic. -/
inductive Res (α : Type) where
  | ok (a : α)
  | err (e : Error)
  | crash (f : Fault)
  deriving DecidableEq, Repr

/-! ## Buckets -/

/-- Contents of a bbolt bucket: its items in iteration order. -/
inductive Bucket where
  | nil : Bucket
  | val (key value : Bytes) (rest : Bucket) : Bucket
  | sub (name : Bytes) (child : Bucket) (rest : Bucket) : Bucket
  deriving DecidableEq, Repr, Inhabited

/-- What a key of a bucket is bound to. -/
inductive Item where
  | value (v : Bytes)
  | bucket (b : Bucket)
  deriving DecidableEq, Repr

namespace Bucket

/-- Put an item in front of a bucket's items. -/
def cons (k : Bytes) : Item → Bucket → Bucket
  | .value v, rest => .val k v rest
  | .bucket c, rest => .sub k c rest

/-- Exact-match cursor seek: the item bound to `key`, if any. -/
def seek : Bucket → Bytes → Option Item
  | .nil, _ => none
  | .val k v rest, key => if k = key then some (.value v) else rest.seek key
  | .sub n c rest, key => if n = key then some (.bucket c) else rest.seek key

/-- bbolt `Bucket.Bucket(name)` on the contents of a bucket: the nested bucket
bound to `name`, or nil when the key is absent or bound to a plain value. -/
def child (b : Bucket) (name : Bytes) : Option Bucket :=
  match b.seek name with
  | some (.bucket c) => some c
  | _ => none

/-- bbolt `node.put`: replace the item bound to `k`, or insert the new item in
key order (in front of the first larger key). -/
def store : Bucket → Bytes → Item → Bucket
  | .nil, k, it => cons k it .nil
  | .val k0 v0 rest, k, it =>
    if k0 = k then cons k it rest
    else if bytesLess k k0 then cons k it (.val k0 v0 rest)
    else .val k0 v0 (rest.store k it)
  | .sub n0 c0 rest, k, it =>
    if n0 = k then cons k it rest
    else if bytesLess k n0 then cons k it (.sub n0 c0 rest)
    else .sub n0 c0 (rest.store k it)

/-- In-place mutation of a nested bucket: the bucket bound to `name` gets the
contents `c`. -/
def setChild : Bucket → Bytes → Bucket → Bucket
  | .nil, _, _ => .nil
  | .val k v rest, name, c =>
    if k = name then .val k v rest else .val k v (rest.setChild name c)
  | .sub n c0 rest, name, c =>
    if n = name then .sub n c rest else .sub n c0 (rest.setChild name c)

/-- The bucket reached from `b` by following the names of `path`. -/
def descend : Bucket → List Bytes → Option Bucket
  | b, [] => some b
  | b, n :: ns =>
    match b.child n with
    | some c => c.descend ns
    | none => none

/-- The item bound to `key` inside the bucket at `path`. -/
def lookup (b : Bucket) (path : List Bytes) (key : Bytes) : Option Item :=
  match b.descend path with
  | some c => c.seek key
  | none => none

/-- Mutation of the bucket located at `path`; nothing happens when no bucket
is located there. -/
def modifyAt : List Bytes → (Bucket → Bucket) → Bucket → Bucket
  | [], f, b => f b
  | n :: ns, f, b =>
    match b.child n with
    | some c => b.setChild n (modifyAt ns f c)
    | none => b

/-- Nesting depth of the buckets below `b`. -/
def depth : Bucket → Nat
  | .nil => 0
  | .val _ _ rest => rest.depth
  | .sub _ c rest => max (c.depth + 1) rest.depth

/-- No item of the bucket, at any nesting level, is a zero-length value. -/
def NoEmptyValues : Bucket → Prop
  | .nil => True
  | .val _ v rest => v ≠ [] ∧ rest.NoEmptyValues
  | .sub _ c rest => c.NoEmptyValues ∧ rest.NoEmptyValues

/-- bbolt `Bucket.ForEach`: calls `fn` on every item in order, with a nil value
for nested buckets, and stops at the first error. -/
def ForEach {σ : Type} : Bucket → (Bytes → Option Bytes → σ → Res Unit × σ) → σ → Res Unit × σ
  | .nil, _, s => (.ok (), s)
  | .val k v rest, fn, s =>
    match fn k (some v) s with
    | (.ok _, s1) => rest.ForEach fn s1
    | r => r
  | .sub n _ rest, fn, s =>
    match fn n none s with
    | (.ok _, s1) => rest.ForEach fn s1
    | r => r

end Bucket

/-! ## Transactions -/

/-- bbolt `MaxKeySize`. -/
def MaxKeySize : Nat := 32768

/-- bbolt `MaxValueSize`. -/
def MaxValueSize : Nat := 2 ^ 31 - 2

/-- An open bbolt transaction: the bucket tree it sees and whether it may write. -/
structure Tx where
  root : Bucket
  writable : Bool
  deriving DecidableEq, Repr

/-- A non-nil `*bbolt.Bucket` of a transaction: where the bucket lies below the
root. The root bucket of the transaction is `[]`. -/
abbrev Handle := List Bytes

namespace Tx

/-- bbolt `tx.Bucket(name)` (receiver `some []`) and `bu.Bucket(name)`: nil when
no nested bucket is bound to `name`; a nil receiver panics. -/
def bucket (tx : Tx) (bu : Option Handle) (name : Bytes) : Res (Option Handle × Tx) :=
  match bu with
  | none => .crash .nilDereference
  | some h =>
    match tx.root.descend h with
    | none => .crash .nilDereference
    | some b =>
      match b.child name with
      | some _ => .ok (some (h ++ [name]), tx)
      | none => .ok (none, tx)

/-- bbolt `tx.CreateBucketIfNotExists(name)` (receiver `some []`) and
`bu.CreateBucketIfNotExists(name)`. -/
def createBucketIfNotExists (tx : Tx) (bu : Option Handle) (name : Bytes) :
    Res (Option Handle × Tx) :=
  match bu with
  | none => .crash .nilDereference
  | some h =>
    if !tx.writable then .err .txNotWritable
    else if name.length = 0 then .err .bucketNameRequired
    else
      match tx.root.descend h with
      | none => .crash .nilDereference
      | some b =>
        match b.seek name with
        | some (.bucket _) => .ok (some (h ++ [name]), tx)
        | some (.value _) => .err .incompatibleValue
        | none =>
          .ok (some (h ++ [name]),
            { tx with root := Bucket.modifyAt h (fun c => c.store name (.bucket .nil)) tx.root })

/-- bbolt `bu.Put(key, value)`. -/
def put (tx : Tx) (bu : Option Handle) (key value : Bytes) : Res Tx :=
  match bu with
  | none => .crash .nilDereference
  | some h =>
    if !tx.writable then .err .txNotWritable
    else if key.length = 0 then .err .keyRequired
    else if key.length > MaxKeySize then .err .keyTooLarge
    else if value.length > MaxValueSize then .err .valueTooLarge
    else
      match tx.root.descend h with
      | none => .crash .nilDereference
      | some b =>
        match b.seek key with
        | some (.bucket _) => .err .incompatibleValue
        | _ =>
          .ok { tx with root := Bucket.modifyAt h (fun c => c.store key (.value value)) tx.root }

/-- bbolt `bu.ForEach(fn)` through a bucket pointer. -/
def forEachIn {σ : Type} (tx : Tx) (bu : Option Handle)
    (fn : Bytes → Option Bytes → σ → Res Unit × σ) (s : σ) : Res Unit × σ :=
  match bu with
  | none => (.crash .nilDereference, s)
  | some h =>
    match tx.root.descend h with
    | none => (.crash .nilDereference, s)
    | some b => b.ForEach fn s

/-- bbolt `tx.ForEach(fn)`: calls `fn(name, tx.Bucket(name))` for every key of
the root bucket. -/
def ForEach {σ : Type} (tx : Tx)
    (fn : Bytes → Option Handle → σ → Res Unit × σ) (s : σ) : Res Unit × σ :=
  tx.root.ForEach
    (fun k _ s1 =>
      match tx.bucket (some []) k with
      | .ok (b, _) => fn k b s1
      | .err e => (.err e, s1)
      | .crash f => (.crash f, s1))
    s

end Tx

/-! ## Databases -/

/-- An open `*bbolt.DB`. -/
structure DB where
  /-- committed contents -/
  root : Bucket
  /-- number of transactions begun on this handle -/
  txs : Nat
  /-- how many more write transactions the engine commits before a commit
  fails; `none` when it never fails -/
  commitsLeft : Option Nat
  deriving DecidableEq, Repr

/-- bbolt `db.Update(fn)`: runs `fn` in a write transaction, commits when it
returns nil and rolls back when it returns an error or panics. -/
def DB.Update (db : DB) (fn : Tx → Res Tx) : Res Unit × DB :=
  let db1 := { db with txs := db.txs + 1 }
  match fn { root := db.root, writable := true } with
  | .err e => (.err e, db1)
  | .crash f => (.crash f, db1)
  | .ok tx =>
    match db.commitsLeft with
    | some 0 => (.err .commitFailed, db1)
    | some (n + 1) => (.ok (), { db1 with root := tx.root, commitsLeft := some n })
    | none => (.ok (), { db1 with root := tx.root })

/-- bbolt `db.Begin(false)` as used by `db.View`: a read-only snapshot. -/
def DB.View (db : DB) : Tx × DB :=
  ({ root := db.root, writable := false }, { db with txs := db.txs + 1 })

/-! ## The package -/

/-- `type Upgrader struct { Old *bbolt.DB; New *bbolt.DB }` -/
structure Upgrader where
  Old : DB
  New : DB
  deriving DecidableEq, Repr

/-- `fmtstr`: every segment rendered as `[segment]`. -/
def fmtstr (k : List Bytes) : String :=
  k.foldl (fun s seg => s ++ "[" ++ String.mk (seg.map (fun b => Char.ofNat b.toNat)) ++ "]") ""

/-- The `for i := 1; i <= len(k)-1; i++` loop of `GetNestedBucket`, over the
segments that are still to be resolved. -/
def GetNestedBucket.loop (createIfNotExist : Bool) :
    List Bytes → Option Handle → Tx → Res (Option Handle × Tx)
  | [], bu, tx => .ok (bu, tx)
  | ki :: rest, bu, tx =>
    match (if createIfNotExist then tx.createBucketIfNotExists bu ki else tx.bucket bu ki) with
    | .err e => .err e
    | .crash f => .crash f
    | .ok (bu1, tx1) => GetNestedBucket.loop createIfNotExist rest bu1 tx1

/-- `GetNestedBucket(tx, bucketPath, createIfNotExist)`. -/
def GetNestedBucket (tx : Tx) (bucketPath : List Bytes) (createIfNotExist : Bool) :
    Res (Option Handle × Tx) :=
  match bucketPath with
  | [] => .err .needKeys
  | k0 :: ks =>
    match (if createIfNotExist then tx.createBucketIfNotExists (some []) k0
           else tx.bucket (some []) k0) with
    | .err e => .err e
    | .crash f => .crash f
    | .ok (bu, tx1) => GetNestedBucket.loop createIfNotExist ks bu tx1

/-- The function `WriteCopy` runs inside the write transaction. -/
def WriteCopy.fn (v : Bytes) (k : List Bytes) (tx : Tx) : Res Tx :=
  match GetNestedBucket tx k true with
  | .err e => .err e
  | .crash f => .crash f
  | .ok (bu, tx1) =>
    match k.getLast? with
    | none => .crash .indexOutOfRange
    | some last => tx1.put bu last v

/-- `Upgrader.WriteCopy(v, k...)`. -/
def WriteCopy (u : Upgrader) (v : Bytes) (k : List Bytes) : Res Unit × Upgrader :=
  if v.length = 0 then (.ok (), u)
  else
    let r := u.New.Update (WriteCopy.fn v k)
    (r.1, { u with New := r.2 })

/-- `Upgrader.ReadyWalker(baseBucket, tx)`. The first argument bounds the
recursion depth. -/
def ReadyWalker : Nat → Upgrader → List Bytes → Tx → Res Unit × Upgrader
  | 0, u, _, _ => (.crash .stackExhausted, u)
  | fuel + 1, u, baseBucket, tx =>
    let currentPath := baseBucket
    match GetNestedBucket tx currentPath false with
    | .err e => (.err e, u)
    | .crash f => (.crash f, u)
    | .ok (none, _) => (.err (.bucketNotFound (fmtstr currentPath)), u)
    | .ok (some oldbucket, tx1) =>
      tx1.forEachIn (some oldbucket)
        (fun k v u1 =>
          let cpath := baseBucket ++ [k]
          match v, tx1.bucket (some oldbucket) k with
          | none, .ok (some _, _) => ReadyWalker fuel u1 cpath tx1
          | none, .crash f => (.crash f, u1)
          | none, _ => (.ok (), u1)
          | some val, _ =>
            if val.length = 0 then (.ok (), u1)
            else WriteCopy u1 val cpath)
        u

/-- `Upgrader.Shrink()`, with the package variable `DangerZone` as a parameter. -/
def Shrink (DangerZone : Bool) (u : Upgrader) : Res Unit × Upgrader :=
  if !DangerZone then (.err .experimental, u)
  else
    let (tx, old1) := u.Old.View
    tx.ForEach (fun name _ u1 => ReadyWalker (tx.root.depth + 1) u1 [name] tx)
      { u with Old := old1 }

/-! ## Files -/

/-- What the process did to the file system. -/
inductive Event where
  | stat (path : String)
  | opened (path : String)
  | closed (path : String)
  deriving DecidableEq, Repr

/-- The file system as far as the package can observe it. -/
structure World where
  /-- the database files and their committed contents, each under the one
  name that identifies the file -/
  files : List (String × Bucket)
  /-- other spellings of a path (`./x.db`, a symbolic or hard link) and the
  file each of them names -/
  links : List (String × String)
  /-- paths `os.Stat` fails on whether or not the file exists (a directory
  that may not be searched, a name that is too long) -/
  unstatable : List String
  /-- paths `bbolt.Open` fails on -/
  unopenable : List String
  /-- the files a database handle holds open, under the engine's exclusive
  file lock -/
  locked : List String
  /-- commit budget handed to every handle opened -/
  commitsLeft : Option Nat
  /-- system calls so far, oldest first -/
  log : List Event
  /-- transactions begun on any handle so far -/
  txs : Nat
  deriving DecidableEq, Repr

namespace World

/-- The contents recorded for `path` in a list of files. -/
def findFile (fs : List (String × Bucket)) (path : String) : Option Bucket :=
  match fs.find? (fun f => f.1 = path) with
  | some f => some f.2
  | none => none

/-- The file a path names. -/
def resolve (w : World) (path : String) : String :=
  match w.links.find? (fun l => l.1 = path) with
  | some l => l.2
  | none => path

/-- Contents of the file at `path`, if it exists. -/
def fileAt (w : World) (path : String) : Option Bucket :=
  findFile w.files (w.resolve path)

/-- Replace the contents of the file at `path`. -/
def writeFile : List (String × Bucket) → String → Bucket → List (String × Bucket)
  | [], path, b => [(path, b)]
  | f :: fs, path, b => if f.1 = path then (path, b) :: fs else f :: writeFile fs path b

/-- `os.Stat(path)`, reduced to whether the returned error is nil: it is when
the file exists and the call does not fail for another reason. -/
def Stat (w : World) (path : String) : Bool × World :=
  (if path ∈ w.unstatable then false else (w.fileAt path).isSome,
    { w with log := w.log ++ [.stat path] })

/-- `bbolt.Open(path, 0600, Options)`: opens the file, creating an empty
database when it does not exist, and holds its lock until `Close`; fails when
the lock is not obtained within `Options.Timeout` because a handle holds the
file open. -/
def Open (w : World) (path : String) : Res DB × World :=
  if path ∈ w.unopenable then (.err .openFailed, w)
  else if w.resolve path ∈ w.locked then (.err .openFailed, w)
  else
    match w.fileAt path with
    | some root =>
      (.ok { root := root, txs := 0, commitsLeft := w.commitsLeft },
        { w with locked := w.resolve path :: w.locked, log := w.log ++ [.opened path] })
    | none =>
      (.ok { root := .nil, txs := 0, commitsLeft := w.commitsLeft },
        { w with
          files := writeFile w.files (w.resolve path) .nil
          locked := w.resolve path :: w.locked
          log := w.log ++ [.opened path] })

/-- `db.Close()`: the file holds what the handle committed and its lock is
released. -/
def Close (w : World) (path : String) (db : DB) : World :=
  { w with
    files := writeFile w.files (w.resolve path) db.root
    locked := w.locked.erase (w.resolve path)
    log := w.log ++ [.closed path]
    txs := w.txs + db.txs }

end World

/-- `ShrinkBoltDatabase(oldDbPath, newDbPath)`. -/
def ShrinkBoltDatabase (DangerZone : Bool) (w : World) (oldDbPath newDbPath : String) :
    Res Unit × World :=
  if oldDbPath = "" then (.err .missingCurrentDbPath, w)
  else if newDbPath = "" then (.err .missingNewDbPath, w)
  else if oldDbPath = newDbPath then (.err .pathsShouldNotEqual, w)
  else
    match w.Stat newDbPath with
    | (true, w1) => (.err .newDbExists, w1)
    | (false, w1) =>
      match w1.Open oldDbPath with
      | (.err e, w2) => (.err e, w2)
      | (.crash f, w2) => (.crash f, w2)
      | (.ok olddb, w2) =>
        match w2.Open newDbPath with
        | (.err e, w3) => (.err e, w3.Close oldDbPath olddb)
        | (.crash f, w3) => (.crash f, w3.Close oldDbPath olddb)
        | (.ok newdb, w3) =>
          let up : Upgrader := { Old := olddb, New := newdb }
          let r := Shrink DangerZone up
          (r.1, (w3.Close newDbPath r.2.New).Close oldDbPath r.2.Old)

/-! ## Auxiliary definitions for the proofs -/

/-- The bucket tree a write transaction holds after the chain of buckets
`path` has been resolved below `b` with creation of the missing ones; used to
characterise `GetNestedBucket` in creating mode. -/
def Bucket.ensure : List Bytes → Bucket → Res Bucket
  | [], b => .ok b
  | n :: ns, b =>
    if n.length = 0 then .err .bucketNameRequired
    else
      match b.seek n with
      | some (.value _) => .err .incompatibleValue
      | some (.bucket c) =>
        match Bucket.ensure ns c with
        | .ok c1 => .ok (b.setChild n c1)
        | .err e => .err e
        | .crash f => .crash f
      | none =>
        match Bucket.ensure ns .nil with
        | .ok c1 => .ok (b.store n (.bucket c1))
        | .err e => .err e
        | .crash f => .crash f

/-- Whether no segment of `path`, met while descending from `b`, is bound to
a plain value (decidable form of the precondition of creating resolution). -/
def Bucket.pathClear : Bucket → List Bytes → Bool
  | _, [] => true
  | b, n :: ns =>
    match b.seek n with
    | some (.value _) => false
    | some (.bucket c) => Bucket.pathClear c ns
    | none => true

/-! ## Sample stores -/

/-- The bytes of an ASCII string. -/
def str (s : String) : Bytes := s.toList.map (fun c => UInt8.ofNat c.toNat)

/-- The store `TestShrink` compacts: `names/first/american` with the entries
written by `testExpand`, after `testDelete` removed `names/first/junk`. -/
def testStore : Bucket :=
  .sub (str "names")
    (.sub (str "first")
      (.sub (str "american")
        (.val (str "bob") [2] (.val (str "joe") [1] (.val (str "john") [0] .nil)))
        .nil)
      .nil)
    .nil

/-- A freshly opened handle on a database with the given contents. -/
def openDB (root : Bucket) : DB := { root := root, txs := 0, commitsLeft := none }

/-- A file system holding the test store at `old.db` and nothing else. -/
def testWorld : World :=
  { files := [("old.db", testStore)], links := [], unstatable := [], unopenable := [],
    locked := [], commitsLeft := none, log := [], txs := 0 }

/-- A file system in which the destination `vault/new.db` exists inside a
directory that may not be searched: `os.Stat` and `bbolt.Open` both fail on
it with a permission error. -/
def vaultWorld : World :=
  { files := [("old.db", testStore), ("vault/new.db", testStore)], links := [],
    unstatable := ["vault/new.db"], unopenable := ["vault/new.db"],
    locked := [], commitsLeft := none, log := [], txs := 0 }

/-! ## The walk as a sequence of writes -/

namespace Bucket

/-- The keys of a bucket in iteration order. -/
def keys : Bucket → List Bytes
  | .nil => []
  | .val k _ rest => k :: rest.keys
  | .sub n _ rest => n :: rest.keys

/-- The items of one bucket followed by the items of another. -/
def append : Bucket → Bucket → Bucket
  | .nil, t => t
  | .val k v rest, t => .val k v (rest.append t)
  | .sub n c rest, t => .sub n c (rest.append t)

/-- Names are unique within each container, at every nesting level (the
invariant the engine keeps for every bucket). -/
def Unique : Bucket → Prop
  | .nil => True
  | .val k _ rest => k ∉ rest.keys ∧ rest.Unique
  | .sub n c rest => n ∉ rest.keys ∧ c.Unique ∧ rest.Unique

/-- Every item is a nested bucket, as in the root bucket of a database, which
has no `Put`. -/
def OnlyBuckets : Bucket → Prop
  | .nil => True
  | .val _ _ _ => False
  | .sub _ _ rest => rest.OnlyBuckets

/-- The calls `WriteCopy(v, path...)` issued, in order, by the walk of the
container located at `base` whose contents are the given items: one for every
value of non-zero length, nested containers being walked where they stand. -/
def writes : Bucket → List Bytes → List (List Bytes × Bytes)
  | .nil, _ => []
  | .val k v rest, base =>
    if v.length = 0 then rest.writes base else (base ++ [k], v) :: rest.writes base
  | .sub n c rest, base => c.writes (base ++ [n]) ++ rest.writes base

end Bucket

/-- A sequence of `WriteCopy` calls that stops at the first one that does not
return nil. -/
def writeAll : List (List Bytes × Bytes) → Upgrader → Res Unit × Upgrader
  | [], u => (.ok (), u)
  | (p, v) :: rest, u =>
    match WriteCopy u v p with
    | (.ok _, u1) => writeAll rest u1
    | r => r

instance Bucket.decUnique : (b : Bucket) → Decidable b.Unique
  | .nil => isTrue trivial
  | .val k _ rest =>
    have := Bucket.decUnique rest
    inferInstanceAs (Decidable (k ∉ rest.keys ∧ rest.Unique))
  | .sub n c rest =>
    have := Bucket.decUnique rest
    have := Bucket.decUnique c
    inferInstanceAs (Decidable (n ∉ rest.keys ∧ c.Unique ∧ rest.Unique))

instance Bucket.decOnlyBuckets : (b : Bucket) → Decidable b.OnlyBuckets
  | .nil => isTrue trivial
  | .val _ _ _ => isFalse (fun h => h)
  | .sub _ _ rest =>
    have := Bucket.decOnlyBuckets rest
    inferInstanceAs (Decidable rest.OnlyBuckets)

/-- The value bound to `key` inside the bucket at `path`, when `key` is bound
to a plain value there. -/
def Bucket.valueAt (b : Bucket) (path : List Bytes) (key : Bytes) : Option Bytes :=
  match b.lookup path key with
  | some (.value v) => some v
  | _ => none

namespace Bucket

/-- What `Put` and `CreateBucket` accepted when the store was filled: names
are not empty, and the key and the value of a plain entry are within the
engine's size limits. -/
def Storable : Bucket → Prop
  | .nil => True
  | .val k v rest => k ≠ [] ∧ k.length ≤ MaxKeySize ∧ v.length ≤ MaxValueSize ∧ rest.Storable
  | .sub n c rest => n ≠ [] ∧ c.Storable ∧ rest.Storable

/-- The tree is the root bucket of a database: it holds only buckets, and
names are unique within every container. -/
def IsStore (root : Bucket) : Prop := root.OnlyBuckets ∧ root.Unique

/-- A well-formed store: a database root all of whose names, keys and values
are such as the engine accepts. -/
def WellFormed (root : Bucket) : Prop := root.IsStore ∧ root.Storable

end Bucket

instance Bucket.decStorable : (b : Bucket) → Decidable b.Storable
  | .nil => isTrue trivial
  | .val k v rest =>
    have := Bucket.decStorable rest
    inferInstanceAs (Decidable
      (k ≠ [] ∧ k.length ≤ MaxKeySize ∧ v.length ≤ MaxValueSize ∧ rest.Storable))
  | .sub n c rest =>
    have := Bucket.decStorable rest
    have := Bucket.decStorable c
    inferInstanceAs (Decidable (n ≠ [] ∧ c.Storable ∧ rest.Storable))

instance Bucket.decIsStore (b : Bucket) : Decidable b.IsStore :=
  inferInstanceAs (Decidable (b.OnlyBuckets ∧ b.Unique))

instance Bucket.decWellFormed (b : Bucket) : Decidable b.WellFormed :=
  inferInstanceAs (Decidable (b.IsStore ∧ b.Storable))

/-- A store with an empty container (`empty`), a container holding only a
zero-length value (`junk`), and a container with one entry (`names`). -/
def sparseStore : Bucket :=
  .sub (str "empty") .nil
    (.sub (str "junk") (.val (str "gone") [] .nil)
      (.sub (str "names") (.val (str "john") [0] .nil) .nil))

/-- The number of plain entries of a bucket, nested buckets included. -/
def Bucket.valueCount : Bucket → Nat
  | .nil => 0
  | .val _ _ rest => rest.valueCount + 1
  | .sub _ c rest => c.valueCount + rest.valueCount

/-- The number of plain entries an item brings along. -/
def Item.valueCount : Item → Nat
  | .value _ => 1
  | .bucket c => c.valueCount

/-- A freshly opened handle on an empty database whose engine commits
`budget` write transactions and fails to commit the next one. -/
def failingDB (budget : Nat) : DB := { root := .nil, txs := 0, commitsLeft := some budget }

/-- The first two writes of the walk of the test store. -/
def firstTwoWrites : List (List Bytes × Bytes) :=
  [([str "names", str "first", str "american", str "bob"], [2]),
   ([str "names", str "first", str "american", str "joe"], [1])]

/-! ## Key order -/

/-- The keys of every container are in strictly ascending bytewise order (the
order in which the engine keeps and enumerates them). -/
def Bucket.Sorted : Bucket → Prop
  | .nil => True
  | .val k _ rest => (∀ k1 ∈ rest.keys, bytesLess k k1 = true) ∧ rest.Sorted
  | .sub n c rest => (∀ k1 ∈ rest.keys, bytesLess n k1 = true) ∧ c.Sorted ∧ rest.Sorted

instance Bucket.decSorted : (b : Bucket) → Decidable b.Sorted
  | .nil => isTrue trivial
  | .val k _ rest =>
    have := Bucket.decSorted rest
    inferInstanceAs (Decidable ((∀ k1 ∈ rest.keys, bytesLess k k1 = true) ∧ rest.Sorted))
  | .sub n c rest =>
    have := Bucket.decSorted rest
    have := Bucket.decSorted c
    inferInstanceAs (Decidable
      ((∀ k1 ∈ rest.keys, bytesLess n k1 = true) ∧ c.Sorted ∧ rest.Sorted))

/-- What an item requires of the bucket it may hold. -/
def Item.Sorted : Item → Prop
  | .value _ => True
  | .bucket c => c.Sorted

/-! ## Paths as Go slices -/

/-- A Go slice of byte strings that starts at the beginning of its backing
array: the array and the length. -/
structure Slice where
  arr : Nat
  len : Nat
  deriving DecidableEq, Repr

/-- The backing arrays allocated so far. Array `a` is allocated when
`a < next`; the length of its list is its capacity. -/
structure Heap where
  arrays : Nat → List Bytes
  next : Nat

namespace Heap

/-- The elements of a slice. -/
def read (h : Heap) (s : Slice) : List Bytes := (h.arrays s.arr).take s.len

/-- A new backing array holding `contents` and `spare` unused elements, and
the slice of its contents. -/
def alloc (h : Heap) (contents : List Bytes) (spare : Nat) : Heap × Slice :=
  ({ arrays := fun a => if a = h.next then contents ++ List.replicate spare [] else h.arrays a
     next := h.next + 1 },
   { arr := h.next, len := contents.length })

/-- Go `append(s, k)`: the element is written in place behind the slice when
the backing array has spare capacity; otherwise the elements are copied to a
new array, whose spare capacity is chosen by the runtime (`grow`). -/
def append (grow : Nat → Nat) (h : Heap) (s : Slice) (k : Bytes) : Heap × Slice :=
  if s.len < (h.arrays s.arr).length then
    ({ h with arrays := fun a => if a = s.arr then (h.arrays s.arr).set s.len k else h.arrays a },
     { arr := s.arr, len := s.len + 1 })
  else h.alloc (h.read s ++ [k]) (grow s.len)

/-- The slice lies within an allocated array. -/
def Valid (h : Heap) (s : Slice) : Prop := s.arr < h.next ∧ s.len ≤ (h.arrays s.arr).length

/-- From `h` to `h1` no array was freed or resized, and the only elements of
arrays of `h` that changed lie behind the slice `s` in its own backing array. -/
def Frame (h h1 : Heap) (s : Slice) : Prop :=
  h.next ≤ h1.next ∧
  ∀ a, a < h.next →
    (h1.arrays a).length = (h.arrays a).length ∧
    ∀ n, (a ≠ s.arr ∨ n ≤ s.len) → (h1.arrays a).take n = (h.arrays a).take n

end Heap

/-- `Upgrader.ReadyWalker` with its paths as Go slices: `currentPath` is a
fresh copy, `cpath` is `append(baseBucket, k)`, which shares the backing array
of `baseBucket` when that has spare capacity. -/
def ReadyWalkerSlices (grow : Nat → Nat) :
    Nat → Heap × Upgrader → Slice → Tx → Res Unit × (Heap × Upgrader)
  | 0, st, _, _ => (.crash .stackExhausted, st)
  | fuel + 1, st, baseBucket, tx =>
    let hc := st.1.alloc (st.1.read baseBucket) 0
    let currentPath := hc.2
    match GetNestedBucket tx (hc.1.read currentPath) false with
    | .err e => (.err e, (hc.1, st.2))
    | .crash f => (.crash f, (hc.1, st.2))
    | .ok (none, _) => (.err (.bucketNotFound (fmtstr (hc.1.read currentPath))), (hc.1, st.2))
    | .ok (some oldbucket, tx1) =>
      tx1.forEachIn (some oldbucket)
        (fun k v st1 =>
          let ha := st1.1.append grow baseBucket k
          let cpath := ha.2
          match v, tx1.bucket (some oldbucket) k with
          | none, .ok (some _, _) => ReadyWalkerSlices grow fuel (ha.1, st1.2) cpath tx1
          | none, .crash f => (.crash f, (ha.1, st1.2))
          | none, _ => (.ok (), (ha.1, st1.2))
          | some val, _ =>
            if val.length = 0 then (.ok (), (ha.1, st1.2))
            else
              let r := WriteCopy st1.2 val (ha.1.read cpath)
              (r.1, (ha.1, r.2)))
        (hc.1, st.2)

/-- `Upgrader.Shrink` with the paths as Go slices: every root bucket is
walked from the one-element slice literal `[][]byte{name}`. -/
def ShrinkSlices (grow : Nat → Nat) (DangerZone : Bool) (st : Heap × Upgrader) :
    Res Unit × (Heap × Upgrader) :=
  if !DangerZone then (.err .experimental, st)
  else
    let (tx, old1) := st.2.Old.View
    tx.ForEach
      (fun name _ st1 =>
        let hl := st1.1.alloc [name] 0
        ReadyWalkerSlices grow (tx.root.depth + 1) (hl.1, st1.2) hl.2 tx)
      (st.1, { st.2 with Old := old1 })

/-- A heap with one backing array of capacity 4 that holds the path `names`,
`first`, and the slice of these two elements. -/
def spareHeap : Heap :=
  { arrays := fun a => if a = 0 then [str "names", str "first", [], []] else [], next := 1 }

/-! ## Filling a store -/

/-- An entry of a store: the path of its container, its key and its value. -/
structure Entry where
  path : List Bytes
  key : Bytes
  value : Bytes
  deriving DecidableEq, Repr

/-- One entry written through the engine in a write transaction, the way
`testExpand` fills `names/first/american`: `CreateBucketIfNotExists` for every
segment of the path, then `Put` of the value under its key. -/
def Tx.putEntry (tx : Tx) (e : Entry) : Res Tx :=
  match GetNestedBucket tx e.path true with
  | .err x => .err x
  | .crash f => .crash f
  | .ok (bu, tx1) => tx1.put bu e.key e.value

/-- Entries written one after the other, up to the first failure. -/
def Tx.putEntries : List Entry → Tx → Res Tx
  | [], tx => .ok tx
  | e :: rest, tx =>
    match tx.putEntry e with
    | .err x => .err x
    | .crash f => .crash f
    | .ok tx1 => Tx.putEntries rest tx1

/-- The store that holds the given entries after they were written, in the
order of the list, into an empty database. -/
def storeOf (l : List Entry) : Res Bucket :=
  match Tx.putEntries l { root := .nil, writable := true } with
  | .err x => .err x
  | .crash f => .crash f
  | .ok tx => .ok tx.root

/-- Lexicographic order of paths, segments compared in bytewise order. -/
def pathLess : List Bytes → List Bytes → Bool
  | [], [] => false
  | [], _ :: _ => true
  | _ :: _, [] => false
  | a :: as, b :: bs => bytesLess a b || (decide (a = b) && pathLess as bs)

/-- The entries of `names/first/american` in the order in which `testExpand`
puts them. -/
def testEntries : List Entry :=
  [{ path := [str "names", str "first", str "american"], key := str "john", value := [0] },
   { path := [str "names", str "first", str "american"], key := str "joe", value := [1] },
   { path := [str "names", str "first", str "american"], key := str "bob", value := [2] }]

/-- A file system without database files in which `./x.db` is another
spelling of `x.db`. -/
def aliasWorld : World :=
  { files := [], links := [("./x.db", "x.db")], unstatable := [], unopenable := [],
    locked := [], commitsLeft := none, log := [], txs := 0 }

/-! ## Buckets: lookup and update -/

namespace Bucket

theorem seek_cons (k : Bytes) (it : Item) (rest : Bucket) (key : Bytes) :
    (cons k it rest).seek key = if k = key then some it else rest.seek key := by
  cases it <;> simp [cons, seek]

theorem seek_store_same (b : Bucket) (k : Bytes) (it : Item) :
    (b.store k it).seek k = some it := by
  induction b with
  | nil => simp [store, seek_cons]
  | val k0 v0 rest ih =>
    simp only [store]
    split
    · simp [seek_cons]
    · split
      · simp [seek_cons]
      · simp [seek, ih, *]
  | sub n0 c0 rest _ ih =>
    simp only [store]
    split
    · simp [seek_cons]
    · split
      · simp [seek_cons]
      · simp [seek, ih, *]

theorem seek_store_other (b : Bucket) (k : Bytes) (it : Item) (key : Bytes) (h : key ≠ k) :
    (b.store k it).seek key = b.seek key := by
  have h' : ¬ k = key := fun e => h e.symm
  induction b with
  | nil => simp [store, seek_cons, seek, h']
  | val k0 v0 rest ih =>
    simp only [store]
    split
    · rename_i e; subst e; simp [seek_cons, seek, h']
    · split
      · simp [seek_cons, seek, h']
      · simp [seek, ih]
  | sub n0 c0 rest _ ih =>
    simp only [store]
    split
    · rename_i e; subst e; simp [seek_cons, seek, h']
    · split
      · simp [seek_cons, seek, h']
      · simp [seek, ih]

theorem store_cons_same (k : Bytes) (i1 i2 : Item) (rest : Bucket) :
    (cons k i1 rest).store k i2 = cons k i2 rest := by
  cases i1 <;> simp [cons, store]

theorem store_store (b : Bucket) (k : Bytes) (i1 i2 : Item) :
    (b.store k i1).store k i2 = b.store k i2 := by
  induction b with
  | nil => simp [store, store_cons_same]
  | val k0 v0 rest ih =>
    simp only [store]
    split
    · simp [store_cons_same]
    · split
      · simp [store_cons_same]
      · simp [store, ih, *]
  | sub n0 c0 rest _ ih =>
    simp only [store]
    split
    · simp [store_cons_same]
    · split
      · simp [store_cons_same]
      · simp [store, ih, *]

theorem setChild_store (b : Bucket) (k : Bytes) (c0 c : Bucket) :
    (b.store k (.bucket c0)).setChild k c = b.store k (.bucket c) := by
  induction b with
  | nil => simp [store, cons, setChild]
  | val k0 v0 rest ih =>
    simp only [store]
    split
    · simp [cons, setChild]
    · split
      · simp [cons, setChild]
      · simp [setChild, ih, *]
  | sub n0 c1 rest _ ih =>
    simp only [store]
    split
    · simp [cons, setChild]
    · split
      · simp [cons, setChild]
      · simp [setChild, ih, *]

theorem seek_setChild_other (b : Bucket) (n : Bytes) (c : Bucket) (key : Bytes) (h : key ≠ n) :
    (b.setChild n c).seek key = b.seek key := by
  induction b with
  | nil => simp [setChild]
  | val k0 v0 rest ih =>
    simp only [setChild]
    split
    · rfl
    · simp [seek, ih]
  | sub n0 c0 rest _ ih =>
    simp only [setChild]
    split
    · rename_i e; subst e
      have : ¬ n0 = key := fun e => h e.symm
      simp [seek, this]
    · simp [seek, ih]

theorem child_setChild_other (b : Bucket) (n : Bytes) (c : Bucket) (key : Bytes) (h : key ≠ n) :
    (b.setChild n c).child key = b.child key := by
  simp [child, seek_setChild_other b n c key h]

theorem seek_eq_of_child {b : Bucket} {n : Bytes} {c : Bucket} (h : b.child n = some c) :
    b.seek n = some (.bucket c) := by
  unfold child at h
  split at h
  · rename_i c1 e; simp at h; subst h; exact e
  · simp at h

theorem child_eq_of_seek {b : Bucket} {n : Bytes} {c : Bucket} (h : b.seek n = some (.bucket c)) :
    b.child n = some c := by
  simp [child, h]

theorem seek_setChild_same (b : Bucket) (n : Bytes) (c0 c : Bucket)
    (h : b.seek n = some (.bucket c0)) : (b.setChild n c).seek n = some (.bucket c) := by
  induction b with
  | nil => simp [seek] at h
  | val k0 v0 rest ih =>
    simp only [seek] at h
    split at h
    · simp at h
    · simp [setChild, seek, *]
  | sub n0 c1 rest _ ih =>
    simp only [seek] at h
    split at h
    · simp [setChild, seek, *]
    · simp [setChild, seek, *]

theorem setChild_self (b : Bucket) (n : Bytes) (c : Bucket)
    (h : b.seek n = some (.bucket c)) : b.setChild n c = b := by
  induction b with
  | nil => rfl
  | val k0 v0 rest ih =>
    simp only [seek] at h
    split at h
    · simp at h
    · simp [setChild, *]
  | sub n0 c1 rest _ ih =>
    simp only [seek] at h
    split at h
    · simp at h; simp [setChild, *]
    · simp [setChild, *]

theorem setChild_setChild (b : Bucket) (n : Bytes) (c1 c2 : Bucket) :
    (b.setChild n c1).setChild n c2 = b.setChild n c2 := by
  induction b with
  | nil => rfl
  | val k0 v0 rest ih =>
    simp only [setChild]
    split
    · simp [setChild, *]
    · simp [setChild, *]
  | sub n0 c0 rest _ ih =>
    simp only [setChild]
    split
    · simp [setChild, *]
    · simp [setChild, *]

end Bucket

namespace Bucket

theorem descend_append (b : Bucket) (p q : List Bytes) :
    b.descend (p ++ q) = (b.descend p).bind (fun c => c.descend q) := by
  induction p generalizing b with
  | nil => simp [descend]
  | cons n ns ih =>
    simp only [List.cons_append, descend]
    cases b.child n with
    | none => simp
    | some c => simp [ih]

theorem child_setChild_same (b : Bucket) (n : Bytes) (c0 c : Bucket)
    (h : b.child n = some c0) : (b.setChild n c).child n = some c :=
  child_eq_of_seek (seek_setChild_same b n c0 c (seek_eq_of_child h))

theorem modifyAt_self (p : List Bytes) (b c : Bucket) (h : b.descend p = some c) :
    modifyAt p (fun _ => c) b = b := by
  induction p generalizing b with
  | nil => simp [descend] at h; simp [modifyAt, h]
  | cons n ns ih =>
    simp only [descend] at h
    simp only [modifyAt]
    cases hc : b.child n with
    | none => simp
    | some c1 =>
      rw [hc] at h
      simp only [ih c1 h]
      exact setChild_self b n c1 (seek_eq_of_child hc)

theorem modifyAt_congr (p : List Bytes) (f g : Bucket → Bucket) (b c : Bucket)
    (h : b.descend p = some c) (hfg : f c = g c) : modifyAt p f b = modifyAt p g b := by
  induction p generalizing b with
  | nil => simp [descend] at h; simp [modifyAt, h, hfg]
  | cons n ns ih =>
    simp only [descend] at h
    simp only [modifyAt]
    cases hc : b.child n with
    | none => simp
    | some c1 =>
      rw [hc] at h
      simp only [ih c1 h]

theorem modifyAt_append (p q : List Bytes) (f : Bucket → Bucket) (b : Bucket) :
    modifyAt (p ++ q) f b = modifyAt p (modifyAt q f) b := by
  induction p generalizing b with
  | nil => simp [modifyAt]
  | cons n ns ih =>
    simp only [List.cons_append, modifyAt]
    cases b.child n with
    | none => simp
    | some c => simp [ih]

theorem modifyAt_modifyAt (p : List Bytes) (f g : Bucket → Bucket) (b : Bucket) :
    modifyAt p g (modifyAt p f b) = modifyAt p (fun c => g (f c)) b := by
  induction p generalizing b with
  | nil => simp [modifyAt]
  | cons n ns ih =>
    simp only [modifyAt]
    cases hc : b.child n with
    | none => simp [hc]
    | some c =>
      simp only [child_setChild_same b n c _ hc, setChild_setChild, ih]

theorem descend_modifyAt (p : List Bytes) (f : Bucket → Bucket) (b c : Bucket)
    (h : b.descend p = some c) : (modifyAt p f b).descend p = some (f c) := by
  induction p generalizing b with
  | nil => simp [descend] at h; simp [modifyAt, descend, h]
  | cons n ns ih =>
    simp only [descend] at h
    simp only [modifyAt]
    cases hc : b.child n with
    | none => simp [hc] at h
    | some c1 =>
      rw [hc] at h
      simp only [descend, child_setChild_same b n c1 _ hc]
      exact ih c1 h

theorem descend_nil (p : List Bytes) (h : p ≠ []) : Bucket.nil.descend p = none := by
  cases p with
  | nil => exact absurd rfl h
  | cons n ns => simp [descend, child, seek]

theorem lookup_nil (p : List Bytes) (key : Bytes) : Bucket.nil.lookup p key = none := by
  cases p with
  | nil => simp [lookup, descend, seek]
  | cons n ns => simp [lookup, descend, child, seek]

/-! ### Zero-length values -/

theorem NoEmptyValues.cons {k : Bytes} {it : Item} {rest : Bucket}
    (hit : ∀ v, it = .value v → v ≠ []) (hb : ∀ c, it = .bucket c → c.NoEmptyValues)
    (hr : rest.NoEmptyValues) : (Bucket.cons k it rest).NoEmptyValues := by
  cases it with
  | value v => exact ⟨hit v rfl, hr⟩
  | bucket c => exact ⟨hb c rfl, hr⟩

theorem NoEmptyValues.store {b : Bucket} (k : Bytes) {it : Item} (h : b.NoEmptyValues)
    (hit : ∀ v, it = .value v → v ≠ []) (hb : ∀ c, it = .bucket c → c.NoEmptyValues) :
    (b.store k it).NoEmptyValues := by
  induction b with
  | nil => exact NoEmptyValues.cons hit hb trivial
  | val k0 v0 rest ih =>
    simp only [Bucket.store]
    split
    · exact NoEmptyValues.cons hit hb h.2
    · split
      · exact NoEmptyValues.cons hit hb h
      · exact ⟨h.1, ih h.2⟩
  | sub n0 c0 rest _ ih =>
    simp only [Bucket.store]
    split
    · exact NoEmptyValues.cons hit hb h.2
    · split
      · exact NoEmptyValues.cons hit hb h
      · exact ⟨h.1, ih h.2⟩

theorem NoEmptyValues.setChild {b : Bucket} (n : Bytes) {c : Bucket} (h : b.NoEmptyValues)
    (hc : c.NoEmptyValues) : (b.setChild n c).NoEmptyValues := by
  induction b with
  | nil => trivial
  | val k0 v0 rest ih =>
    simp only [Bucket.setChild]
    split
    · exact h
    · exact ⟨h.1, ih h.2⟩
  | sub n0 c0 rest _ ih =>
    simp only [Bucket.setChild]
    split
    · exact ⟨hc, h.2⟩
    · exact ⟨h.1, ih h.2⟩

theorem NoEmptyValues.seek {b : Bucket} (h : b.NoEmptyValues) (key : Bytes) :
    (∀ v, b.seek key = some (.value v) → v ≠ []) ∧
    (∀ c, b.seek key = some (.bucket c) → c.NoEmptyValues) := by
  induction b with
  | nil => simp [Bucket.seek]
  | val k0 v0 rest ih =>
    simp only [Bucket.seek]
    split
    · constructor
      · intro v hv; simp at hv; subst hv; exact h.1
      · intro c hc; simp at hc
    · exact ih h.2
  | sub n0 c0 rest _ ih =>
    simp only [Bucket.seek]
    split
    · constructor
      · intro v hv; simp at hv
      · intro c hc; simp at hc; subst hc; exact h.1
    · exact ih h.2

theorem NoEmptyValues.child {b c : Bucket} {n : Bytes} (h : b.NoEmptyValues)
    (hc : b.child n = some c) : c.NoEmptyValues :=
  (h.seek n).2 c (seek_eq_of_child hc)

theorem NoEmptyValues.descend {b c : Bucket} {p : List Bytes} (h : b.NoEmptyValues)
    (hc : b.descend p = some c) : c.NoEmptyValues := by
  induction p generalizing b with
  | nil => simp [Bucket.descend] at hc; subst hc; exact h
  | cons n ns ih =>
    simp only [Bucket.descend] at hc
    cases hn : b.child n with
    | none => simp [hn] at hc
    | some c1 => rw [hn] at hc; exact ih (h.child hn) hc

theorem NoEmptyValues.modifyAt {b : Bucket} (p : List Bytes) {f : Bucket → Bucket}
    (h : b.NoEmptyValues) (hf : ∀ c, c.NoEmptyValues → (f c).NoEmptyValues) :
    (Bucket.modifyAt p f b).NoEmptyValues := by
  induction p generalizing b with
  | nil => exact hf b h
  | cons n ns ih =>
    simp only [Bucket.modifyAt]
    cases hn : b.child n with
    | none => exact h
    | some c => exact h.setChild n (ih (h.child hn))

theorem NoEmptyValues.lookup {b : Bucket} (h : b.NoEmptyValues) (p : List Bytes) (key : Bytes) :
    b.lookup p key ≠ some (.value []) := by
  unfold Bucket.lookup
  cases hc : b.descend p with
  | none => simp
  | some c =>
    intro hv
    exact ((h.descend hc).seek key).1 [] hv rfl

end Bucket

/-! ## The destination never receives a zero-length value -/

theorem Tx.createBucketIfNotExists_noEmpty {tx tx1 : Tx} {bu bu1 : Option Handle} {name : Bytes}
    (h : tx.root.NoEmptyValues) (hr : tx.createBucketIfNotExists bu name = .ok (bu1, tx1)) :
    tx1.root.NoEmptyValues := by
  unfold Tx.createBucketIfNotExists at hr
  split at hr
  · simp at hr
  · split at hr
    · simp at hr
    · split at hr
      · simp at hr
      · split at hr
        · simp at hr
        · split at hr
          · simp at hr; rw [← hr.2]; exact h
          · simp at hr
          · simp at hr
            rw [← hr.2]
            exact h.modifyAt _ (fun c hc => hc.store name (by simp) (by intro c1 e; cases e; trivial))

theorem Tx.put_noEmpty {tx tx1 : Tx} {bu : Option Handle} {key value : Bytes}
    (h : tx.root.NoEmptyValues) (hv : value ≠ []) (hr : tx.put bu key value = .ok tx1) :
    tx1.root.NoEmptyValues := by
  unfold Tx.put at hr
  split at hr
  · simp at hr
  · split at hr
    · simp at hr
    · split at hr
      · simp at hr
      · split at hr
        · simp at hr
        · split at hr
          · simp at hr
          · split at hr
            · simp at hr
            · split at hr
              · simp at hr
              · simp at hr
                rw [← hr]
                exact h.modifyAt _
                  (fun c hc => hc.store key (by intro v e; cases e; exact hv) (by simp))

theorem GetNestedBucket.loop_create_noEmpty (rest : List Bytes) {tx tx1 : Tx}
    {bu bu1 : Option Handle} (h : tx.root.NoEmptyValues)
    (hr : GetNestedBucket.loop true rest bu tx = .ok (bu1, tx1)) : tx1.root.NoEmptyValues := by
  induction rest generalizing bu tx with
  | nil => simp [GetNestedBucket.loop] at hr; rw [← hr.2]; exact h
  | cons ki rest ih =>
    simp only [GetNestedBucket.loop, if_true] at hr
    cases hc : tx.createBucketIfNotExists bu ki with
    | err e => simp [hc] at hr
    | crash f => simp [hc] at hr
    | ok r =>
      obtain ⟨bu2, tx2⟩ := r
      rw [hc] at hr
      exact ih (Tx.createBucketIfNotExists_noEmpty h hc) hr

theorem GetNestedBucket_eq_loop (tx : Tx) (k0 : Bytes) (ks : List Bytes) (create : Bool) :
    GetNestedBucket tx (k0 :: ks) create = GetNestedBucket.loop create (k0 :: ks) (some []) tx :=
  rfl

theorem WriteCopy.fn_noEmpty {v : Bytes} {k : List Bytes} {tx tx1 : Tx}
    (h : tx.root.NoEmptyValues) (hv : v ≠ []) (hr : WriteCopy.fn v k tx = .ok tx1) :
    tx1.root.NoEmptyValues := by
  unfold WriteCopy.fn at hr
  cases hg : GetNestedBucket tx k true with
  | err e => simp [hg] at hr
  | crash f => simp [hg] at hr
  | ok r =>
    obtain ⟨bu, tx2⟩ := r
    simp only [hg] at hr
    have h2 : tx2.root.NoEmptyValues := by
      cases k with
      | nil => simp [GetNestedBucket] at hg
      | cons k0 ks =>
        rw [GetNestedBucket_eq_loop] at hg
        exact GetNestedBucket.loop_create_noEmpty _ h hg
    cases hl : k.getLast? with
    | none => simp [hl] at hr
    | some last =>
      simp only [hl] at hr
      exact Tx.put_noEmpty h2 hv hr

theorem DB.Update_root (db : DB) (fn : Tx → Res Tx) :
    (db.Update fn).2.root = db.root ∨
      ∃ tx, fn { root := db.root, writable := true } = .ok tx ∧ (db.Update fn).2.root = tx.root := by
  unfold DB.Update
  cases hf : fn { root := db.root, writable := true } with
  | err e => simp
  | crash f => simp
  | ok tx =>
    cases hc : db.commitsLeft with
    | none => right; exact ⟨tx, rfl, by simp⟩
    | some n =>
      cases n with
      | zero => simp
      | succ m => right; exact ⟨tx, rfl, by simp⟩

theorem WriteCopy_noEmpty (u : Upgrader) (v : Bytes) (k : List Bytes)
    (h : u.New.root.NoEmptyValues) : (WriteCopy u v k).2.New.root.NoEmptyValues := by
  unfold WriteCopy
  split
  · exact h
  · rename_i hv
    have hv1 : v ≠ [] := by intro e; subst e; simp at hv
    simp only
    rcases DB.Update_root u.New (WriteCopy.fn v k) with h1 | ⟨tx, h1, h2⟩
    · rw [h1]; exact h
    · rw [h2]; exact @WriteCopy.fn_noEmpty v k ⟨u.New.root, true⟩ tx h hv1 h1

theorem WriteCopy_Old (u : Upgrader) (v : Bytes) (k : List Bytes) :
    (WriteCopy u v k).2.Old = u.Old := by
  unfold WriteCopy
  split <;> rfl

/-- An invariant of the state that every callback preserves is preserved by
the whole iteration. -/
theorem Bucket.ForEach_invariant {σ : Type} (P : σ → Prop) (b : Bucket)
    (fn : Bytes → Option Bytes → σ → Res Unit × σ)
    (hfn : ∀ k v s, P s → P (fn k v s).2) (s : σ) (hs : P s) : P (b.ForEach fn s).2 := by
  induction b generalizing s with
  | nil => exact hs
  | val k v rest ih =>
    simp only [Bucket.ForEach]
    have := hfn k (some v) s hs
    cases hr : fn k (some v) s with
    | mk r s1 =>
      rw [hr] at this
      cases r with
      | ok a => exact ih s1 this
      | err e => exact this
      | crash f => exact this
  | sub n c rest _ ih =>
    simp only [Bucket.ForEach]
    have := hfn n none s hs
    cases hr : fn n none s with
    | mk r s1 =>
      rw [hr] at this
      cases r with
      | ok a => exact ih s1 this
      | err e => exact this
      | crash f => exact this

theorem Tx.forEachIn_invariant {σ : Type} (P : σ → Prop) (tx : Tx) (bu : Option Handle)
    (fn : Bytes → Option Bytes → σ → Res Unit × σ)
    (hfn : ∀ k v s, P s → P (fn k v s).2) (s : σ) (hs : P s) : P (tx.forEachIn bu fn s).2 := by
  unfold Tx.forEachIn
  cases bu with
  | none => exact hs
  | some h =>
    simp only
    cases tx.root.descend h with
    | none => exact hs
    | some b => exact Bucket.ForEach_invariant P b fn hfn s hs

theorem ReadyWalker_invariant (P : Upgrader → Prop)
    (hw : ∀ u v k, P u → P (WriteCopy u v k).2) (fuel : Nat) (u : Upgrader)
    (baseBucket : List Bytes) (tx : Tx) (hu : P u) : P (ReadyWalker fuel u baseBucket tx).2 := by
  induction fuel generalizing u baseBucket tx with
  | zero => exact hu
  | succ fuel ih =>
    unfold ReadyWalker
    simp only
    cases hg : GetNestedBucket tx baseBucket false with
    | err e => exact hu
    | crash f => exact hu
    | ok r =>
      obtain ⟨bu, tx1⟩ := r
      cases bu with
      | none => exact hu
      | some oldbucket =>
        simp only
        apply Tx.forEachIn_invariant P
        · intro k v s hs
          cases v with
          | none =>
            cases hb : tx1.bucket (some oldbucket) k with
            | err e => exact hs
            | crash f => exact hs
            | ok r2 =>
              obtain ⟨b2, tx2⟩ := r2
              cases b2 with
              | none => exact hs
              | some h2 => exact ih s _ tx1 hs
          | some val =>
            simp only
            split
            · exact hs
            · exact hw s val _ hs
        · exact hu

theorem Shrink_invariant (P : Upgrader → Prop)
    (hw : ∀ u v k, P u → P (WriteCopy u v k).2)
    (hold : ∀ (u : Upgrader) (old : DB), P u → P { u with Old := old })
    (DangerZone : Bool) (u : Upgrader) (hu : P u) : P (Shrink DangerZone u).2 := by
  unfold Shrink
  split
  · exact hu
  · simp only [DB.View, Tx.ForEach]
    apply Bucket.ForEach_invariant P
    · intro k v s hs
      split
      · exact ReadyWalker_invariant P hw _ s _ _ hs
      · exact hs
      · exact hs
    · exact hold u _ hu

/-- C2: whatever the source store holds and whatever `Shrink` returns (nil, an
error, or a panic), a destination that started out empty contains no entry
with a zero-length value afterwards, at any nesting level; in particular no
key at any path of the destination is bound to a zero-length value. An entry
with a zero-length value is never written: `WriteCopy` of such a value returns
nil without beginning a transaction. -/
theorem C2_destination_has_no_zero_length_value (DangerZone : Bool) (old : DB) (n : Nat)
    (budget : Option Nat) :
    (Shrink DangerZone
        { Old := old, New := { root := .nil, txs := n, commitsLeft := budget } }).2.New.root.NoEmptyValues ∧
    (∀ (path : List Bytes) (key : Bytes),
      (Shrink DangerZone
        { Old := old, New := { root := .nil, txs := n, commitsLeft := budget } }).2.New.root.lookup
          path key ≠ some (.value [])) ∧
    ∀ (u : Upgrader) (k : List Bytes), WriteCopy u [] k = (.ok (), u) := by
  have h := Shrink_invariant (fun u => u.New.root.NoEmptyValues)
    (fun u v k hu => WriteCopy_noEmpty u v k hu) (fun _ _ hu => hu) DangerZone
    { Old := old, New := { root := .nil, txs := n, commitsLeft := budget } } trivial
  exact ⟨h, fun path key => h.lookup path key, fun u k => by simp [WriteCopy]⟩

/-! ## The safety gate and the argument checks -/

/-- C4: with `DangerZone` false, `Shrink` returns the safety-gate error and
leaves both database handles exactly as they were: no transaction is begun on
the source or on the destination and the destination contents are untouched. -/
theorem C4_safety_gate_blocks_Shrink (u : Upgrader) :
    Shrink false u = (.err .experimental, u) ∧
    (Shrink false u).2.Old.txs = u.Old.txs ∧
    (Shrink false u).2.New.txs = u.New.txs ∧
    (Shrink false u).2.New.root = u.New.root := by
  simp [Shrink]

theorem World.findFile_writeFile_same (fs : List (String × Bucket)) (p : String) (b : Bucket) :
    World.findFile (World.writeFile fs p b) p = some b := by
  induction fs with
  | nil => simp [World.writeFile, World.findFile]
  | cons f fs ih =>
    simp only [World.writeFile]
    split
    · simp [World.findFile]
    · simp only [World.findFile] at ih ⊢
      simp [List.find?, *]

theorem World.findFile_writeFile_other (fs : List (String × Bucket)) (p q : String) (b : Bucket)
    (h : q ≠ p) : World.findFile (World.writeFile fs p b) q = World.findFile fs q := by
  have h' : ¬ p = q := fun e => h e.symm
  induction fs with
  | nil => simp [World.writeFile, World.findFile, h']
  | cons f fs ih =>
    simp only [World.writeFile]
    split
    · rename_i e
      have : ¬ f.1 = q := by rw [e]; exact h'
      simp [World.findFile, List.find?, h', this]
    · simp only [World.findFile] at ih ⊢
      by_cases hq : f.1 = q
      · simp [List.find?, hq]
      · simp [List.find?, hq, ih]

/-- C5 (as stated, refuted): the destination `vault/new.db` exists, but
`os.Stat` fails on it, which the code takes for absence: `ShrinkBoltDatabase`
goes on, opens and closes the source store, and returns the error of opening
the destination, which is not an argument error. -/
theorem C5_unexaminable_destination_passes_the_check :
    (vaultWorld.fileAt "vault/new.db").isSome = true ∧
    (ShrinkBoltDatabase true vaultWorld "old.db" "vault/new.db").1 = .err .openFailed ∧
    Error.openFailed.isArgument = false ∧
    (ShrinkBoltDatabase true vaultWorld "old.db" "vault/new.db").2.log =
      [.stat "vault/new.db", .opened "old.db", .closed "old.db"] := by
  decide

/-- C5 (amended): when `os.Stat` succeeds on the destination path (and the
source path is not empty), `ShrinkBoltDatabase` fails with one of its argument
errors; no file is opened (the only system call that may have been made is the
`Stat` of the destination), no transaction is begun, no file lock is taken,
and every file, the destination included, keeps its contents. -/
theorem C5_existing_destination_rejected (DangerZone : Bool) (w : World)
    (oldDbPath newDbPath : String) (hold : oldDbPath ≠ "")
    (hstat : (w.Stat newDbPath).1 = true) :
    (∃ e, (ShrinkBoltDatabase DangerZone w oldDbPath newDbPath).1 = .err e ∧
      e.isArgument = true) ∧
    (ShrinkBoltDatabase DangerZone w oldDbPath newDbPath).2.files = w.files ∧
    (ShrinkBoltDatabase DangerZone w oldDbPath newDbPath).2.locked = w.locked ∧
    (ShrinkBoltDatabase DangerZone w oldDbPath newDbPath).2.txs = w.txs ∧
    ((ShrinkBoltDatabase DangerZone w oldDbPath newDbPath).2.log = w.log ∨
      (ShrinkBoltDatabase DangerZone w oldDbPath newDbPath).2.log =
        w.log ++ [.stat newDbPath]) := by
  by_cases h1 : newDbPath = ""
  · simp [ShrinkBoltDatabase, hold, h1, Error.isArgument]
  · by_cases h2 : oldDbPath = newDbPath
    · simp [ShrinkBoltDatabase, hold, h1, h2, Error.isArgument]
    · have hs : w.Stat newDbPath = (true, { w with log := w.log ++ [.stat newDbPath] }) :=
        Prod.ext hstat rfl
      simp [ShrinkBoltDatabase, hold, h1, h2, hs, Error.isArgument]

/-- Witness for the amended C5: the destination path is the existing file
`old.db`. -/
theorem C5_existing_destination_rejected_witness :
    (testWorld.Stat "old.db").1 = true ∧
    (∃ e, (ShrinkBoltDatabase true testWorld "src.db" "old.db").1 = .err e ∧
      e.isArgument = true) ∧
    (ShrinkBoltDatabase true testWorld "src.db" "old.db").2.files = testWorld.files ∧
    (ShrinkBoltDatabase true testWorld "src.db" "old.db").2.locked = testWorld.locked ∧
    (ShrinkBoltDatabase true testWorld "src.db" "old.db").2.txs = testWorld.txs ∧
    ((ShrinkBoltDatabase true testWorld "src.db" "old.db").2.log = testWorld.log ∨
      (ShrinkBoltDatabase true testWorld "src.db" "old.db").2.log =
        testWorld.log ++ [.stat "old.db"]) :=
  ⟨by decide,
    C5_existing_destination_rejected true testWorld "src.db" "old.db" (by decide) (by decide)⟩

/-- C6: with identical source and destination paths `ShrinkBoltDatabase` fails
with an argument error and the world is exactly as before (no `Stat`, no file
opened, no transaction); the error is "paths should not equal" unless the path
is empty, in which case it is "missing current db path". -/
theorem C6_identical_paths_rejected (DangerZone : Bool) (w : World) (p : String) :
    ShrinkBoltDatabase DangerZone w p p =
      (.err (if p = "" then .missingCurrentDbPath else .pathsShouldNotEqual), w) ∧
    (if p = "" then Error.missingCurrentDbPath else Error.pathsShouldNotEqual).isArgument = true := by
  unfold ShrinkBoltDatabase
  by_cases h : p = ""
  · simp [h, Error.isArgument]
  · simp [h, Error.isArgument]

/-- C7: with the flag unset and otherwise valid arguments (the test store at
`old.db`, no file at `new.db`) `ShrinkBoltDatabase` returns the safety-gate
error only after it has opened both files: the destination file, which did not
exist, exists afterwards as an empty database, and a retry is rejected with
"new db exists"; the gate is not checked before the stores are opened. -/
theorem C7_gate_checked_after_opening :
    (ShrinkBoltDatabase false testWorld "old.db" "new.db").1 = .err .experimental ∧
    (ShrinkBoltDatabase false testWorld "old.db" "new.db").2.log =
      [.stat "new.db", .opened "old.db", .opened "new.db", .closed "new.db", .closed "old.db"] ∧
    testWorld.fileAt "new.db" = none ∧
    (ShrinkBoltDatabase false testWorld "old.db" "new.db").2.fileAt "new.db" = some .nil ∧
    (ShrinkBoltDatabase false (ShrinkBoltDatabase false testWorld "old.db" "new.db").2
      "old.db" "new.db").1 = .err .newDbExists := by
  decide

/-! ## Evaluations on the test store -/

/-- C1 (the code departs from it): compacting the test store succeeds, but the
source entry `john` of `names/first/american` is not found under that path in
the destination: there the key `john` is bound to a container, and the value
sits one level deeper, at `names/first/american/john`. -/
theorem C1_copied_entry_is_not_at_its_source_path :
    (Shrink true { Old := openDB testStore, New := openDB .nil }).1 = .ok () ∧
    testStore.lookup [str "names", str "first", str "american"] (str "john") =
      some (.value [0]) ∧
    (Shrink true { Old := openDB testStore, New := openDB .nil }).2.New.root.lookup
      [str "names", str "first", str "american"] (str "john") =
        some (.bucket (.val (str "john") [0] .nil)) ∧
    (Shrink true { Old := openDB testStore, New := openDB .nil }).2.New.root.lookup
      [str "names", str "first", str "american", str "john"] (str "john") =
        some (.value [0]) := by
  decide

/-- C3 (the code departs from it): `WriteCopy([0], names, john)` on an empty
destination succeeds and creates a container for every segment of the path,
the last one included; the value is stored inside the container `names/john`
under the key `john`, and `john` is not bound to the value inside `names`. -/
theorem C3_WriteCopy_creates_container_for_last_segment :
    WriteCopy { Old := openDB .nil, New := openDB .nil } [0] [str "names", str "john"] =
      (.ok (), { Old := openDB .nil,
                 New := { root := .sub (str "names")
                            (.sub (str "john") (.val (str "john") [0] .nil) .nil) .nil,
                          txs := 1, commitsLeft := none } }) ∧
    (WriteCopy { Old := openDB .nil, New := openDB .nil } [0]
      [str "names", str "john"]).2.New.root.lookup [str "names"] (str "john") ≠
        some (.value [0]) := by
  decide

/-- C8 (the code departs from it): resolving without creation a path whose
first or intermediate segment is missing panics with a nil dereference instead
of returning the not-found outcome; only a missing last segment yields it. -/
theorem C8_GetNestedBucket_panics_on_missing_inner_segment :
    GetNestedBucket ⟨testStore, false⟩ [str "nobody", str "first"] false =
      .crash .nilDereference ∧
    GetNestedBucket ⟨testStore, false⟩ [str "names", str "nobody", str "american"] false =
      .crash .nilDereference ∧
    GetNestedBucket ⟨testStore, false⟩ [str "names", str "first", str "nobody"] false =
      .ok (none, ⟨testStore, false⟩) ∧
    GetNestedBucket ⟨testStore, false⟩ [str "names", str "first", str "american"] false =
      .ok (some [str "names", str "first", str "american"], ⟨testStore, false⟩) :=
  ⟨by decide, by decide, by decide, by decide⟩

/-! ## `GetNestedBucket` in creating mode -/

theorem Tx.createBucketIfNotExists_eq (r b : Bucket) (h : Handle) (name : Bytes)
    (hb : r.descend h = some b) :
    Tx.createBucketIfNotExists ⟨r, true⟩ (some h) name =
      if name.length = 0 then .err .bucketNameRequired
      else
        match b.seek name with
        | some (.bucket _) => .ok (some (h ++ [name]), ⟨r, true⟩)
        | some (.value _) => .err .incompatibleValue
        | none =>
          .ok (some (h ++ [name]),
            ⟨Bucket.modifyAt h (fun c => c.store name (.bucket .nil)) r, true⟩) := by
  simp only [Tx.createBucketIfNotExists, hb]
  rfl

theorem Bucket.modifyAt_singleton (b c : Bucket) (n : Bytes) (f : Bucket → Bucket)
    (h : b.child n = some c) : Bucket.modifyAt [n] f b = b.setChild n (f c) := by
  simp [Bucket.modifyAt, h]

theorem GetNestedBucket.loop_create (rest : List Bytes) (h : Handle) (r b : Bucket)
    (hb : r.descend h = some b) :
    GetNestedBucket.loop true rest (some h) ⟨r, true⟩ =
      match b.ensure rest with
      | .ok b1 => .ok (some (h ++ rest), ⟨Bucket.modifyAt h (fun _ => b1) r, true⟩)
      | .err e => .err e
      | .crash f => .crash f := by
  induction rest generalizing h r b with
  | nil =>
    simp [GetNestedBucket.loop, Bucket.ensure, Bucket.modifyAt_self h r b hb]
  | cons n ns ih =>
    simp only [GetNestedBucket.loop, if_true, Tx.createBucketIfNotExists_eq r b h n hb,
      Bucket.ensure]
    by_cases hn : n.length = 0
    · simp [hn]
    · simp only [hn, if_false]
      cases hs : b.seek n with
      | none =>
        simp only
        have hd1 : (Bucket.modifyAt h (fun c => c.store n (.bucket .nil)) r).descend h =
            some (b.store n (.bucket .nil)) := Bucket.descend_modifyAt h _ r b hb
        have hc1 : (b.store n (.bucket .nil)).child n = some .nil :=
          Bucket.child_eq_of_seek (Bucket.seek_store_same b n _)
        have hd2 : (Bucket.modifyAt h (fun c => c.store n (.bucket .nil)) r).descend (h ++ [n]) =
            some .nil := by
          rw [Bucket.descend_append, hd1]
          simp [Bucket.descend, hc1]
        rw [ih (h ++ [n]) _ .nil hd2]
        cases he : Bucket.nil.ensure ns with
        | err e => rfl
        | crash f => rfl
        | ok c1 =>
          simp only [List.append_assoc, List.singleton_append]
          congr 3
          rw [Bucket.modifyAt_append, Bucket.modifyAt_modifyAt]
          apply Bucket.modifyAt_congr h _ _ r b hb
          rw [Bucket.modifyAt_singleton _ .nil n _ hc1, Bucket.setChild_store]
      | some it =>
        cases it with
        | value v => rfl
        | bucket c =>
          simp only
          have hc : b.child n = some c := Bucket.child_eq_of_seek hs
          have hd2 : r.descend (h ++ [n]) = some c := by
            rw [Bucket.descend_append, hb]
            simp [Bucket.descend, hc]
          rw [ih (h ++ [n]) r c hd2]
          cases he : c.ensure ns with
          | err e => rfl
          | crash f => rfl
          | ok c1 =>
            simp only [List.append_assoc, List.singleton_append]
            congr 3
            rw [Bucket.modifyAt_append]
            apply Bucket.modifyAt_congr h _ _ r b hb
            rw [Bucket.modifyAt_singleton b c n _ hc]

/-- In creating mode `GetNestedBucket` returns the handle of the whole path
and leaves the transaction with the tree computed by `Bucket.ensure`. -/
theorem GetNestedBucket_create (r : Bucket) (k0 : Bytes) (ks : List Bytes) :
    GetNestedBucket ⟨r, true⟩ (k0 :: ks) true =
      match r.ensure (k0 :: ks) with
      | .ok r1 => .ok (some (k0 :: ks), ⟨r1, true⟩)
      | .err e => .err e
      | .crash f => .crash f := by
  rw [GetNestedBucket_eq_loop, GetNestedBucket.loop_create (k0 :: ks) [] r r rfl]
  cases r.ensure (k0 :: ks) <;> simp [Bucket.modifyAt]

namespace Bucket

theorem lookup_nil_path (b : Bucket) (key : Bytes) : b.lookup [] key = b.seek key := rfl

theorem lookup_cons (b : Bucket) (m : Bytes) (q : List Bytes) (key : Bytes) :
    b.lookup (m :: q) key =
      match b.child m with
      | some c => c.lookup q key
      | none => none := by
  simp only [lookup, descend]
  cases b.child m <;> rfl

theorem child_store_same (b : Bucket) (n : Bytes) (c : Bucket) :
    (b.store n (.bucket c)).child n = some c :=
  child_eq_of_seek (seek_store_same b n _)

theorem child_store_other (b : Bucket) (n m : Bytes) (it : Item) (h : m ≠ n) :
    (b.store n it).child m = b.child m := by
  simp [child, seek_store_other b n it m h]

theorem child_eq_none_of_seek {b : Bucket} {n : Bytes} (h : b.seek n = none) :
    b.child n = none := by
  simp [child, h]

theorem descend_isSome_of_append (b : Bucket) (p t : List Bytes) (c : Bucket)
    (h : b.descend (p ++ t) = some c) : ∃ c1, b.descend p = some c1 := by
  rw [descend_append] at h
  cases hp : b.descend p with
  | none => simp [hp] at h
  | some c1 => exact ⟨c1, rfl⟩

/-- What `ensure` needs to succeed: no empty name, no plain value in the way. -/
theorem ensure_ok (path : List Bytes) (b : Bucket) (hseg : ∀ s ∈ path, s ≠ [])
    (hval : ∀ p key v, p ++ [key] <+: path → b.lookup p key ≠ some (.value v)) :
    ∃ b1, b.ensure path = .ok b1 := by
  induction path generalizing b with
  | nil => exact ⟨b, rfl⟩
  | cons n ns ih =>
    have hn : ¬ n.length = 0 := by
      have := hseg n (List.mem_cons_self n ns)
      simpa using this
    have hseg1 : ∀ s ∈ ns, s ≠ [] := fun s hs => hseg s (List.mem_cons_of_mem n hs)
    simp only [ensure, hn, if_false]
    cases hs : b.seek n with
    | none =>
      obtain ⟨c1, hc1⟩ := ih .nil hseg1 (fun p key v _ => by simp [lookup_nil])
      exact ⟨b.store n (.bucket c1), by simp [hc1]⟩
    | some it =>
      cases it with
      | value v =>
        exact absurd hs (hval [] n v (by simp))
      | bucket c =>
        have hc : b.child n = some c := child_eq_of_seek hs
        obtain ⟨c1, hc1⟩ := ih c hseg1 (fun p key v hp => by
          have := hval (n :: p) key v (by simpa using hp)
          simpa [lookup_cons, hc] using this)
        exact ⟨b.setChild n c1, by simp [hc1]⟩

theorem ensure_segments (path : List Bytes) (b b1 : Bucket) (h : b.ensure path = .ok b1) :
    ∀ s ∈ path, s ≠ [] := by
  induction path generalizing b b1 with
  | nil => simp
  | cons n ns ih =>
    simp only [ensure] at h
    split at h
    · simp at h
    · rename_i hn
      have hn1 : n ≠ [] := by intro e; subst e; simp at hn
      intro s hs
      rcases List.mem_cons.mp hs with e | hs1
      · rw [e]; exact hn1
      · split at h
        · simp at h
        · rename_i c _
          cases he : c.ensure ns with
          | ok c1 => exact ih c c1 he s hs1
          | err e => simp [he] at h
          | crash f => simp [he] at h
        · cases he : Bucket.nil.ensure ns with
          | ok c1 => exact ih .nil c1 he s hs1
          | err e => simp [he] at h
          | crash f => simp [he] at h

/-- After `ensure` the whole path resolves. -/
theorem ensure_descend (path : List Bytes) (b b1 : Bucket) (h : b.ensure path = .ok b1) :
    ∃ c, b1.descend path = some c := by
  induction path generalizing b b1 with
  | nil => exact ⟨b1, rfl⟩
  | cons n ns ih =>
    simp only [ensure] at h
    split at h
    · simp at h
    · split at h
      · simp at h
      · rename_i c hs
        cases he : c.ensure ns with
        | ok c1 =>
          simp [he] at h
          subst h
          obtain ⟨c2, hc2⟩ := ih c c1 he
          exact ⟨c2, by simp [descend, child_setChild_same b n c c1 (child_eq_of_seek hs), hc2]⟩
        | err e => simp [he] at h
        | crash f => simp [he] at h
      · cases he : Bucket.nil.ensure ns with
        | ok c1 =>
          simp [he] at h
          subst h
          obtain ⟨c2, hc2⟩ := ih .nil c1 he
          exact ⟨c2, by simp [descend, child_store_same, hc2]⟩
        | err e => simp [he] at h
        | crash f => simp [he] at h

/-- An existing chain of buckets is left alone. -/
theorem ensure_of_descend (path : List Bytes) (b c : Bucket) (hseg : ∀ s ∈ path, s ≠ [])
    (h : b.descend path = some c) : b.ensure path = .ok b := by
  induction path generalizing b with
  | nil => rfl
  | cons n ns ih =>
    have hn : ¬ n.length = 0 := by
      have := hseg n (List.mem_cons_self n ns)
      simpa using this
    have hseg1 : ∀ s ∈ ns, s ≠ [] := fun s hs => hseg s (List.mem_cons_of_mem n hs)
    simp only [descend] at h
    cases hc : b.child n with
    | none => simp [hc] at h
    | some c1 =>
      rw [hc] at h
      simp only [ensure, hn, if_false, seek_eq_of_child hc, ih c1 hseg1 h]
      rw [setChild_self b n c1 (seek_eq_of_child hc)]

/-- Frame of `ensure`: a key keeps its binding unless it is a segment of the
path met along the path. -/
theorem ensure_lookup (path : List Bytes) (b b1 : Bucket) (h : b.ensure path = .ok b1)
    (q : List Bytes) (key : Bytes) (hq : ¬ (q ++ [key] <+: path)) :
    b1.lookup q key = b.lookup q key := by
  induction path generalizing b b1 q with
  | nil => simp [ensure] at h; rw [h]
  | cons n ns ih =>
    simp only [ensure] at h
    split at h
    · simp at h
    · cases hs : b.seek n with
      | none =>
        rw [hs] at h
        cases he : Bucket.nil.ensure ns with
        | err e => simp [he] at h
        | crash f => simp [he] at h
        | ok c1 =>
          simp [he] at h
          subst h
          cases q with
          | nil =>
            have hk : key ≠ n := by intro e; apply hq; simp [e]
            simp [lookup_nil_path, seek_store_other b n _ key hk]
          | cons m q1 =>
            by_cases hm : m = n
            · subst hm
              have hq1 : ¬ (q1 ++ [key] <+: ns) := by intro hp; apply hq; simpa using hp
              simp [lookup_cons, child_store_same, child_eq_none_of_seek hs,
                ih .nil c1 he q1 hq1, lookup_nil]
            · simp [lookup_cons, child_store_other b n m _ hm]
      | some it =>
        rw [hs] at h
        cases it with
        | value v => simp at h
        | bucket c =>
          have hc : b.child n = some c := child_eq_of_seek hs
          cases he : c.ensure ns with
          | err e => simp [he] at h
          | crash f => simp [he] at h
          | ok c1 =>
            simp [he] at h
            subst h
            cases q with
            | nil =>
              have hk : key ≠ n := by intro e; apply hq; simp [e]
              simp [lookup_nil_path, seek_setChild_other b n c1 key hk]
            | cons m q1 =>
              by_cases hm : m = n
              · subst hm
                have hq1 : ¬ (q1 ++ [key] <+: ns) := by intro hp; apply hq; simpa using hp
                simp [lookup_cons, child_setChild_same b m c c1 hc, hc, ih c c1 he q1 hq1]
              · simp [lookup_cons, child_setChild_other b n c1 m hm]

end Bucket

namespace Bucket

theorem pathClear_spec (path : List Bytes) (b : Bucket) (h : b.pathClear path = true) :
    ∀ p key v, p ++ [key] <+: path → b.lookup p key ≠ some (.value v) := by
  induction path generalizing b with
  | nil => intro p key v hp; simp at hp
  | cons n ns ih =>
    intro p key v hp
    simp only [pathClear] at h
    cases p with
    | nil =>
      have hk : key = n := by simpa using hp
      subst hk
      rw [lookup_nil_path]
      intro hs
      simp [hs] at h
    | cons m p1 =>
      have hp1 : m = n ∧ p1 ++ [key] <+: ns := by simpa using hp
      obtain ⟨hm, hp2⟩ := hp1
      subst hm
      rw [lookup_cons]
      cases hc : b.child m with
      | none => simp
      | some c =>
        rw [seek_eq_of_child hc] at h
        exact ih c h p1 key v hp2

theorem ensure_nil_shape (ns : List Bytes) (c1 : Bucket) (h : Bucket.nil.ensure ns = .ok c1) :
    (ns = [] → c1 = .nil) ∧ (∀ s, [s] <+: ns → ∃ c, c1 = .sub s c .nil) := by
  cases ns with
  | nil =>
    simp [ensure] at h
    subst h
    simp
  | cons s1 ns1 =>
    simp only [ensure, seek] at h
    split at h
    · simp at h
    · cases he : Bucket.nil.ensure ns1 with
      | err e => simp [he] at h
      | crash f => simp [he] at h
      | ok c2 =>
        simp [he, store, cons] at h
        subst h
        refine ⟨by simp, ?_⟩
        intro s hs
        have : s = s1 := by simpa using hs
        subst this
        exact ⟨c2, rfl⟩

/-- The buckets `ensure` had to create: the last one is empty, every other one
holds nothing but the next segment of the path. -/
theorem ensure_created (path : List Bytes) (b b1 : Bucket) (h : b.ensure path = .ok b1)
    (p : List Bytes) (hp : p <+: path) (hmiss : b.descend p = none) :
    (p = path → b1.descend p = some .nil) ∧
    (∀ s, p ++ [s] <+: path → ∃ c, b1.descend p = some (.sub s c .nil)) := by
  induction path generalizing b b1 p with
  | nil =>
    have : p = [] := by simpa using hp
    subst this
    simp [descend] at hmiss
  | cons n ns ih =>
    cases p with
    | nil => simp [descend] at hmiss
    | cons m p1 =>
      have hp1 : m = n ∧ p1 <+: ns := by simpa using hp
      obtain ⟨hm, hp2⟩ := hp1
      subst hm
      simp only [ensure] at h
      split at h
      · simp at h
      · cases hs : b.seek m with
        | none =>
          rw [hs] at h
          cases he : Bucket.nil.ensure ns with
          | err e => simp [he] at h
          | crash f => simp [he] at h
          | ok c1 =>
            simp [he] at h
            subst h
            have hd : (b.store m (.bucket c1)).descend (m :: p1) = c1.descend p1 := by
              simp [descend, child_store_same]
            rw [hd]
            cases p1 with
            | nil =>
              obtain ⟨h1, h2⟩ := ensure_nil_shape ns c1 he
              constructor
              · intro e
                have : ns = [] := by simpa using e.symm
                simp [descend, h1 this]
              · intro s hs1
                have : [s] <+: ns := by simpa using hs1
                obtain ⟨c, hc⟩ := h2 s this
                exact ⟨c, by simp [descend, hc]⟩
            | cons m2 p2 =>
              obtain ⟨h1, h2⟩ := ih .nil c1 he (m2 :: p2) hp2 (descend_nil _ (by simp))
              constructor
              · intro e
                exact h1 (by simpa using e)
              · intro s hs1
                exact h2 s (by simpa using hs1)
        | some it =>
          rw [hs] at h
          cases it with
          | value v => simp at h
          | bucket c =>
            have hc : b.child m = some c := child_eq_of_seek hs
            cases he : c.ensure ns with
            | err e => simp [he] at h
            | crash f => simp [he] at h
            | ok c1 =>
              simp [he] at h
              subst h
              have hd : (b.setChild m c1).descend (m :: p1) = c1.descend p1 := by
                simp [descend, child_setChild_same b m c c1 hc]
              have hmiss1 : c.descend p1 = none := by
                simpa [descend, hc] using hmiss
              rw [hd]
              obtain ⟨h1, h2⟩ := ih c c1 he p1 hp2 hmiss1
              constructor
              · intro e
                exact h1 (by simpa using e)
              · intro s hs1
                exact h2 s (by simpa using hs1)

end Bucket

/-- C9 (as stated, refuted): a path with an empty segment has at least one
segment and none of its prefixes names a plain value of the test store (the
prefix `names` is a container, `names/""` is absent), yet creating resolution
fails with the engine's `ErrBucketNameRequired`. -/
theorem C9_empty_segment_is_rejected :
    testStore.lookup [] (str "names") ≠ none ∧
    testStore.pathClear [str "names", []] = true ∧
    testStore.lookup [str "names"] [] = none ∧
    GetNestedBucket ⟨testStore, true⟩ [str "names", []] true = .err .bucketNameRequired :=
  ⟨by decide, by decide, by decide, by decide⟩

/-- C9 (amended): in a write transaction, for a path with at least one segment
whose segments are all non-empty and none of whose prefixes names an existing
plain value, `GetNestedBucket(tx, path, true)` succeeds and returns the
container at that path. Afterwards every prefix of the path names a container;
a container that was missing is empty when it is the last one and holds
nothing but the next path segment otherwise; and every key of every container
other than the segments along the path is bound to what it was bound to before
(values and whole nested containers alike). -/
theorem C9_GetNestedBucket_creates_missing_containers (root : Bucket) (path : List Bytes)
    (hne : path ≠ []) (hseg : ∀ s ∈ path, s ≠ [])
    (hval : ∀ p key v, p ++ [key] <+: path → root.lookup p key ≠ some (.value v)) :
    ∃ root1,
      GetNestedBucket ⟨root, true⟩ path true = .ok (some path, ⟨root1, true⟩) ∧
      (∀ p, p <+: path → ∃ c, root1.descend p = some c) ∧
      (∀ p, p <+: path → root.descend p = none →
        (p = path → root1.descend p = some .nil) ∧
        (∀ s, p ++ [s] <+: path → ∃ c, root1.descend p = some (.sub s c .nil))) ∧
      (∀ q key, ¬ (q ++ [key] <+: path) → root1.lookup q key = root.lookup q key) := by
  obtain ⟨root1, h1⟩ := Bucket.ensure_ok path root hseg hval
  refine ⟨root1, ?_, ?_, ?_, ?_⟩
  · cases path with
    | nil => exact absurd rfl hne
    | cons k0 ks => rw [GetNestedBucket_create, h1]
  · intro p hp
    obtain ⟨t, ht⟩ := hp
    obtain ⟨c, hc⟩ := Bucket.ensure_descend path root root1 h1
    rw [← ht] at hc
    exact Bucket.descend_isSome_of_append root1 p t c hc
  · intro p hp hmiss
    exact Bucket.ensure_created path root root1 h1 p hp hmiss
  · intro q key hq
    exact Bucket.ensure_lookup path root root1 h1 q key hq

/-- Witness for the amended C9: `names/first/european/west` resolved with
creation in the test store. -/
theorem C9_GetNestedBucket_creates_missing_containers_witness :
    ∃ root1,
      GetNestedBucket ⟨testStore, true⟩
        [str "names", str "first", str "european", str "west"] true =
          .ok (some [str "names", str "first", str "european", str "west"], ⟨root1, true⟩) ∧
      (∀ p, p <+: [str "names", str "first", str "european", str "west"] →
        ∃ c, root1.descend p = some c) ∧
      (∀ p, p <+: [str "names", str "first", str "european", str "west"] →
        testStore.descend p = none →
        (p = [str "names", str "first", str "european", str "west"] →
          root1.descend p = some .nil) ∧
        (∀ s, p ++ [s] <+: [str "names", str "first", str "european", str "west"] →
          ∃ c, root1.descend p = some (.sub s c .nil))) ∧
      (∀ q key, ¬ (q ++ [key] <+: [str "names", str "first", str "european", str "west"]) →
        root1.lookup q key = testStore.lookup q key) :=
  C9_GetNestedBucket_creates_missing_containers testStore
    [str "names", str "first", str "european", str "west"] (by decide) (by decide)
    (Bucket.pathClear_spec _ _ (by decide))

/-! ## `WriteCopy` -/

theorem Tx.put_eq (r b : Bucket) (h : Handle) (key value : Bytes)
    (hb : r.descend h = some b) :
    Tx.put ⟨r, true⟩ (some h) key value =
      if key.length = 0 then .err .keyRequired
      else if key.length > MaxKeySize then .err .keyTooLarge
      else if value.length > MaxValueSize then .err .valueTooLarge
      else
        match b.seek key with
        | some (.bucket _) => .err .incompatibleValue
        | _ => .ok ⟨Bucket.modifyAt h (fun c => c.store key (.value value)) r, true⟩ := by
  simp only [Tx.put, hb]
  rfl

/-- When the function run by `WriteCopy` succeeds, and what it leaves in the
transaction. -/
theorem WriteCopy.fn_ok_iff (v : Bytes) (k : List Bytes) (r : Bucket) (tx : Tx) :
    WriteCopy.fn v k ⟨r, true⟩ = .ok tx ↔
      ∃ r1 b last, k.getLast? = some last ∧ r.ensure k = .ok r1 ∧ r1.descend k = some b ∧
        last.length ≠ 0 ∧ last.length ≤ MaxKeySize ∧ v.length ≤ MaxValueSize ∧
        (∀ c, b.seek last ≠ some (.bucket c)) ∧
        tx = ⟨Bucket.modifyAt k (fun c => c.store last (.value v)) r1, true⟩ := by
  cases k with
  | nil =>
    simp [WriteCopy.fn, GetNestedBucket]
  | cons k0 ks =>
    simp only [WriteCopy.fn, GetNestedBucket_create]
    cases he : r.ensure (k0 :: ks) with
    | err e => simp
    | crash f => simp
    | ok r1 =>
      obtain ⟨b, hb⟩ := Bucket.ensure_descend (k0 :: ks) r r1 he
      cases hl : (k0 :: ks).getLast? with
      | none => simp at hl
      | some last =>
        simp only [Tx.put_eq r1 b (k0 :: ks) last v hb]
        constructor
        · intro h
          refine ⟨r1, b, last, rfl, rfl, hb, ?_⟩
          split at h
          · simp at h
          · split at h
            · simp at h
            · split at h
              · simp at h
              · rename_i h1 h2 h3
                refine ⟨h1, Nat.le_of_not_gt h2, Nat.le_of_not_gt h3, ?_, ?_⟩
                · intro c hc
                  simp [hc] at h
                · split at h
                  · simp at h
                  · simp at h
                    exact h.symm
        · rintro ⟨r2, b2, last2, h1, h2, h3, h4, h5, h6, h7, h8⟩
          simp at h1 h2
          subst h1 h2
          rw [hb] at h3
          simp at h3
          subst h3
          simp only [h4, if_false, Nat.not_lt.mpr h5, Nat.not_lt.mpr h6, gt_iff_lt]
          subst h8
          rfl

theorem DB.Update_ok_iff (db : DB) (fn : Tx → Res Tx) :
    (db.Update fn).1 = .ok () ↔
      ∃ tx, fn ⟨db.root, true⟩ = .ok tx ∧ db.commitsLeft ≠ some 0 ∧
        (db.Update fn).2.root = tx.root := by
  unfold DB.Update
  cases hf : fn ⟨db.root, true⟩ with
  | err e => simp
  | crash f => simp
  | ok tx =>
    cases hc : db.commitsLeft with
    | none => simp
    | some n =>
      cases n with
      | zero => simp
      | succ m => simp

theorem DB.Update_of_ok (db : DB) (fn : Tx → Res Tx) (tx : Tx)
    (hf : fn ⟨db.root, true⟩ = .ok tx) (hc : db.commitsLeft ≠ some 0) :
    (db.Update fn).1 = .ok () ∧ (db.Update fn).2.root = tx.root := by
  unfold DB.Update
  rw [hf]
  cases hn : db.commitsLeft with
  | none => simp
  | some n =>
    cases n with
    | zero => exact absurd hn hc
    | succ m => simp

/-- A successful `WriteCopy` of a non-empty value: the buckets of the whole
path have been created and the value is stored under the last segment inside
the bucket at the whole path. -/
theorem WriteCopy_ok (u : Upgrader) (v : Bytes) (k : List Bytes) (hv : v ≠ [])
    (h : (WriteCopy u v k).1 = .ok ()) :
    ∃ r1 b last, k.getLast? = some last ∧ u.New.root.ensure k = .ok r1 ∧
      r1.descend k = some b ∧
      last.length ≠ 0 ∧ last.length ≤ MaxKeySize ∧ v.length ≤ MaxValueSize ∧
      (∀ c, b.seek last ≠ some (.bucket c)) ∧ u.New.commitsLeft ≠ some 0 ∧
      (WriteCopy u v k).2.New.root =
        Bucket.modifyAt k (fun c => c.store last (.value v)) r1 := by
  have hv1 : ¬ v.length = 0 := by intro e; exact hv (List.length_eq_zero.mp e)
  simp only [WriteCopy, hv1, if_false, DB.Update_ok_iff] at h ⊢
  obtain ⟨tx, h1, h2, h3⟩ := h
  obtain ⟨r1, b, last, g1, g2, g3, g4, g5, g6, g7, g8⟩ :=
    (WriteCopy.fn_ok_iff v k u.New.root tx).mp h1
  refine ⟨r1, b, last, g1, g2, g3, g4, g5, g6, g7, h2, ?_⟩
  rw [h3, g8]

/-- The conditions under which `WriteCopy` of a non-empty value succeeds. -/
theorem WriteCopy_of (u : Upgrader) (v : Bytes) (k : List Bytes) (hv : v ≠ [])
    (r1 b : Bucket) (last : Bytes) (h1 : k.getLast? = some last)
    (h2 : u.New.root.ensure k = .ok r1) (h3 : r1.descend k = some b)
    (h4 : last.length ≠ 0) (h5 : last.length ≤ MaxKeySize) (h6 : v.length ≤ MaxValueSize)
    (h7 : ∀ c, b.seek last ≠ some (.bucket c)) (h8 : u.New.commitsLeft ≠ some 0) :
    (WriteCopy u v k).1 = .ok () ∧
    (WriteCopy u v k).2.New.root =
      Bucket.modifyAt k (fun c => c.store last (.value v)) r1 := by
  have hv1 : ¬ v.length = 0 := by intro e; exact hv (List.length_eq_zero.mp e)
  have hfn := (WriteCopy.fn_ok_iff v k u.New.root
    ⟨Bucket.modifyAt k (fun c => c.store last (.value v)) r1, true⟩).mpr
    ⟨r1, b, last, h1, h2, h3, h4, h5, h6, h7, rfl⟩
  simp only [WriteCopy, hv1, if_false]
  exact DB.Update_of_ok u.New (WriteCopy.fn v k) _ hfn h8

/-- C10 (as stated, refuted): after `WriteCopy([1], names, john)` a second
`WriteCopy` of the empty value to the same path returns nil without writing:
the destination still holds `[1]`, and it differs from the (empty) store
obtained by performing the second write only. -/
theorem C10_empty_second_write_does_not_overwrite :
    (WriteCopy { Old := openDB .nil, New := openDB .nil } [1] [str "names", str "john"]).1 =
      .ok () ∧
    (WriteCopy (WriteCopy { Old := openDB .nil, New := openDB .nil } [1]
        [str "names", str "john"]).2 [] [str "names", str "john"]).1 = .ok () ∧
    (WriteCopy (WriteCopy { Old := openDB .nil, New := openDB .nil } [1]
        [str "names", str "john"]).2 [] [str "names", str "john"]).2.New.root.lookup
        [str "names", str "john"] (str "john") = some (.value [1]) ∧
    (WriteCopy (WriteCopy { Old := openDB .nil, New := openDB .nil } [1]
        [str "names", str "john"]).2 [] [str "names", str "john"]).2.New.root ≠
      (WriteCopy { Old := openDB .nil, New := openDB .nil } []
        [str "names", str "john"]).2.New.root :=
  ⟨by decide, by decide, by decide, by decide⟩

/-- C10 (amended): if `WriteCopy(v1, fullPath)` and then `WriteCopy(v2, fullPath)`
both return nil and `v2` is not empty, the second write overwrites the first:
the key written for `fullPath` (its last segment, inside the container at
`fullPath`) is bound to `v2`, performing only `WriteCopy(v2, fullPath)` on the
original destination returns nil as well, and both leave the same contents. -/
theorem C10_second_write_wins (u : Upgrader) (fullPath : List Bytes) (v1 v2 : Bytes)
    (hv2 : v2 ≠ [])
    (h1 : (WriteCopy u v1 fullPath).1 = .ok ())
    (h2 : (WriteCopy (WriteCopy u v1 fullPath).2 v2 fullPath).1 = .ok ()) :
    ∃ last, fullPath.getLast? = some last ∧
      (WriteCopy (WriteCopy u v1 fullPath).2 v2 fullPath).2.New.root.lookup fullPath last =
        some (.value v2) ∧
      (WriteCopy u v2 fullPath).1 = .ok () ∧
      (WriteCopy (WriteCopy u v1 fullPath).2 v2 fullPath).2.New.root =
        (WriteCopy u v2 fullPath).2.New.root := by
  -- what the second write did
  obtain ⟨r2, b2, last, g1, g2, g3, g4, g5, g6, g7, g8, g9⟩ :=
    WriteCopy_ok (WriteCopy u v1 fullPath).2 v2 fullPath hv2 h2
  have hlook : (WriteCopy (WriteCopy u v1 fullPath).2 v2 fullPath).2.New.root.lookup
      fullPath last = some (.value v2) := by
    rw [g9]
    simp [Bucket.lookup, Bucket.descend_modifyAt fullPath _ r2 b2 g3, Bucket.seek_store_same]
  refine ⟨last, g1, hlook, ?_⟩
  by_cases hv1 : v1 = []
  · -- the first write was a no-op
    have hu : (WriteCopy u v1 fullPath).2 = u := by simp [WriteCopy, hv1]
    rw [hu] at h2 ⊢
    exact ⟨h2, rfl⟩
  · -- the first write created the path and stored `v1`
    obtain ⟨r1, b1, last1, f1, f2, f3, f4, f5, f6, f7, f8, f9⟩ :=
      WriteCopy_ok u v1 fullPath hv1 h1
    have hl : last1 = last := by rw [f1] at g1; simpa using g1
    subst hl
    have hseg := Bucket.ensure_segments fullPath u.New.root r1 f2
    have hd : (WriteCopy u v1 fullPath).2.New.root.descend fullPath =
        some (b1.store last1 (.value v1)) := by
      rw [f9]; exact Bucket.descend_modifyAt fullPath _ r1 b1 f3
    -- the second write finds the whole path in place
    have he : (WriteCopy u v1 fullPath).2.New.root.ensure fullPath =
        .ok (WriteCopy u v1 fullPath).2.New.root :=
      Bucket.ensure_of_descend fullPath _ _ hseg hd
    rw [he] at g2
    have hr2 : r2 = (WriteCopy u v1 fullPath).2.New.root := by simpa using g2.symm
    -- the second write alone, on the original destination
    obtain ⟨honly1, honly2⟩ :=
      WriteCopy_of u v2 fullPath hv2 r1 b1 last1 f1 f2 f3 f4 f5 g6 f7 f8
    refine ⟨honly1, ?_⟩
    rw [g9, honly2, hr2, f9, Bucket.modifyAt_modifyAt]
    apply Bucket.modifyAt_congr fullPath _ _ r1 b1 f3
    exact Bucket.store_store b1 last1 _ _

/-- Witness for the amended C10: `[1]` and then `[2]` written to `names/john`
of an empty destination. -/
theorem C10_second_write_wins_witness :
    ∃ last, [str "names", str "john"].getLast? = some last ∧
      (WriteCopy (WriteCopy { Old := openDB .nil, New := openDB .nil } [1]
        [str "names", str "john"]).2 [2] [str "names", str "john"]).2.New.root.lookup
          [str "names", str "john"] last = some (.value [2]) ∧
      (WriteCopy { Old := openDB .nil, New := openDB .nil } [2]
        [str "names", str "john"]).1 = .ok () ∧
      (WriteCopy (WriteCopy { Old := openDB .nil, New := openDB .nil } [1]
        [str "names", str "john"]).2 [2] [str "names", str "john"]).2.New.root =
        (WriteCopy { Old := openDB .nil, New := openDB .nil } [2]
          [str "names", str "john"]).2.New.root :=
  C10_second_write_wins { Old := openDB .nil, New := openDB .nil } [str "names", str "john"]
    [1] [2] (by decide) (by decide) (by decide)

/-! ## `GetNestedBucket` in reading mode -/

theorem Tx.bucket_eq (tx : Tx) (h : Handle) (b : Bucket) (name : Bytes)
    (hb : tx.root.descend h = some b) :
    tx.bucket (some h) name =
      match b.child name with
      | some _ => .ok (some (h ++ [name]), tx)
      | none => .ok (none, tx) := by
  simp only [Tx.bucket, hb]

theorem GetNestedBucket.loop_read_nil (rest : List Bytes) (tx : Tx) :
    GetNestedBucket.loop false rest none tx =
      match rest with
      | [] => .ok (none, tx)
      | _ :: _ => .crash .nilDereference := by
  cases rest with
  | nil => rfl
  | cons n ns => simp [GetNestedBucket.loop, Tx.bucket]

/-- Reading mode: the handle of the path when all of it resolves, nil when
exactly the last segment fails to resolve, a nil dereference otherwise. -/
theorem GetNestedBucket.loop_read (rest : List Bytes) (h : Handle) (tx : Tx) (b : Bucket)
    (hb : tx.root.descend h = some b) :
    GetNestedBucket.loop false rest (some h) tx =
      match b.descend rest with
      | some _ => .ok (some (h ++ rest), tx)
      | none =>
        match b.descend rest.dropLast with
        | some _ => .ok (none, tx)
        | none => .crash .nilDereference := by
  induction rest generalizing h b with
  | nil => simp [GetNestedBucket.loop, Bucket.descend]
  | cons n ns ih =>
    simp only [GetNestedBucket.loop, Bool.false_eq_true, if_false, Tx.bucket_eq tx h b n hb]
    cases hc : b.child n with
    | none =>
      simp only [GetNestedBucket.loop_read_nil, Bucket.descend, hc]
      cases ns with
      | nil => simp [Bucket.descend]
      | cons m ms => simp [Bucket.descend, hc]
    | some c =>
      have hd : tx.root.descend (h ++ [n]) = some c := by
        rw [Bucket.descend_append, hb]
        simp [Bucket.descend, hc]
      simp only [ih (h ++ [n]) c hd, Bucket.descend, hc, List.append_assoc,
        List.singleton_append]
      cases ns with
      | nil => simp [Bucket.descend]
      | cons m ms => simp [Bucket.descend, hc]

theorem GetNestedBucket_read (tx : Tx) (k0 : Bytes) (ks : List Bytes) :
    GetNestedBucket tx (k0 :: ks) false =
      match tx.root.descend (k0 :: ks) with
      | some _ => .ok (some (k0 :: ks), tx)
      | none =>
        match tx.root.descend (k0 :: ks).dropLast with
        | some _ => .ok (none, tx)
        | none => .crash .nilDereference := by
  rw [GetNestedBucket_eq_loop, GetNestedBucket.loop_read (k0 :: ks) [] tx tx.root rfl]
  rfl

/-! ## The recursion budget of the walker -/

theorem Bucket.depth_of_seek {b c : Bucket} {n : Bytes} (h : b.seek n = some (.bucket c)) :
    c.depth < b.depth := by
  induction b with
  | nil => simp [Bucket.seek] at h
  | val k v rest ih =>
    simp only [Bucket.seek] at h
    split at h
    · simp at h
    · simpa [Bucket.depth] using ih h
  | sub m c0 rest _ ih =>
    simp only [Bucket.seek] at h
    split at h
    · simp at h
      subst h
      simp only [Bucket.depth]
      omega
    · have := ih h
      simp only [Bucket.depth]
      omega

theorem Bucket.depth_of_child {b c : Bucket} {n : Bytes} (h : b.child n = some c) :
    c.depth < b.depth :=
  Bucket.depth_of_seek (Bucket.seek_eq_of_child h)

/-- One unfolding of the walker on a path that resolves. -/
theorem ReadyWalker_succ (fuel : Nat) (u : Upgrader) (k0 : Bytes) (ks : List Bytes) (tx : Tx)
    (b : Bucket) (hb : tx.root.descend (k0 :: ks) = some b) :
    ReadyWalker (fuel + 1) u (k0 :: ks) tx =
      b.ForEach
        (fun k v u1 =>
          match v with
          | none =>
            match b.child k with
            | some _ => ReadyWalker fuel u1 ((k0 :: ks) ++ [k]) tx
            | none => (.ok (), u1)
          | some val =>
            if val.length = 0 then (.ok (), u1)
            else WriteCopy u1 val ((k0 :: ks) ++ [k]))
        u := by
  rw [ReadyWalker]
  simp only [GetNestedBucket_read, hb, Tx.forEachIn]
  congr 1
  funext k v u1
  cases v with
  | none =>
    simp only [Tx.bucket_eq tx (k0 :: ks) b k hb]
    cases b.child k <;> rfl
  | some val => rfl

/-- One unfolding of the walker on a path that does not resolve. -/
theorem ReadyWalker_unresolved (fuel : Nat) (u : Upgrader) (base : List Bytes) (tx : Tx)
    (hb : tx.root.descend base = none) :
    (ReadyWalker (fuel + 1) u base tx).1 ≠ .ok () ∧
    (ReadyWalker (fuel + 1) u base tx).1 ≠ .crash .stackExhausted ∧
    ReadyWalker (fuel + 1) u base tx = ReadyWalker 1 u base tx := by
  cases base with
  | nil => simp [Bucket.descend] at hb
  | cons k0 ks =>
    rw [ReadyWalker, ReadyWalker]
    simp only [GetNestedBucket_read, hb]
    cases tx.root.descend (k0 :: ks).dropLast <;> simp

/-- The result of the walker does not depend on the recursion budget once the
budget exceeds the nesting depth below the bucket walked. -/
theorem ReadyWalker_fuel (f1 f2 : Nat) (u : Upgrader) (base : List Bytes) (tx : Tx) (b : Bucket)
    (hb : tx.root.descend base = some b) (h1 : b.depth < f1) (h2 : b.depth < f2) :
    ReadyWalker f1 u base tx = ReadyWalker f2 u base tx := by
  induction f1 generalizing f2 u base b with
  | zero => omega
  | succ g1 ih =>
    cases f2 with
    | zero => omega
    | succ g2 =>
      cases base with
      | nil => simp [ReadyWalker, GetNestedBucket]
      | cons k0 ks =>
        rw [ReadyWalker_succ g1 u k0 ks tx b hb, ReadyWalker_succ g2 u k0 ks tx b hb]
        congr 1
        funext k v u1
        cases v with
        | some val => rfl
        | none =>
          simp only
          cases hc : b.child k with
          | none => rfl
          | some c =>
            have hd : tx.root.descend ((k0 :: ks) ++ [k]) = some c := by
              rw [Bucket.descend_append, hb]
              simp [Bucket.descend, hc]
            have hlt := Bucket.depth_of_child hc
            exact ih g2 u1 _ c hd (by omega) (by omega)

theorem WriteCopy.fn_not_exhausted (v : Bytes) (k : List Bytes) (r : Bucket) :
    WriteCopy.fn v k ⟨r, true⟩ ≠ .crash .stackExhausted := by
  cases k with
  | nil => simp [WriteCopy.fn, GetNestedBucket]
  | cons k0 ks =>
    simp only [WriteCopy.fn, GetNestedBucket_create]
    cases he : r.ensure (k0 :: ks) with
    | err e => simp
    | crash f =>
      exfalso
      have : ∀ (path : List Bytes) (b : Bucket) (f : Fault), b.ensure path ≠ .crash f := by
        intro path
        induction path with
        | nil => intro b f; simp [Bucket.ensure]
        | cons n ns ih =>
          intro b f
          simp only [Bucket.ensure]
          split
          · simp
          · split
            · simp
            · rename_i c _
              cases hc : c.ensure ns with
              | ok c1 => simp
              | err e => simp
              | crash f1 => exact absurd hc (ih c f1)
            · cases hc : Bucket.nil.ensure ns with
              | ok c1 => simp
              | err e => simp
              | crash f1 => exact absurd hc (ih .nil f1)
      exact this _ _ _ he
    | ok r1 =>
      obtain ⟨b, hb⟩ := Bucket.ensure_descend (k0 :: ks) r r1 he
      cases hl : (k0 :: ks).getLast? with
      | none => simp at hl
      | some last =>
        simp only [Tx.put_eq r1 b (k0 :: ks) last v hb]
        split
        · simp
        · split
          · simp
          · split
            · simp
            · split <;> simp

theorem WriteCopy_not_exhausted (u : Upgrader) (v : Bytes) (k : List Bytes) :
    (WriteCopy u v k).1 ≠ .crash .stackExhausted := by
  unfold WriteCopy
  split
  · simp
  · simp only [DB.Update]
    have := WriteCopy.fn_not_exhausted v k u.New.root
    cases hf : WriteCopy.fn v k ⟨u.New.root, true⟩ with
    | err e => simp
    | crash f =>
      simp only
      intro e
      apply this
      rw [hf]
      simpa using e
    | ok tx =>
      simp only
      cases hc : u.New.commitsLeft with
      | none => simp
      | some n => cases n <;> simp

theorem Bucket.ForEach_result {σ : Type} (P : Res Unit → Prop) (b : Bucket)
    (fn : Bytes → Option Bytes → σ → Res Unit × σ) (hok : P (.ok ()))
    (hfn : ∀ k v s, P (fn k v s).1) (s : σ) : P (b.ForEach fn s).1 := by
  induction b generalizing s with
  | nil => exact hok
  | val k v rest ih =>
    simp only [Bucket.ForEach]
    have := hfn k (some v) s
    cases hr : fn k (some v) s with
    | mk r s1 =>
      rw [hr] at this
      cases r with
      | ok a => exact ih s1
      | err e => exact this
      | crash f => exact this
  | sub n c rest _ ih =>
    simp only [Bucket.ForEach]
    have := hfn n none s
    cases hr : fn n none s with
    | mk r s1 =>
      rw [hr] at this
      cases r with
      | ok a => exact ih s1
      | err e => exact this
      | crash f => exact this

/-- With a budget above the nesting depth below the bucket walked, the walker
never runs out of budget. -/
theorem ReadyWalker_not_exhausted (fuel : Nat) (u : Upgrader) (base : List Bytes) (tx : Tx)
    (b : Bucket) (hb : tx.root.descend base = some b) (h : b.depth < fuel) :
    (ReadyWalker fuel u base tx).1 ≠ .crash .stackExhausted := by
  induction fuel generalizing u base b with
  | zero => omega
  | succ g ih =>
    cases base with
    | nil => simp [ReadyWalker, GetNestedBucket]
    | cons k0 ks =>
      rw [ReadyWalker_succ g u k0 ks tx b hb]
      apply Bucket.ForEach_result (fun r => r ≠ .crash .stackExhausted)
      · simp
      · intro k v u1
        cases v with
        | some val =>
          simp only
          split
          · simp
          · exact WriteCopy_not_exhausted u1 val _
        | none =>
          simp only
          cases hc : b.child k with
          | none => simp
          | some c =>
            have hd : tx.root.descend ((k0 :: ks) ++ [k]) = some c := by
              rw [Bucket.descend_append, hb]
              simp [Bucket.descend, hc]
            have hlt := Bucket.depth_of_child hc
            exact ih u1 _ c hd (by omega)

theorem ReadyWalker_root_fuel (f1 f2 : Nat) (u : Upgrader) (name : Bytes) (tx : Tx)
    (h1 : tx.root.depth < f1) (h2 : tx.root.depth < f2) :
    ReadyWalker f1 u [name] tx = ReadyWalker f2 u [name] tx := by
  cases hd : tx.root.descend [name] with
  | some c =>
    have hc : tx.root.child name = some c := by
      simp only [Bucket.descend] at hd
      cases hx : tx.root.child name with
      | none => simp [hx] at hd
      | some c1 => simpa [hx] using hd
    have hlt := Bucket.depth_of_child hc
    exact ReadyWalker_fuel f1 f2 u [name] tx c hd (by omega) (by omega)
  | none =>
    cases f1 with
    | zero => omega
    | succ g1 =>
      cases f2 with
      | zero => omega
      | succ g2 =>
        rw [(ReadyWalker_unresolved g1 u [name] tx hd).2.2,
          (ReadyWalker_unresolved g2 u [name] tx hd).2.2]

/-- The recursion budget `Shrink` hands to the walker is enough: any larger
budget gives the same result. -/
theorem Shrink_fuel (DangerZone : Bool) (u : Upgrader) (fuel : Nat)
    (h : u.Old.root.depth < fuel) :
    Shrink DangerZone u =
      if !DangerZone then (.err .experimental, u)
      else
        u.Old.View.1.ForEach (fun name _ u1 => ReadyWalker fuel u1 [name] u.Old.View.1)
          { u with Old := u.Old.View.2 } := by
  unfold Shrink
  split
  · rfl
  · simp only [Tx.ForEach]
    congr 1
    funext k v u1
    have hfuel : ReadyWalker (u.Old.View.1.root.depth + 1) u1 [k] u.Old.View.1 =
        ReadyWalker fuel u1 [k] u.Old.View.1 :=
      ReadyWalker_root_fuel _ _ u1 k _ (by omega) (by simpa [DB.View] using h)
    cases hb : u.Old.View.1.bucket (some []) k with
    | ok r => exact hfuel
    | err e => simp [Tx.bucket, Bucket.descend] at hb; split at hb <;> simp at hb
    | crash f => simp [Tx.bucket, Bucket.descend] at hb; split at hb <;> simp at hb

/-- `Shrink` never stops for lack of recursion budget. -/
theorem Shrink_not_exhausted (DangerZone : Bool) (u : Upgrader) :
    (Shrink DangerZone u).1 ≠ .crash .stackExhausted := by
  unfold Shrink
  split
  · simp
  · simp only [Tx.ForEach]
    apply Bucket.ForEach_result (fun r => r ≠ .crash .stackExhausted)
    · simp
    · intro k v u1
      cases hb : u.Old.View.1.bucket (some []) k with
      | err e => simp
      | crash f => simp [Tx.bucket, Bucket.descend] at hb; split at hb <;> simp at hb
      | ok r =>
        simp only
        cases hd : u.Old.View.1.root.descend [k] with
        | some c =>
          have hc : u.Old.View.1.root.child k = some c := by
            simp only [Bucket.descend] at hd
            cases hx : u.Old.View.1.root.child k with
            | none => simp [hx] at hd
            | some c1 => simpa [hx] using hd
          have hlt := Bucket.depth_of_child hc
          exact ReadyWalker_not_exhausted _ u1 [k] _ c hd (by omega)
        | none => exact (ReadyWalker_unresolved _ u1 [k] _ hd).2.1

/-! ## The walk as a sequence of writes -/

theorem writeAll_append (l1 l2 : List (List Bytes × Bytes)) (u : Upgrader) :
    writeAll (l1 ++ l2) u =
      match writeAll l1 u with
      | (.ok _, u1) => writeAll l2 u1
      | r => r := by
  induction l1 generalizing u with
  | nil => rfl
  | cons w rest ih =>
    obtain ⟨p, v⟩ := w
    simp only [List.cons_append, writeAll]
    cases hw : WriteCopy u v p with
    | mk r u1 =>
      cases r with
      | ok a => exact ih u1
      | err e => rfl
      | crash f => rfl

namespace Bucket

theorem keys_append (s t : Bucket) : (s.append t).keys = s.keys ++ t.keys := by
  induction s with
  | nil => rfl
  | val k v rest ih => simp [append, keys, ih]
  | sub n c rest _ ih => simp [append, keys, ih]

theorem seek_append_of_not_mem (pre t : Bucket) (key : Bytes) (h : key ∉ pre.keys) :
    (pre.append t).seek key = t.seek key := by
  induction pre with
  | nil => rfl
  | val k v rest ih =>
    simp only [keys, List.mem_cons, not_or] at h
    have hk : ¬ k = key := fun e => h.1 e.symm
    simp [append, seek, hk, ih h.2]
  | sub n c rest _ ih =>
    simp only [keys, List.mem_cons, not_or] at h
    have hk : ¬ n = key := fun e => h.1 e.symm
    simp [append, seek, hk, ih h.2]

theorem Unique.not_mem_of_append {pre t : Bucket} (h : (pre.append t).Unique) (key : Bytes)
    (hk : key ∈ t.keys) : key ∉ pre.keys := by
  induction pre with
  | nil => simp [keys]
  | val k v rest ih =>
    simp only [append, Unique, keys_append, List.mem_append, not_or] at h
    simp only [keys, List.mem_cons, not_or]
    exact ⟨fun e => h.1.2 (e ▸ hk), ih h.2⟩
  | sub n c rest _ ih =>
    simp only [append, Unique, keys_append, List.mem_append, not_or] at h
    simp only [keys, List.mem_cons, not_or]
    exact ⟨fun e => h.1.2 (e ▸ hk), ih h.2.2⟩

theorem Unique.of_append {pre t : Bucket} (h : (pre.append t).Unique) : t.Unique := by
  induction pre with
  | nil => exact h
  | val k v rest ih => exact ih h.2
  | sub n c rest _ ih => exact ih h.2.2

theorem append_assoc_val (pre : Bucket) (k v : Bytes) (rest : Bucket) :
    (pre.append (.val k v .nil)).append rest = pre.append (.val k v rest) := by
  induction pre with
  | nil => rfl
  | val k0 v0 r ih => simp [append, ih]
  | sub n0 c0 r _ ih => simp [append, ih]

theorem append_assoc_sub (pre : Bucket) (n : Bytes) (c rest : Bucket) :
    (pre.append (.sub n c .nil)).append rest = pre.append (.sub n c rest) := by
  induction pre with
  | nil => rfl
  | val k0 v0 r ih => simp [append, ih]
  | sub n0 c0 r _ ih => simp [append, ih]

end Bucket

theorem Bucket.Unique.child_of_append {pre rest c : Bucket} {n : Bytes}
    (h : (pre.append (.sub n c rest)).Unique) :
    (pre.append (.sub n c rest)).child n = some c := by
  have hk : n ∉ pre.keys := h.not_mem_of_append n (by simp [Bucket.keys])
  apply Bucket.child_eq_of_seek
  rw [Bucket.seek_append_of_not_mem pre _ n hk]
  simp [Bucket.seek]

theorem Bucket.Unique.sub_of_append {pre rest c : Bucket} {n : Bytes}
    (h : (pre.append (.sub n c rest)).Unique) : c.Unique :=
  (Bucket.Unique.of_append h).2.1

/-- The items of a container, walked one after the other, amount to the writes
listed by `Bucket.writes`. -/
theorem ReadyWalker_items (fuel : Nat) (tx : Tx) (k0 : Bytes) (ks : List Bytes) (b : Bucket)
    (hu : b.Unique)
    (ih : ∀ (u : Upgrader) (k : Bytes) (c : Bucket), b.child k = some c →
      ReadyWalker fuel u ((k0 :: ks) ++ [k]) tx = writeAll (c.writes ((k0 :: ks) ++ [k])) u)
    (s pre : Bucket) (hs : pre.append s = b) (u : Upgrader) :
    s.ForEach
        (fun k v u1 =>
          match v with
          | none =>
            match b.child k with
            | some _ => ReadyWalker fuel u1 ((k0 :: ks) ++ [k]) tx
            | none => (.ok (), u1)
          | some val =>
            if val.length = 0 then (.ok (), u1)
            else WriteCopy u1 val ((k0 :: ks) ++ [k]))
        u = writeAll (s.writes (k0 :: ks)) u := by
  induction s generalizing pre u with
  | nil => rfl
  | val k v rest ihs =>
    have hs1 : (pre.append (.val k v .nil)).append rest = b := by
      rw [Bucket.append_assoc_val]; exact hs
    simp only [Bucket.ForEach, Bucket.writes]
    by_cases hv : v.length = 0
    · simp only [hv, if_true]
      exact ihs _ hs1 u
    · simp only [hv, if_false, writeAll]
      cases hw : WriteCopy u v (k0 :: ks ++ [k]) with
      | mk r u1 =>
        cases r with
        | ok a => exact ihs _ hs1 u1
        | err e => rfl
        | crash f => rfl
  | sub n c rest _ ihs =>
    have hs1 : (pre.append (.sub n c .nil)).append rest = b := by
      rw [Bucket.append_assoc_sub]; exact hs
    have hc : b.child n = some c := by
      rw [← hs]
      exact Bucket.Unique.child_of_append (hs ▸ hu)
    simp only [Bucket.ForEach, Bucket.writes, hc, writeAll_append, ih u n c hc]
    cases hw : writeAll (c.writes (k0 :: ks ++ [n])) u with
    | mk r u1 =>
      cases r with
      | ok a => exact ihs _ hs1 u1
      | err e => rfl
      | crash f => rfl

/-- On a container whose names are unique the walker performs the writes of
`Bucket.writes`, in that order, and stops at the first one that fails. -/
theorem ReadyWalker_writes (fuel : Nat) (u : Upgrader) (base : List Bytes) (tx : Tx) (b : Bucket)
    (hne : base ≠ []) (hb : tx.root.descend base = some b) (hu : b.Unique)
    (hf : b.depth < fuel) :
    ReadyWalker fuel u base tx = writeAll (b.writes base) u := by
  induction fuel generalizing u base b with
  | zero => omega
  | succ g ih =>
    cases base with
    | nil => exact absurd rfl hne
    | cons k0 ks =>
      rw [ReadyWalker_succ g u k0 ks tx b hb]
      apply ReadyWalker_items g tx k0 ks b hu _ b .nil rfl u
      intro u1 k c hc
      have hd : tx.root.descend ((k0 :: ks) ++ [k]) = some c := by
        rw [Bucket.descend_append, hb]
        simp [Bucket.descend, hc]
      have hlt := Bucket.depth_of_child hc
      have huc : c.Unique := by
        have := Bucket.seek_eq_of_child hc
        clear hd hlt ih hb hf
        induction b with
        | nil => simp [Bucket.seek] at this
        | val k1 v1 rest ihb =>
          simp only [Bucket.seek] at this
          split at this
          · simp at this
          · exact ihb hu.2 (Bucket.child_eq_of_seek this) this
        | sub n1 c1 rest _ ihb =>
          simp only [Bucket.seek] at this
          split at this
          · simp at this; subst this; exact hu.2.1
          · exact ihb hu.2.2 (Bucket.child_eq_of_seek this) this
      exact ih u1 _ c (by simp) hd huc (by omega)

/-- For a store whose root holds only buckets and whose names are unique,
`Shrink` with the flag set is the sequence of writes of the whole tree. -/
theorem Shrink_writes (u : Upgrader) (ho : u.Old.root.OnlyBuckets) (hu : u.Old.root.Unique) :
    Shrink true u = writeAll (u.Old.root.writes []) { u with Old := u.Old.View.2 } := by
  have key : ∀ (s pre : Bucket) (u1 : Upgrader), pre.append s = u.Old.root →
      s.ForEach
        (fun k _ s1 =>
          match u.Old.View.1.bucket (some []) k with
          | .ok (_, _) => ReadyWalker (u.Old.View.1.root.depth + 1) s1 [k] u.Old.View.1
          | .err e => (.err e, s1)
          | .crash f => (.crash f, s1))
        u1 = writeAll (s.writes []) u1 := by
    intro s
    induction s with
    | nil => intro pre u1 _; rfl
    | val k v rest ihs =>
      intro pre u1 hs
      have : (pre.append (.val k v rest)).OnlyBuckets := hs ▸ ho
      exfalso
      clear hs ihs
      induction pre with
      | nil => exact this
      | val k1 v1 r1 ihp => exact this
      | sub n1 c1 r1 _ ihp => exact ihp this
    | sub n c rest _ ihs =>
      intro pre u1 hs
      have hs1 : (pre.append (.sub n c .nil)).append rest = u.Old.root := by
        rw [Bucket.append_assoc_sub]; exact hs
      have hun : (pre.append (.sub n c rest)).Unique := hs ▸ hu
      have hc : u.Old.root.child n = some c := by
        rw [← hs]; exact Bucket.Unique.child_of_append hun
      have hd : u.Old.View.1.root.descend [n] = some c := by
        simp [DB.View, Bucket.descend, hc]
      have hlt := Bucket.depth_of_child hc
      have hw : ReadyWalker (u.Old.View.1.root.depth + 1) u1 [n] u.Old.View.1 =
          writeAll (c.writes [n]) u1 :=
        ReadyWalker_writes _ u1 [n] _ c (by simp) hd (Bucket.Unique.sub_of_append hun)
          (by simp only [DB.View]; omega)
      have hbk : u.Old.View.1.bucket (some []) n = .ok (some [n], u.Old.View.1) := by
        rw [Tx.bucket_eq u.Old.View.1 [] u.Old.root n rfl, hc]
        rfl
      simp only [Bucket.ForEach, Bucket.writes, hbk, hw, writeAll_append, List.nil_append]
      cases hr : writeAll (c.writes [n]) u1 with
      | mk r u2 =>
        cases r with
        | ok a => exact ihs _ u2 hs1
        | err e => rfl
        | crash f => rfl
  unfold Shrink
  simp only [Bool.not_true, Bool.false_eq_true, if_false, Tx.ForEach]
  exact key u.Old.root .nil _ rfl

/-! ## What one write does to the destination -/

namespace Bucket

theorem valueAt_nil_path (b : Bucket) (key : Bytes) :
    b.valueAt [] key =
      match b.seek key with
      | some (.value v) => some v
      | _ => none := rfl

theorem valueAt_cons (b : Bucket) (m : Bytes) (q : List Bytes) (key : Bytes) :
    b.valueAt (m :: q) key =
      match b.child m with
      | some c => c.valueAt q key
      | none => none := by
  simp only [valueAt, lookup_cons]
  cases b.child m <;> rfl

theorem valueAt_nil (q : List Bytes) (key : Bytes) : Bucket.nil.valueAt q key = none := by
  simp [valueAt, lookup_nil]

theorem descend_cons (b : Bucket) (m : Bytes) (q : List Bytes) :
    b.descend (m :: q) =
      match b.child m with
      | some c => c.descend q
      | none => none := rfl

theorem child_store_value (b : Bucket) (last v m : Bytes)
    (hnb : ∀ c, b.seek last ≠ some (.bucket c)) :
    (b.store last (.value v)).child m = b.child m := by
  by_cases hm : m = last
  · subst hm
    have h1 : (b.store m (.value v)).child m = none := by
      simp [child, seek_store_same]
    rw [h1]
    cases hs : b.seek m with
    | none => simp [child, hs]
    | some it =>
      cases it with
      | value w => simp [child, hs]
      | bucket c => exact absurd hs (hnb c)
  · exact child_store_other b last m _ hm

/-- Values after a `Put` into the bucket at `p`. -/
theorem valueAt_put (p : List Bytes) (d b : Bucket) (last v : Bytes)
    (hb : d.descend p = some b) (hnb : ∀ c, b.seek last ≠ some (.bucket c))
    (q : List Bytes) (key : Bytes) :
    (modifyAt p (fun c => c.store last (.value v)) d).valueAt q key =
      if q = p ∧ key = last then some v else d.valueAt q key := by
  induction p generalizing d q with
  | nil =>
    simp only [descend, Option.some.injEq] at hb
    subst hb
    simp only [modifyAt]
    cases q with
    | nil =>
      by_cases hk : key = last
      · subst hk
        simp [valueAt_nil_path, seek_store_same]
      · simp [valueAt_nil_path, seek_store_other d last _ key hk, hk]
    | cons m q1 =>
      simp [valueAt_cons, child_store_value d last v m hnb]
  | cons n ns ih =>
    simp only [descend_cons] at hb
    cases hc : d.child n with
    | none => simp [hc] at hb
    | some c =>
      rw [hc] at hb
      simp only [modifyAt, hc]
      cases q with
      | nil =>
        by_cases hk : key = n
        · subst hk
          simp [valueAt_nil_path, seek_setChild_same d key c _ (seek_eq_of_child hc),
            seek_eq_of_child hc]
        · simp [valueAt_nil_path, seek_setChild_other d n _ key hk]
      | cons m q1 =>
        by_cases hm : m = n
        · subst hm
          simp [valueAt_cons, child_setChild_same d m c _ hc, hc, ih c hb q1]
        · simp [valueAt_cons, child_setChild_other d n _ m hm, hm]

/-- Buckets after a `Put` into the bucket at `p`. -/
theorem descend_put (p : List Bytes) (d b : Bucket) (last v : Bytes)
    (hb : d.descend p = some b) (hnb : ∀ c, b.seek last ≠ some (.bucket c))
    (q : List Bytes) :
    ((modifyAt p (fun c => c.store last (.value v)) d).descend q).isSome =
      (d.descend q).isSome := by
  induction p generalizing d q with
  | nil =>
    simp only [descend, Option.some.injEq] at hb
    subst hb
    simp only [modifyAt]
    cases q with
    | nil => rfl
    | cons m q1 => simp [descend_cons, child_store_value d last v m hnb]
  | cons n ns ih =>
    simp only [descend_cons] at hb
    cases hc : d.child n with
    | none => simp [hc] at hb
    | some c =>
      rw [hc] at hb
      simp only [modifyAt, hc]
      cases q with
      | nil => rfl
      | cons m q1 =>
        by_cases hm : m = n
        · subst hm
          simp [descend_cons, child_setChild_same d m c _ hc, hc, ih c hb q1]
        · simp [descend_cons, child_setChild_other d n _ m hm]

/-- Values are untouched by the creation of a chain of buckets. -/
theorem valueAt_ensure (p : List Bytes) (d d1 : Bucket) (h : d.ensure p = .ok d1)
    (q : List Bytes) (key : Bytes) : d1.valueAt q key = d.valueAt q key := by
  induction p generalizing d d1 q with
  | nil => simp [ensure] at h; rw [h]
  | cons n ns ih =>
    simp only [ensure] at h
    split at h
    · simp at h
    · cases hs : d.seek n with
      | none =>
        rw [hs] at h
        cases he : Bucket.nil.ensure ns with
        | err e => simp [he] at h
        | crash f => simp [he] at h
        | ok c1 =>
          simp [he] at h
          subst h
          cases q with
          | nil =>
            by_cases hk : key = n
            · subst hk
              simp [valueAt_nil_path, seek_store_same, hs]
            · simp [valueAt_nil_path, seek_store_other d n _ key hk]
          | cons m q1 =>
            by_cases hm : m = n
            · subst hm
              simp [valueAt_cons, child_store_same, child_eq_none_of_seek hs,
                ih .nil c1 he q1, valueAt_nil]
            · simp [valueAt_cons, child_store_other d n m _ hm]
      | some it =>
        rw [hs] at h
        cases it with
        | value v => simp at h
        | bucket c =>
          have hc : d.child n = some c := child_eq_of_seek hs
          cases he : c.ensure ns with
          | err e => simp [he] at h
          | crash f => simp [he] at h
          | ok c1 =>
            simp [he] at h
            subst h
            cases q with
            | nil =>
              by_cases hk : key = n
              · subst hk
                simp [valueAt_nil_path, seek_setChild_same d key c c1 hs, hs]
              · simp [valueAt_nil_path, seek_setChild_other d n c1 key hk]
            | cons m q1 =>
              by_cases hm : m = n
              · subst hm
                simp [valueAt_cons, child_setChild_same d m c c1 hc, hc, ih c c1 he q1]
              · simp [valueAt_cons, child_setChild_other d n c1 m hm]

theorem descend_nil_isSome (q : List Bytes) :
    (Bucket.nil.descend q).isSome = decide (q = []) := by
  cases q with
  | nil => rfl
  | cons m q1 => simp [descend_cons, child, seek]

/-- Buckets after the creation of a chain of buckets: those there were and
those of the chain. -/
theorem descend_ensure (p : List Bytes) (d d1 : Bucket) (h : d.ensure p = .ok d1)
    (q : List Bytes) :
    (d1.descend q).isSome = ((d.descend q).isSome || decide (q <+: p)) := by
  induction p generalizing d d1 q with
  | nil =>
    simp [ensure] at h
    subst h
    cases q with
    | nil => rfl
    | cons m q1 => simp
  | cons n ns ih =>
    simp only [ensure] at h
    split at h
    · simp at h
    · cases hs : d.seek n with
      | none =>
        rw [hs] at h
        cases he : Bucket.nil.ensure ns with
        | err e => simp [he] at h
        | crash f => simp [he] at h
        | ok c1 =>
          simp [he] at h
          subst h
          cases q with
          | nil => simp [descend]
          | cons m q1 =>
            by_cases hm : m = n
            · subst hm
              simp only [descend_cons, child_store_same, child_eq_none_of_seek hs,
                ih .nil c1 he q1, descend_nil_isSome, List.cons_prefix_cons, true_and,
                Option.isSome_none, Bool.false_or]
              by_cases hq : q1 = []
              · simp [hq]
              · simp [hq]
            · simp [descend_cons, child_store_other d n m _ hm, hm]
      | some it =>
        rw [hs] at h
        cases it with
        | value v => simp at h
        | bucket c =>
          have hc : d.child n = some c := child_eq_of_seek hs
          cases he : c.ensure ns with
          | err e => simp [he] at h
          | crash f => simp [he] at h
          | ok c1 =>
            simp [he] at h
            subst h
            cases q with
            | nil => simp [descend]
            | cons m q1 =>
              by_cases hm : m = n
              · subst hm
                simp [descend_cons, child_setChild_same d m c c1 hc, hc, ih c c1 he q1]
              · simp [descend_cons, child_setChild_other d n c1 m hm, hm]

end Bucket

/-- A `WriteCopy` that does not return nil leaves the destination contents as
they were (the transaction is rolled back). -/
theorem WriteCopy_root_of_not_ok (u : Upgrader) (v : Bytes) (k : List Bytes)
    (h : (WriteCopy u v k).1 ≠ .ok ()) : (WriteCopy u v k).2.New.root = u.New.root := by
  unfold WriteCopy at h ⊢
  split
  · rfl
  · rename_i hv
    simp only [hv, if_false] at h
    unfold DB.Update at h ⊢
    cases hf : WriteCopy.fn v k ⟨u.New.root, true⟩ with
    | err e => rfl
    | crash f => rfl
    | ok tx =>
      rw [hf] at h
      cases hc : u.New.commitsLeft with
      | none => simp [hc] at h
      | some n =>
        cases n with
        | zero => rfl
        | succ m => simp [hc] at h

/-- Values of the destination after a successful `WriteCopy`: the value
written, under the last segment inside the bucket at the whole path, and all
the values there were. -/
theorem WriteCopy_valueAt (u : Upgrader) (v : Bytes) (k : List Bytes) (hv : v ≠ [])
    (h : (WriteCopy u v k).1 = .ok ()) (q : List Bytes) (key : Bytes) :
    (WriteCopy u v k).2.New.root.valueAt q key =
      if q = k ∧ k.getLast? = some key then some v else u.New.root.valueAt q key := by
  obtain ⟨r1, b, last, g1, g2, g3, _, _, _, g7, _, g9⟩ := WriteCopy_ok u v k hv h
  rw [g9, Bucket.valueAt_put k r1 b last v g3 g7 q key, Bucket.valueAt_ensure k _ r1 g2, g1]
  by_cases hk : key = last
  · simp [hk]
  · have : ¬ last = key := fun e => hk e.symm
    simp [hk, this]

/-- Buckets of the destination after a successful `WriteCopy`: those there
were and those along the whole path written. -/
theorem WriteCopy_descend (u : Upgrader) (v : Bytes) (k : List Bytes) (hv : v ≠ [])
    (h : (WriteCopy u v k).1 = .ok ()) (q : List Bytes) :
    ((WriteCopy u v k).2.New.root.descend q).isSome =
      ((u.New.root.descend q).isSome || decide (q <+: k)) := by
  obtain ⟨r1, b, last, _, g2, g3, _, _, _, g7, _, g9⟩ := WriteCopy_ok u v k hv h
  rw [g9, Bucket.descend_put k r1 b last v g3 g7 q, Bucket.descend_ensure k _ r1 g2]

/-! ## What a sequence of writes does to the destination -/

theorem writeAll_cons_ok (p : List Bytes) (v : Bytes) (rest : List (List Bytes × Bytes))
    (u u2 : Upgrader) (h : writeAll ((p, v) :: rest) u = (.ok (), u2)) :
    (WriteCopy u v p).1 = .ok () ∧ writeAll rest (WriteCopy u v p).2 = (.ok (), u2) := by
  simp only [writeAll] at h
  cases hw : WriteCopy u v p with
  | mk r u1 =>
    rw [hw] at h
    cases r with
    | ok a => exact ⟨rfl, h⟩
    | err e => simp at h
    | crash f => simp at h

/-- Every value the destination holds after a successful sequence of writes
was there before or was written, under the last segment of its path. -/
theorem writeAll_valueAt (ws : List (List Bytes × Bytes)) (u u2 : Upgrader)
    (hne : ∀ w ∈ ws, w.2 ≠ []) (h : writeAll ws u = (.ok (), u2))
    (q : List Bytes) (key w : Bytes) (hq : u2.New.root.valueAt q key = some w) :
    u.New.root.valueAt q key = some w ∨ ((q, w) ∈ ws ∧ q.getLast? = some key) := by
  induction ws generalizing u with
  | nil =>
    simp [writeAll] at h
    subst h
    exact Or.inl hq
  | cons pv rest ih =>
    obtain ⟨p, v⟩ := pv
    obtain ⟨h1, h2⟩ := writeAll_cons_ok p v rest u u2 h
    have hv : v ≠ [] := hne (p, v) (List.mem_cons_self _ _)
    rcases ih _ (fun w hw => hne w (List.mem_cons_of_mem _ hw)) h2 with h3 | ⟨h3, h4⟩
    · rw [WriteCopy_valueAt u v p hv h1 q key] at h3
      split at h3
      · rename_i hc
        simp at h3
        subst h3
        right
        exact ⟨by rw [hc.1]; exact List.mem_cons_self _ _, by rw [hc.1]; exact hc.2⟩
      · exact Or.inl h3
    · exact Or.inr ⟨List.mem_cons_of_mem _ h3, h4⟩

/-- Every bucket the destination holds after a successful sequence of writes
was there before or lies along the path of one of the writes. -/
theorem writeAll_descend (ws : List (List Bytes × Bytes)) (u u2 : Upgrader)
    (hne : ∀ w ∈ ws, w.2 ≠ []) (h : writeAll ws u = (.ok (), u2))
    (q : List Bytes) (hq : (u2.New.root.descend q).isSome = true) :
    (u.New.root.descend q).isSome = true ∨ ∃ w ∈ ws, q <+: w.1 := by
  induction ws generalizing u with
  | nil =>
    simp [writeAll] at h
    subst h
    exact Or.inl hq
  | cons pv rest ih =>
    obtain ⟨p, v⟩ := pv
    obtain ⟨h1, h2⟩ := writeAll_cons_ok p v rest u u2 h
    have hv : v ≠ [] := hne (p, v) (List.mem_cons_self _ _)
    rcases ih _ (fun w hw => hne w (List.mem_cons_of_mem _ hw)) h2 with h3 | ⟨w, h3, h4⟩
    · rw [WriteCopy_descend u v p hv h1 q] at h3
      simp only [Bool.or_eq_true, decide_eq_true_eq] at h3
      rcases h3 with h3 | h3
      · exact Or.inl h3
      · exact Or.inr ⟨(p, v), List.mem_cons_self _ _, h3⟩
    · exact Or.inr ⟨w, List.mem_cons_of_mem _ h3, h4⟩

/-- A value of the destination survives a successful sequence of writes none
of which writes another value to its path. -/
theorem writeAll_preserves (ws : List (List Bytes × Bytes)) (u u2 : Upgrader)
    (hne : ∀ w ∈ ws, w.2 ≠ []) (h : writeAll ws u = (.ok (), u2))
    (q : List Bytes) (key w : Bytes) (hq : u.New.root.valueAt q key = some w)
    (hsame : ∀ w1, (q, w1) ∈ ws → w1 = w) : u2.New.root.valueAt q key = some w := by
  induction ws generalizing u with
  | nil =>
    simp [writeAll] at h
    subst h
    exact hq
  | cons pv rest ih =>
    obtain ⟨p, v⟩ := pv
    obtain ⟨h1, h2⟩ := writeAll_cons_ok p v rest u u2 h
    have hv : v ≠ [] := hne (p, v) (List.mem_cons_self _ _)
    apply ih _ (fun w hw => hne w (List.mem_cons_of_mem _ hw)) h2
    · rw [WriteCopy_valueAt u v p hv h1 q key]
      split
      · rename_i hc
        have : v = w := hsame v (by rw [hc.1]; exact List.mem_cons_self _ _)
        rw [this]
      · exact hq
    · intro w1 hw1
      exact hsame w1 (List.mem_cons_of_mem _ hw1)

/-- After a successful sequence of writes that never writes two different
values to one path, every value written is in the destination, under the last
segment of its path inside the bucket at that path. -/
theorem writeAll_written (ws : List (List Bytes × Bytes)) (u u2 : Upgrader)
    (hne : ∀ w ∈ ws, w.2 ≠ []) (h : writeAll ws u = (.ok (), u2))
    (hfun : ∀ p w1 w2, (p, w1) ∈ ws → (p, w2) ∈ ws → w1 = w2)
    (p : List Bytes) (w : Bytes) (hp : (p, w) ∈ ws) :
    ∃ last, p.getLast? = some last ∧ u2.New.root.valueAt p last = some w := by
  induction ws generalizing u with
  | nil => simp at hp
  | cons pv rest ih =>
    obtain ⟨p0, v0⟩ := pv
    obtain ⟨h1, h2⟩ := writeAll_cons_ok p0 v0 rest u u2 h
    have hv : v0 ≠ [] := hne (p0, v0) (List.mem_cons_self _ _)
    have hne1 : ∀ w ∈ rest, w.2 ≠ [] := fun w hw => hne w (List.mem_cons_of_mem _ hw)
    rcases List.mem_cons.mp hp with e | hp1
    · simp only [Prod.mk.injEq] at e
      obtain ⟨e1, e2⟩ := e
      subst e1 e2
      obtain ⟨_, _, last, g1, _⟩ := WriteCopy_ok u w p hv h1
      refine ⟨last, g1, ?_⟩
      apply writeAll_preserves rest _ u2 hne1 h2 p last w
      · rw [WriteCopy_valueAt u w p hv h1 p last]
        simp [g1]
      · intro w1 hw1
        exact hfun p w1 w (List.mem_cons_of_mem _ hw1) (List.mem_cons_self _ _)
    · exact ih _ hne1 h2
        (fun p1 w1 w2 a b => hfun p1 w1 w2 (List.mem_cons_of_mem _ a) (List.mem_cons_of_mem _ b))
        hp1

/-- Buckets of the destination survive a successful sequence of writes, and
every prefix of a path written is a bucket afterwards. -/
theorem writeAll_buckets (ws : List (List Bytes × Bytes)) (u u2 : Upgrader)
    (hne : ∀ w ∈ ws, w.2 ≠ []) (h : writeAll ws u = (.ok (), u2)) (q : List Bytes)
    (hq : (u.New.root.descend q).isSome = true ∨ ∃ w ∈ ws, q <+: w.1) :
    (u2.New.root.descend q).isSome = true := by
  induction ws generalizing u with
  | nil =>
    simp [writeAll] at h
    subst h
    rcases hq with hq | ⟨w, hw, _⟩
    · exact hq
    · simp at hw
  | cons pv rest ih =>
    obtain ⟨p, v⟩ := pv
    obtain ⟨h1, h2⟩ := writeAll_cons_ok p v rest u u2 h
    have hv : v ≠ [] := hne (p, v) (List.mem_cons_self _ _)
    apply ih _ (fun w hw => hne w (List.mem_cons_of_mem _ hw)) h2
    rcases hq with hq | ⟨w, hw, hpre⟩
    · left
      rw [WriteCopy_descend u v p hv h1 q, hq]
      rfl
    · rcases List.mem_cons.mp hw with e | hw1
      · left
        subst e
        rw [WriteCopy_descend u v p hv h1 q]
        simp [hpre]
      · exact Or.inr ⟨w, hw1, hpre⟩

/-! ## The writes of a walk and the entries of the source -/

namespace Bucket

theorem mem_writes_head (b : Bucket) (base p : List Bytes) (w : Bytes)
    (h : (p, w) ∈ b.writes base) : ∃ k ∈ b.keys, ∃ t, p = base ++ k :: t := by
  induction b generalizing base with
  | nil => simp [writes] at h
  | val k v rest ih =>
    simp only [writes] at h
    split at h
    · obtain ⟨k1, hk1, t, ht⟩ := ih base h
      exact ⟨k1, List.mem_cons_of_mem _ hk1, t, ht⟩
    · rcases List.mem_cons.mp h with e | h1
      · simp only [Prod.mk.injEq] at e
        exact ⟨k, List.mem_cons_self _ _, [], e.1⟩
      · obtain ⟨k1, hk1, t, ht⟩ := ih base h1
        exact ⟨k1, List.mem_cons_of_mem _ hk1, t, ht⟩
  | sub n c rest ihc ih =>
    simp only [writes, List.mem_append] at h
    rcases h with h1 | h1
    · obtain ⟨k1, _, t, ht⟩ := ihc (base ++ [n]) h1
      exact ⟨n, List.mem_cons_self _ _, k1 :: t, by simp [ht]⟩
    · obtain ⟨k1, hk1, t, ht⟩ := ih base h1
      exact ⟨k1, List.mem_cons_of_mem _ hk1, t, ht⟩

theorem valueAt_skip_val (k v : Bytes) (rest : Bucket) (P : List Bytes) (key : Bytes)
    (h : (P ++ [key]).head? ≠ some k) :
    (Bucket.val k v rest).valueAt P key = rest.valueAt P key := by
  cases P with
  | nil =>
    have hk : ¬ k = key := by intro e; apply h; simp [e]
    simp [valueAt_nil_path, seek, hk]
  | cons m P1 =>
    have hk : ¬ k = m := by intro e; apply h; simp [e]
    simp [valueAt_cons, child, seek, hk]

theorem valueAt_skip_sub (n : Bytes) (c rest : Bucket) (P : List Bytes) (key : Bytes)
    (h : (P ++ [key]).head? ≠ some n) :
    (Bucket.sub n c rest).valueAt P key = rest.valueAt P key := by
  cases P with
  | nil =>
    have hk : ¬ n = key := by intro e; apply h; simp [e]
    simp [valueAt_nil_path, seek, hk]
  | cons m P1 =>
    have hk : ¬ n = m := by intro e; apply h; simp [e]
    simp [valueAt_cons, child, seek, hk]

theorem valueAt_sub_same (n : Bytes) (c rest : Bucket) (P : List Bytes) (key : Bytes) :
    (Bucket.sub n c rest).valueAt (n :: P) key = c.valueAt P key := by
  simp [valueAt_cons, child, seek]

/-- Every write of the walk copies a value of the source: the path written is
the path of the container holding the value followed by its key. -/
theorem mem_writes (b : Bucket) (base p : List Bytes) (w : Bytes) (hu : b.Unique)
    (h : (p, w) ∈ b.writes base) :
    ∃ P k, p = base ++ (P ++ [k]) ∧ b.valueAt P k = some w ∧ w ≠ [] := by
  induction b generalizing base with
  | nil => simp [writes] at h
  | val k v rest ih =>
    have hrest : (p, w) ∈ rest.writes base →
        ∃ P k1, p = base ++ (P ++ [k1]) ∧ (Bucket.val k v rest).valueAt P k1 = some w ∧
          w ≠ [] := by
      intro h1
      obtain ⟨P, k1, e1, e2, e3⟩ := ih base hu.2 h1
      obtain ⟨k2, hk2, t, ht⟩ := mem_writes_head rest base p w h1
      refine ⟨P, k1, e1, ?_, e3⟩
      rw [valueAt_skip_val k v rest P k1, e2]
      have : P ++ [k1] = k2 :: t := List.append_cancel_left (e1.symm.trans ht)
      rw [this]
      simp only [List.head?_cons, ne_eq, Option.some.injEq]
      intro e
      exact hu.1 (e ▸ hk2)
    simp only [writes] at h
    split at h
    · exact hrest h
    · rename_i hv
      rcases List.mem_cons.mp h with e | h1
      · simp only [Prod.mk.injEq] at e
        obtain ⟨e1, e2⟩ := e
        subst e2
        refine ⟨[], k, by simpa using e1, by simp [valueAt_nil_path, seek], ?_⟩
        intro e
        subst e
        simp at hv
      · exact hrest h1
  | sub n c rest ihc ih =>
    simp only [writes, List.mem_append] at h
    rcases h with h1 | h1
    · obtain ⟨P, k1, e1, e2, e3⟩ := ihc (base ++ [n]) hu.2.1 h1
      exact ⟨n :: P, k1, by simp [e1], by rw [valueAt_sub_same]; exact e2, e3⟩
    · obtain ⟨P, k1, e1, e2, e3⟩ := ih base hu.2.2 h1
      obtain ⟨k2, hk2, t, ht⟩ := mem_writes_head rest base p w h1
      refine ⟨P, k1, e1, ?_, e3⟩
      rw [valueAt_skip_sub n c rest P k1, e2]
      have : P ++ [k1] = k2 :: t := List.append_cancel_left (e1.symm.trans ht)
      rw [this]
      simp only [List.head?_cons, ne_eq, Option.some.injEq]
      intro e
      exact hu.1 (e ▸ hk2)

/-- Every value of non-zero length of the source is written by the walk. -/
theorem writes_of_valueAt (b : Bucket) (base P : List Bytes) (k w : Bytes)
    (h : b.valueAt P k = some w) (hw : w ≠ []) :
    (base ++ (P ++ [k]), w) ∈ b.writes base := by
  induction b generalizing base P with
  | nil => simp [valueAt_nil] at h
  | val k0 v0 rest ih =>
    have hrest : rest.valueAt P k = some w → (base ++ (P ++ [k]), w) ∈
        (Bucket.val k0 v0 rest).writes base := by
      intro h1
      have := ih base P h1
      simp only [writes]
      split
      · exact this
      · exact List.mem_cons_of_mem _ this
    cases P with
    | nil =>
      simp only [valueAt_nil_path, seek] at h
      by_cases hk : k0 = k
      · simp only [hk, if_true, Option.some.injEq] at h
        subst h
        subst hk
        have hv : ¬ v0.length = 0 := by
          intro e; exact hw (List.length_eq_zero.mp e)
        simp [writes, hv]
      · simp only [hk, if_false] at h
        exact hrest (by rw [valueAt_nil_path]; exact h)
    | cons m P1 =>
      simp only [valueAt_cons, child, seek] at h
      by_cases hk : k0 = m
      · simp [hk] at h
      · simp only [hk, if_false] at h
        exact hrest (by simp only [valueAt_cons, child]; exact h)
  | sub n c rest ihc ih =>
    have hrest : rest.valueAt P k = some w → (base ++ (P ++ [k]), w) ∈
        (Bucket.sub n c rest).writes base := by
      intro h1
      simp only [writes, List.mem_append]
      exact Or.inr (ih base P h1)
    cases P with
    | nil =>
      simp only [valueAt_nil_path, seek] at h
      by_cases hk : n = k
      · simp [hk] at h
      · simp only [hk, if_false] at h
        exact hrest (by rw [valueAt_nil_path]; exact h)
    | cons m P1 =>
      by_cases hk : n = m
      · subst hk
        rw [valueAt_sub_same] at h
        have := ihc (base ++ [n]) P1 h
        simp only [writes, List.mem_append]
        left
        simpa using this
      · simp only [valueAt_cons, child, seek, hk, if_false] at h
        exact hrest (by simp only [valueAt_cons, child]; exact h)

/-- The walk of a store with unique names never writes two different values
to one path. -/
theorem writes_functional (b : Bucket) (hu : b.Unique) (p : List Bytes) (w1 w2 : Bytes)
    (h1 : (p, w1) ∈ b.writes []) (h2 : (p, w2) ∈ b.writes []) : w1 = w2 := by
  obtain ⟨P1, k1, e1, f1, _⟩ := mem_writes b [] p w1 hu h1
  obtain ⟨P2, k2, e2, f2, _⟩ := mem_writes b [] p w2 hu h2
  simp only [List.nil_append] at e1 e2
  have := List.append_inj' (e1.symm.trans e2) rfl
  obtain ⟨hP, hk⟩ := this
  simp only [List.cons.injEq, and_true] at hk
  subst hP hk
  rw [f1] at f2
  simpa using f2

/-- A key bound to a plain value is not the name of a container: nothing
resolves through it. -/
theorem descend_of_valueAt (b : Bucket) (P : List Bytes) (k w : Bytes) (t : List Bytes)
    (h : b.valueAt P k = some w) : b.descend (P ++ k :: t) = none := by
  rw [descend_append]
  simp only [valueAt, lookup] at h
  cases hd : b.descend P with
  | none => rfl
  | some c =>
    rw [hd] at h
    simp only [Option.bind_some, descend_cons]
    have : c.child k = none := by
      cases hs : c.seek k with
      | none => simp [child, hs]
      | some it =>
        cases it with
        | value v => simp [child, hs]
        | bucket c1 => simp [hs] at h
    simp [this]

theorem descend_isSome_of_valueAt (b : Bucket) (P : List Bytes) (k w : Bytes)
    (h : b.valueAt P k = some w) : (b.descend P).isSome = true := by
  simp only [valueAt, lookup] at h
  cases hd : b.descend P with
  | none => simp [hd] at h
  | some c => rfl

theorem descend_isSome_of_isPrefix (b : Bucket) (q p : List Bytes) (hq : q <+: p)
    (hp : (b.descend p).isSome = true) : (b.descend q).isSome = true := by
  obtain ⟨t, ht⟩ := hq
  subst ht
  cases hd : b.descend (q ++ t) with
  | none => simp [hd] at hp
  | some c =>
    obtain ⟨c1, hc1⟩ := descend_isSome_of_append b q t c hd
    simp [hc1]

end Bucket

theorem List.isPrefix_of_snoc_isPrefix_snoc {α : Type} {a b : List α} {y z : α}
    (h : a ++ [y] <+: b ++ [z]) : a <+: b := by
  obtain ⟨t, ht⟩ := h
  rcases List.eq_nil_or_concat t with e | ⟨t1, z1, e⟩
  · subst e
    simp only [List.append_nil] at ht
    have := List.append_inj' ht rfl
    rw [this.1]
  · subst e
    have h2 : (a ++ [y] ++ t1) ++ [z1] = b ++ [z] := by
      simpa [List.append_assoc] using ht
    have := List.append_inj' h2 rfl
    exact ⟨[y] ++ t1, by rw [← this.1]; simp⟩

/-! ## The destination after a successful compaction -/

theorem Bucket.writes_ne (b : Bucket) (hu : b.Unique) :
    ∀ w ∈ b.writes [], w.2 ≠ [] := by
  intro w hw
  obtain ⟨_, _, _, _, h⟩ := Bucket.mem_writes b [] w.1 w.2 hu hw
  exact h

/-- C16: for a source store (root holding only buckets, unique names) and an
initially empty destination, after a successful `Shrink` every source entry
with key `k` and value `v` of non-zero length in the container at path `P` is
bound to `v` under the key `k` inside the destination container at `P`
followed by `k`, one nesting level deeper than in the source, and every
plain entry of the destination is one of these. -/
theorem C16_entries_land_one_level_deeper (DangerZone : Bool) (u : Upgrader)
    (hstore : u.Old.root.IsStore) (hempty : u.New.root = .nil)
    (hok : (Shrink DangerZone u).1 = .ok ()) :
    (∀ P k v, u.Old.root.valueAt P k = some v → v ≠ [] →
      (Shrink DangerZone u).2.New.root.valueAt (P ++ [k]) k = some v) ∧
    (∀ q key v, (Shrink DangerZone u).2.New.root.valueAt q key = some v →
      ∃ P, q = P ++ [key] ∧ u.Old.root.valueAt P key = some v ∧ v ≠ []) := by
  cases DangerZone with
  | false => simp [Shrink] at hok
  | true =>
    have hw := Shrink_writes u hstore.1 hstore.2
    have hne := Bucket.writes_ne u.Old.root hstore.2
    have hrun : writeAll (u.Old.root.writes []) { u with Old := u.Old.View.2 } =
        (.ok (), (Shrink true u).2) := by
      rw [← hw]
      exact Prod.ext hok rfl
    constructor
    · intro P k v hv hvne
      have hmem := Bucket.writes_of_valueAt u.Old.root [] P k v hv hvne
      simp only [List.nil_append] at hmem
      obtain ⟨last, hl, hval⟩ := writeAll_written _ _ _ hne hrun
        (Bucket.writes_functional u.Old.root hstore.2) (P ++ [k]) v hmem
      have : last = k := by simpa using hl.symm
      rw [this] at hval
      exact hval
    · intro q key v hv
      rcases writeAll_valueAt _ _ _ hne hrun q key v hv with h1 | ⟨h1, h2⟩
      · simp [hempty, Bucket.valueAt_nil] at h1
      · obtain ⟨P, k1, e1, e2, e3⟩ := Bucket.mem_writes u.Old.root [] q v hstore.2 h1
        simp only [List.nil_append] at e1
        have : k1 = key := by rw [e1] at h2; simpa using h2
        subst this
        exact ⟨P, e1, e2, e3⟩

/-- Witness for C16: the test store compacted into an empty destination. -/
theorem C16_entries_land_one_level_deeper_witness :
    (∀ P k v, testStore.valueAt P k = some v → v ≠ [] →
      (Shrink true { Old := openDB testStore, New := openDB .nil }).2.New.root.valueAt
        (P ++ [k]) k = some v) ∧
    (∀ q key v,
      (Shrink true { Old := openDB testStore, New := openDB .nil }).2.New.root.valueAt
        q key = some v →
      ∃ P, q = P ++ [key] ∧ testStore.valueAt P key = some v ∧ v ≠ []) :=
  C16_entries_land_one_level_deeper true { Old := openDB testStore, New := openDB .nil }
    (by decide) rfl (by decide)

/-- C17: for a source store and an initially empty destination, after a
successful `Shrink` every container of the destination lies along the written
path (container path followed by key) of a copied entry; hence a source
container, root or nested, whose subtree holds no value of non-zero length has
no counterpart in the destination. -/
theorem C17_containers_only_along_written_paths (DangerZone : Bool) (u : Upgrader)
    (hstore : u.Old.root.IsStore) (hempty : u.New.root = .nil)
    (hok : (Shrink DangerZone u).1 = .ok ()) :
    (∀ q, q ≠ [] → ((Shrink DangerZone u).2.New.root.descend q).isSome = true →
      ∃ P k v, u.Old.root.valueAt P k = some v ∧ v ≠ [] ∧ q <+: P ++ [k]) ∧
    (∀ q, q ≠ [] → (u.Old.root.descend q).isSome = true →
      (∀ P k v, u.Old.root.valueAt (q ++ P) k = some v → v = []) →
      (Shrink DangerZone u).2.New.root.descend q = none) := by
  cases DangerZone with
  | false => simp [Shrink] at hok
  | true =>
    have hw := Shrink_writes u hstore.1 hstore.2
    have hne := Bucket.writes_ne u.Old.root hstore.2
    have hrun : writeAll (u.Old.root.writes []) { u with Old := u.Old.View.2 } =
        (.ok (), (Shrink true u).2) := by
      rw [← hw]
      exact Prod.ext hok rfl
    have first : ∀ q, q ≠ [] → ((Shrink true u).2.New.root.descend q).isSome = true →
        ∃ P k v, u.Old.root.valueAt P k = some v ∧ v ≠ [] ∧ q <+: P ++ [k] := by
      intro q hq hd
      rcases writeAll_descend _ _ _ hne hrun q hd with h1 | ⟨w, h1, h2⟩
      · simp [hempty, Bucket.descend_nil_isSome, hq] at h1
      · obtain ⟨P, k1, e1, e2, e3⟩ := Bucket.mem_writes u.Old.root [] w.1 w.2 hstore.2 h1
        simp only [List.nil_append] at e1
        exact ⟨P, k1, w.2, e2, e3, e1 ▸ h2⟩
    refine ⟨first, ?_⟩
    intro q hq hsrc hnone
    cases hd : (Shrink true u).2.New.root.descend q with
    | none => rfl
    | some c =>
      exfalso
      obtain ⟨P, k, v, e1, e2, e3⟩ := first q hq (by simp [hd])
      rcases List.prefix_concat_iff.mp e3 with e | e
      · have := Bucket.descend_of_valueAt u.Old.root P k v [] e1
        rw [← e] at this
        simp [this] at hsrc
      · obtain ⟨t, ht⟩ := e
        subst ht
        exact e2 (hnone t k v e1)

/-- Witness for C17: a store with an empty container and a container holding
only a zero-length value next to a container with one entry. -/
theorem C17_containers_only_along_written_paths_witness :
    (∀ q, q ≠ [] →
      ((Shrink true { Old := openDB sparseStore, New := openDB .nil }).2.New.root.descend
        q).isSome = true →
      ∃ P k v, sparseStore.valueAt P k = some v ∧ v ≠ [] ∧ q <+: P ++ [k]) ∧
    (∀ q, q ≠ [] → (sparseStore.descend q).isSome = true →
      (∀ P k v, sparseStore.valueAt (q ++ P) k = some v → v = []) →
      (Shrink true { Old := openDB sparseStore, New := openDB .nil }).2.New.root.descend
        q = none) :=
  C17_containers_only_along_written_paths true
    { Old := openDB sparseStore, New := openDB .nil } (by decide) rfl (by decide)

/-! ## Compaction of a well-formed store succeeds -/

namespace Bucket

theorem Storable.of_seek {b : Bucket} (h : b.Storable) (key : Bytes) :
    (∀ v, b.seek key = some (.value v) →
      key ≠ [] ∧ key.length ≤ MaxKeySize ∧ v.length ≤ MaxValueSize) ∧
    (∀ c, b.seek key = some (.bucket c) → key ≠ [] ∧ c.Storable) := by
  induction b with
  | nil => simp [Bucket.seek]
  | val k0 v0 rest ih =>
    simp only [Bucket.seek]
    split
    · rename_i e
      subst e
      constructor
      · intro v hv
        simp at hv
        subst hv
        exact ⟨h.1, h.2.1, h.2.2.1⟩
      · intro c hc; simp at hc
    · exact ih h.2.2.2
  | sub n0 c0 rest _ ih =>
    simp only [Bucket.seek]
    split
    · rename_i e
      subst e
      constructor
      · intro v hv; simp at hv
      · intro c hc
        simp at hc
        subst hc
        exact ⟨h.1, h.2.1⟩
    · exact ih h.2.2

/-- In a storable tree the path and the key of a plain entry have no empty
segment, and its key and value are within the size limits. -/
theorem Storable.of_valueAt {b : Bucket} (h : b.Storable) (P : List Bytes) (k w : Bytes)
    (hv : b.valueAt P k = some w) :
    (∀ s ∈ P ++ [k], s ≠ []) ∧ k.length ≤ MaxKeySize ∧ w.length ≤ MaxValueSize := by
  induction P generalizing b with
  | nil =>
    rw [valueAt_nil_path] at hv
    cases hs : b.seek k with
    | none => simp [hs] at hv
    | some it =>
      cases it with
      | bucket c => simp [hs] at hv
      | value v =>
        simp [hs] at hv
        subst hv
        obtain ⟨h1, h2, h3⟩ := (h.of_seek k).1 v hs
        exact ⟨by simpa using h1, h2, h3⟩
  | cons m P1 ih =>
    rw [valueAt_cons] at hv
    cases hc : b.child m with
    | none => simp [hc] at hv
    | some c =>
      rw [hc] at hv
      obtain ⟨h1, h2⟩ := (h.of_seek m).2 c (seek_eq_of_child hc)
      obtain ⟨g1, g2, g3⟩ := ih h2 hv
      refine ⟨?_, g2, g3⟩
      intro s hs
      rcases List.mem_cons.mp hs with e | hs1
      · rw [e]; exact h1
      · exact g1 s hs1

end Bucket

theorem WriteCopy_commitsLeft_none (u : Upgrader) (v : Bytes) (k : List Bytes)
    (h : u.New.commitsLeft = none) : (WriteCopy u v k).2.New.commitsLeft = none := by
  unfold WriteCopy
  split
  · exact h
  · simp only [DB.Update, h]
    cases WriteCopy.fn v k ⟨u.New.root, true⟩ <;> rfl

/-- In the middle of the walk of a well-formed store into a destination that
started out empty, the next write finds no plain value where it needs a bucket
and no bucket where it puts the value: it succeeds, and so do all the
following ones. -/
theorem writeAll_succeeds (src : Bucket) (hu : src.Unique) (hs : src.Storable)
    (ws2 ws1 : List (List Bytes × Bytes)) (hws : ws1 ++ ws2 = src.writes [])
    (u0 u1 : Upgrader) (h0 : u0.New.root = .nil) (h1 : writeAll ws1 u0 = (.ok (), u1))
    (hio : u1.New.commitsLeft = none) : (writeAll ws2 u1).1 = .ok () := by
  induction ws2 generalizing ws1 u1 with
  | nil => rfl
  | cons pv rest ih =>
    obtain ⟨p, v⟩ := pv
    have hmem : (p, v) ∈ src.writes [] := by rw [← hws]; simp
    have hsub : ∀ w ∈ ws1, w ∈ src.writes [] := by
      intro w hw; rw [← hws]; exact List.mem_append_left _ hw
    have hne1 : ∀ w ∈ ws1, w.2 ≠ [] := fun w hw => Bucket.writes_ne src hu w (hsub w hw)
    obtain ⟨P, k, e1, e2, e3⟩ := Bucket.mem_writes src [] p v hu hmem
    simp only [List.nil_append] at e1
    obtain ⟨hseg, hklen, hvlen⟩ := hs.of_valueAt P k v e2
    have hPsome := Bucket.descend_isSome_of_valueAt src P k v e2
    -- no plain value of the destination lies on the path to create
    have hclear : ∀ q key w, q ++ [key] <+: p →
        u1.New.root.lookup q key ≠ some (.value w) := by
      intro q key w hq hl
      have hval : u1.New.root.valueAt q key = some w := by simp [Bucket.valueAt, hl]
      rcases writeAll_valueAt ws1 u0 u1 hne1 h1 q key w hval with g | ⟨g1, g2⟩
      · simp [h0, Bucket.valueAt_nil] at g
      · obtain ⟨P1, k1, f1, f2, _⟩ := Bucket.mem_writes src [] q w hu (hsub _ g1)
        simp only [List.nil_append] at f1
        have hk : k1 = key := by rw [f1] at g2; simpa using g2
        subst hk
        rw [f1, e1] at hq
        have hpre : P1 ++ [k1] <+: P := List.isPrefix_of_snoc_isPrefix_snoc hq
        have := Bucket.descend_isSome_of_isPrefix src _ _ hpre hPsome
        rw [Bucket.descend_of_valueAt src P1 k1 w [] f2] at this
        simp at this
    obtain ⟨r1, hr1⟩ := Bucket.ensure_ok p u1.New.root (e1 ▸ hseg) hclear
    obtain ⟨b, hb⟩ := Bucket.ensure_descend p _ r1 hr1
    -- the key is not bound to a bucket where the value goes
    have hnb : ∀ c, b.seek k ≠ some (.bucket c) := by
      intro c hc
      have hd1 : (r1.descend (p ++ [k])).isSome = true := by
        rw [Bucket.descend_append, hb]
        simp [Bucket.descend, Bucket.child_eq_of_seek hc]
      rw [Bucket.descend_ensure p _ r1 hr1] at hd1
      have hnp : ¬ (p ++ [k] <+: p) := by
        intro hp
        have := hp.length_le
        simp at this
      simp only [hnp, decide_False, Bool.or_false] at hd1
      rcases writeAll_descend ws1 u0 u1 hne1 h1 _ hd1 with g | ⟨w, g1, g2⟩
      · simp [h0, Bucket.descend_nil_isSome] at g
      · obtain ⟨P2, k2, f1, f2, _⟩ := Bucket.mem_writes src [] w.1 w.2 hu (hsub _ g1)
        simp only [List.nil_append] at f1
        rw [f1, e1] at g2
        have hpre : P ++ [k] <+: P2 := List.isPrefix_of_snoc_isPrefix_snoc g2
        have := Bucket.descend_isSome_of_isPrefix src _ _ hpre
          (Bucket.descend_isSome_of_valueAt src P2 k2 w.2 f2)
        rw [Bucket.descend_of_valueAt src P k v [] e2] at this
        simp at this
    have hk0 : k.length ≠ 0 := by
      have := hseg k (by simp)
      intro e
      exact this (List.length_eq_zero.mp e)
    obtain ⟨hw1, _⟩ := WriteCopy_of u1 v p e3 r1 b k (by rw [e1]; simp) hr1 hb hk0 hklen hvlen
      hnb (by rw [hio]; simp)
    have hstep : writeAll ((p, v) :: rest) u1 = writeAll rest (WriteCopy u1 v p).2 := by
      simp only [writeAll]
      cases hwc : WriteCopy u1 v p with
      | mk r u2 =>
        rw [hwc] at hw1
        simp only at hw1
        subst hw1
        rfl
    rw [hstep]
    apply ih (ws1 ++ [(p, v)]) (by simpa using hws)
    · rw [writeAll_append, h1]
      simp only [writeAll]
      cases hwc : WriteCopy u1 v p with
      | mk r u2 =>
        rw [hwc] at hw1
        simp only at hw1
        subst hw1
        rfl
    · exact WriteCopy_commitsLeft_none u1 v p hio

/-- C19: for a well-formed source store (root holding only buckets, names
unique within each container, non-empty names, keys and values within the
engine's limits), an initially empty destination, the safety flag set and an
engine that commits every transaction, `Shrink` returns nil: no resolution
fails or panics and no write fails. -/
theorem C19_Shrink_succeeds_on_well_formed_store (u : Upgrader)
    (hwf : u.Old.root.WellFormed) (hempty : u.New.root = .nil)
    (hio : u.New.commitsLeft = none) :
    (Shrink true u).1 = .ok () := by
  rw [Shrink_writes u hwf.1.1 hwf.1.2]
  exact writeAll_succeeds u.Old.root hwf.1.2 hwf.2 _ [] rfl { u with Old := u.Old.View.2 } _
    hempty rfl hio

/-- Witness for C19: the test store compacted into an empty destination. -/
theorem C19_Shrink_succeeds_on_well_formed_store_witness :
    (Shrink true { Old := openDB testStore, New := openDB .nil }).1 = .ok () :=
  C19_Shrink_succeeds_on_well_formed_store { Old := openDB testStore, New := openDB .nil }
    (by decide) rfl rfl

/-! ## Counting the entries of the destination -/

namespace Bucket

theorem valueCount_cons (k : Bytes) (it : Item) (rest : Bucket) :
    (cons k it rest).valueCount = it.valueCount + rest.valueCount := by
  cases it with
  | value v => simp [cons, valueCount, Item.valueCount]; omega
  | bucket c => simp [cons, valueCount, Item.valueCount]

theorem valueCount_store (b : Bucket) (k : Bytes) (it : Item) (h : b.seek k = none) :
    (b.store k it).valueCount = b.valueCount + it.valueCount := by
  induction b with
  | nil => simp [store, valueCount_cons, valueCount]
  | val k0 v0 rest ih =>
    simp only [seek] at h
    split at h
    · simp at h
    · rename_i hk
      simp only [store, hk, if_false]
      split
      · simp [valueCount_cons, valueCount]; omega
      · simp [valueCount, ih h]; omega
  | sub n0 c0 rest _ ih =>
    simp only [seek] at h
    split at h
    · simp at h
    · rename_i hk
      simp only [store, hk, if_false]
      split
      · simp [valueCount_cons, valueCount]; omega
      · simp [valueCount, ih h]; omega

theorem valueCount_setChild (b : Bucket) (n : Bytes) (c c1 : Bucket)
    (h : b.seek n = some (.bucket c)) :
    (b.setChild n c1).valueCount + c.valueCount = b.valueCount + c1.valueCount := by
  induction b with
  | nil => simp [seek] at h
  | val k0 v0 rest ih =>
    simp only [seek] at h
    split at h
    · simp at h
    · rename_i hk
      simp only [setChild, hk, if_false, valueCount]
      have := ih h
      omega
  | sub n0 c0 rest _ ih =>
    simp only [seek] at h
    split at h
    · rename_i hk
      simp at h
      subst h
      simp only [setChild, hk, if_true, valueCount]
      omega
    · rename_i hk
      simp only [setChild, hk, if_false, valueCount]
      have := ih h
      omega

theorem valueCount_modifyAt (p : List Bytes) (f : Bucket → Bucket) (d b : Bucket)
    (h : d.descend p = some b) :
    (modifyAt p f d).valueCount + b.valueCount = d.valueCount + (f b).valueCount := by
  induction p generalizing d with
  | nil =>
    simp only [descend, Option.some.injEq] at h
    subst h
    simp only [modifyAt]
    omega
  | cons n ns ih =>
    simp only [descend_cons] at h
    cases hc : d.child n with
    | none => simp [hc] at h
    | some c =>
      rw [hc] at h
      simp only [modifyAt, hc]
      have h1 := valueCount_setChild d n c (modifyAt ns f c) (seek_eq_of_child hc)
      have h2 := ih c h
      omega

theorem valueCount_ensure (p : List Bytes) (d d1 : Bucket) (h : d.ensure p = .ok d1) :
    d1.valueCount = d.valueCount := by
  induction p generalizing d d1 with
  | nil => simp [ensure] at h; rw [h]
  | cons n ns ih =>
    simp only [ensure] at h
    split at h
    · simp at h
    · cases hs : d.seek n with
      | none =>
        rw [hs] at h
        cases he : Bucket.nil.ensure ns with
        | err e => simp [he] at h
        | crash f => simp [he] at h
        | ok c1 =>
          simp [he] at h
          subst h
          have := ih .nil c1 he
          simp [valueCount_store d n _ hs, Item.valueCount, this, valueCount]
      | some it =>
        rw [hs] at h
        cases it with
        | value v => simp at h
        | bucket c =>
          cases he : c.ensure ns with
          | err e => simp [he] at h
          | crash f => simp [he] at h
          | ok c1 =>
            simp [he] at h
            subst h
            have h1 := valueCount_setChild d n c c1 hs
            have h2 := ih c c1 he
            omega

/-- The walk of a container with unique names writes every path once. -/
theorem writes_nodup (b : Bucket) (base : List Bytes) (hu : b.Unique) :
    ((b.writes base).map Prod.fst).Nodup := by
  induction b generalizing base with
  | nil => simp [writes]
  | val k v rest ih =>
    simp only [writes]
    split
    · exact ih base hu.2
    · simp only [List.map_cons, List.nodup_cons]
      refine ⟨?_, ih base hu.2⟩
      intro hm
      obtain ⟨w, hw, e⟩ := List.mem_map.mp hm
      obtain ⟨p1, w1⟩ := w
      simp only at e
      subst e
      obtain ⟨k1, hk1, t, ht⟩ := mem_writes_head rest base _ w1 hw
      have : [k] = k1 :: t := List.append_cancel_left ht
      simp only [List.cons.injEq] at this
      exact hu.1 (this.1 ▸ hk1)
  | sub n c rest ihc ih =>
    simp only [writes, List.map_append]
    rw [List.nodup_append]
    refine ⟨ihc (base ++ [n]) hu.2.1, ih base hu.2.2, ?_⟩
    intro p hp1 hp2
    obtain ⟨w1, hw1, e1⟩ := List.mem_map.mp hp1
    obtain ⟨w2, hw2, e2⟩ := List.mem_map.mp hp2
    obtain ⟨q1, v1⟩ := w1
    obtain ⟨q2, v2⟩ := w2
    simp only at e1 e2
    subst e1
    subst e2
    obtain ⟨k1, _, t1, ht1⟩ := mem_writes_head c (base ++ [n]) _ v1 hw1
    obtain ⟨k2, hk2, t2, ht2⟩ := mem_writes_head rest base _ v2 hw2
    rw [ht1] at ht2
    have : n :: k1 :: t1 = k2 :: t2 := by
      apply @List.append_cancel_left _ base
      simpa using ht2
    simp only [List.cons.injEq] at this
    exact hu.1 (this.1 ▸ hk2)

end Bucket

/-- A successful `WriteCopy` to a path that holds no value yet adds exactly
one plain entry to the destination. -/
theorem WriteCopy_valueCount (u : Upgrader) (v : Bytes) (k : List Bytes) (hv : v ≠ [])
    (h : (WriteCopy u v k).1 = .ok ())
    (hfresh : ∀ last, k.getLast? = some last → u.New.root.valueAt k last = none) :
    (WriteCopy u v k).2.New.root.valueCount = u.New.root.valueCount + 1 := by
  obtain ⟨r1, b, last, g1, g2, g3, _, _, _, g7, _, g9⟩ := WriteCopy_ok u v k hv h
  have hnone : b.seek last = none := by
    have hf := hfresh last g1
    rw [← Bucket.valueAt_ensure k _ r1 g2] at hf
    simp only [Bucket.valueAt, Bucket.lookup, g3] at hf
    cases hs : b.seek last with
    | none => rfl
    | some it =>
      cases it with
      | value w => simp [hs] at hf
      | bucket c => exact absurd hs (g7 c)
  have h1 := Bucket.valueCount_modifyAt k (fun c => c.store last (.value v)) r1 b g3
  simp only [Bucket.valueCount_store b last _ hnone, Item.valueCount] at h1
  rw [g9, ← Bucket.valueCount_ensure k _ r1 g2]
  omega

/-- A successful sequence of writes to distinct paths that hold no value yet
adds one plain entry for each write. -/
theorem writeAll_valueCount (ws : List (List Bytes × Bytes)) (u u2 : Upgrader)
    (hne : ∀ w ∈ ws, w.2 ≠ []) (h : writeAll ws u = (.ok (), u2))
    (hnd : (ws.map Prod.fst).Nodup)
    (hfresh : ∀ w ∈ ws, ∀ last, w.1.getLast? = some last →
      u.New.root.valueAt w.1 last = none) :
    u2.New.root.valueCount = u.New.root.valueCount + ws.length := by
  induction ws generalizing u with
  | nil =>
    simp [writeAll] at h
    subst h
    simp
  | cons pv rest ih =>
    obtain ⟨p, v⟩ := pv
    obtain ⟨h1, h2⟩ := writeAll_cons_ok p v rest u u2 h
    have hv : v ≠ [] := hne (p, v) (List.mem_cons_self _ _)
    simp only [List.map_cons, List.nodup_cons] at hnd
    have hstep := WriteCopy_valueCount u v p hv h1
      (fun last hl => hfresh (p, v) (List.mem_cons_self _ _) last hl)
    have := ih _ (fun w hw => hne w (List.mem_cons_of_mem _ hw)) h2 hnd.2 (by
      intro w hw last hl
      rw [WriteCopy_valueAt u v p hv h1 w.1 last]
      have hpne : ¬ w.1 = p := by
        intro e
        apply hnd.1
        rw [← e]
        exact List.mem_map.mpr ⟨w, hw, rfl⟩
      simp only [hpne, false_and, if_false]
      exact hfresh w (List.mem_cons_of_mem _ hw) last hl)
    simp only [List.length_cons]
    omega

/-! ## Failures during the walk -/

theorem Bucket.ForEach_append {σ : Type} (pre post : Bucket)
    (fn : Bytes → Option Bytes → σ → Res Unit × σ) (s : σ) :
    (pre.append post).ForEach fn s =
      match pre.ForEach fn s with
      | (.ok _, s1) => post.ForEach fn s1
      | r => r := by
  induction pre generalizing s with
  | nil => rfl
  | val k v rest ih =>
    simp only [Bucket.append, Bucket.ForEach]
    cases hr : fn k (some v) s with
    | mk r s1 =>
      cases r with
      | ok a => exact ih s1
      | err e => rfl
      | crash f => rfl
  | sub n c rest _ ih =>
    simp only [Bucket.append, Bucket.ForEach]
    cases hr : fn n none s with
    | mk r s1 =>
      cases r with
      | ok a => exact ih s1
      | err e => rfl
      | crash f => rfl

theorem writeAll_stops (ws1 ws2 : List (List Bytes × Bytes)) (p : List Bytes) (v : Bytes)
    (u0 u1 : Upgrader) (hdone : writeAll ws1 u0 = (.ok (), u1))
    (hfail : (WriteCopy u1 v p).1 ≠ .ok ()) :
    writeAll (ws1 ++ (p, v) :: ws2) u0 = WriteCopy u1 v p := by
  rw [writeAll_append, hdone]
  simp only [writeAll]
  cases hw : WriteCopy u1 v p with
  | mk r u2 =>
    rw [hw] at hfail
    cases r with
    | ok a => exact absurd rfl hfail
    | err e => rfl
    | crash f => rfl

/-- C13: when, in the walk of a source store, the writes `ws1` have succeeded
and the next write fails, `Shrink` returns exactly what that write returned
and the state is the one that write left: none of the later writes `ws2` (in
the same container, in an enclosing container or under a later root container)
is performed. More generally the iteration over a container stops at the first
item whose callback fails, whatever follows it, and a resolution that fails
makes the walker return that error at once, with nothing written. -/
theorem C13_walk_stops_at_first_failure (u : Upgrader) (hstore : u.Old.root.IsStore)
    (ws1 ws2 : List (List Bytes × Bytes)) (p : List Bytes) (v : Bytes)
    (hsplit : u.Old.root.writes [] = ws1 ++ (p, v) :: ws2) (u1 : Upgrader)
    (hdone : writeAll ws1 { u with Old := u.Old.View.2 } = (.ok (), u1))
    (hfail : (WriteCopy u1 v p).1 ≠ .ok ()) :
    Shrink true u = WriteCopy u1 v p ∧
    (Shrink true u).1 ≠ .ok () ∧
    (Shrink true u).2.New.root = u1.New.root ∧
    (∀ (σ : Type) (fn : Bytes → Option Bytes → σ → Res Unit × σ) (pre post : Bucket)
      (s s1 : σ) (r : Res Unit), pre.ForEach fn s = (r, s1) → r ≠ .ok () →
      (pre.append post).ForEach fn s = (r, s1)) ∧
    (∀ (fuel : Nat) (u2 : Upgrader) (base : List Bytes) (tx : Tx) (e : Error),
      GetNestedBucket tx base false = .err e →
      ReadyWalker (fuel + 1) u2 base tx = (.err e, u2)) ∧
    (∀ (fuel : Nat) (u2 : Upgrader) (base : List Bytes) (tx tx1 : Tx),
      GetNestedBucket tx base false = .ok (none, tx1) →
      ReadyWalker (fuel + 1) u2 base tx = (.err (.bucketNotFound (fmtstr base)), u2)) := by
  have hrun : Shrink true u = WriteCopy u1 v p := by
    rw [Shrink_writes u hstore.1 hstore.2, hsplit]
    exact writeAll_stops ws1 ws2 p v _ u1 hdone hfail
  refine ⟨hrun, by rw [hrun]; exact hfail, ?_, ?_, ?_, ?_⟩
  · rw [hrun]
    exact WriteCopy_root_of_not_ok u1 v p hfail
  · intro σ fn pre post s s1 r hpre hr
    rw [Bucket.ForEach_append, hpre]
    cases r with
    | ok a => exact absurd rfl hr
    | err e => rfl
    | crash f => rfl
  · intro fuel u2 base tx e he
    rw [ReadyWalker]
    simp only [he]
  · intro fuel u2 base tx tx1 he
    rw [ReadyWalker]
    simp only [he]

/-- Witness for C13: the engine commits two writes of the test store and fails
to commit the third. -/
theorem C13_walk_stops_at_first_failure_witness :
    Shrink true { Old := openDB testStore, New := failingDB 2 } =
      WriteCopy
        (writeAll firstTwoWrites
          { Old := (openDB testStore).View.2, New := failingDB 2 }).2
        [0] [str "names", str "first", str "american", str "john"] ∧
    (Shrink true { Old := openDB testStore, New := failingDB 2 }).1 ≠ .ok () ∧
    (Shrink true { Old := openDB testStore, New := failingDB 2 }).2.New.root =
      (writeAll firstTwoWrites
          { Old := (openDB testStore).View.2, New := failingDB 2 }).2.New.root ∧
    (∀ (σ : Type) (fn : Bytes → Option Bytes → σ → Res Unit × σ) (pre post : Bucket)
      (s s1 : σ) (r : Res Unit), pre.ForEach fn s = (r, s1) → r ≠ .ok () →
      (pre.append post).ForEach fn s = (r, s1)) ∧
    (∀ (fuel : Nat) (u2 : Upgrader) (base : List Bytes) (tx : Tx) (e : Error),
      GetNestedBucket tx base false = .err e →
      ReadyWalker (fuel + 1) u2 base tx = (.err e, u2)) ∧
    (∀ (fuel : Nat) (u2 : Upgrader) (base : List Bytes) (tx tx1 : Tx),
      GetNestedBucket tx base false = .ok (none, tx1) →
      ReadyWalker (fuel + 1) u2 base tx = (.err (.bucketNotFound (fmtstr base)), u2)) :=
  C13_walk_stops_at_first_failure { Old := openDB testStore, New := failingDB 2 }
    (by decide) firstTwoWrites
    [] [str "names", str "first", str "american", str "john"] [0] (by decide)
    (writeAll firstTwoWrites { Old := (openDB testStore).View.2, New := failingDB 2 }).2
    (by decide) (by decide)

/-- C14: when, in the compaction of a source store into an initially empty
destination, the writes `ws1` have succeeded and the next write fails, the
destination afterwards is the one the successful writes left: it holds every
value they wrote, every plain entry it holds is one of them, it has as many
plain entries as there were successful writes, and all its containers lie
along their paths, so that nothing of the failed write is there. -/
theorem C14_failed_write_leaves_the_successful_writes (u : Upgrader)
    (hstore : u.Old.root.IsStore) (hempty : u.New.root = .nil)
    (ws1 ws2 : List (List Bytes × Bytes)) (p : List Bytes) (v : Bytes)
    (hsplit : u.Old.root.writes [] = ws1 ++ (p, v) :: ws2) (u1 : Upgrader)
    (hdone : writeAll ws1 { u with Old := u.Old.View.2 } = (.ok (), u1))
    (hfail : (WriteCopy u1 v p).1 ≠ .ok ()) :
    (Shrink true u).1 = (WriteCopy u1 v p).1 ∧
    (Shrink true u).2.New.root = u1.New.root ∧
    (∀ q w, (q, w) ∈ ws1 →
      ∃ last, q.getLast? = some last ∧
        (Shrink true u).2.New.root.valueAt q last = some w) ∧
    (∀ q key w, (Shrink true u).2.New.root.valueAt q key = some w →
      (q, w) ∈ ws1 ∧ q.getLast? = some key) ∧
    (Shrink true u).2.New.root.valueCount = ws1.length ∧
    (∀ q, q ≠ [] → ((Shrink true u).2.New.root.descend q).isSome = true →
      ∃ w ∈ ws1, q <+: w.1) := by
  have hrun : Shrink true u = WriteCopy u1 v p := by
    rw [Shrink_writes u hstore.1 hstore.2, hsplit]
    exact writeAll_stops ws1 ws2 p v _ u1 hdone hfail
  have hroot : (Shrink true u).2.New.root = u1.New.root := by
    rw [hrun]
    exact WriteCopy_root_of_not_ok u1 v p hfail
  have hsub : ∀ w ∈ ws1, w ∈ u.Old.root.writes [] := by
    intro w hw; rw [hsplit]; exact List.mem_append_left _ hw
  have hne1 : ∀ w ∈ ws1, w.2 ≠ [] :=
    fun w hw => Bucket.writes_ne u.Old.root hstore.2 w (hsub w hw)
  have hnd : (ws1.map Prod.fst).Nodup := by
    have := Bucket.writes_nodup u.Old.root [] hstore.2
    rw [hsplit, List.map_append] at this
    exact (List.nodup_append.mp this).1
  refine ⟨by rw [hrun], hroot, ?_, ?_, ?_, ?_⟩
  · intro q w hq
    rw [hroot]
    exact writeAll_written ws1 _ u1 hne1 hdone
      (fun p1 w1 w2 a b =>
        Bucket.writes_functional u.Old.root hstore.2 p1 w1 w2 (hsub _ a) (hsub _ b)) q w hq
  · intro q key w hq
    rw [hroot] at hq
    rcases writeAll_valueAt ws1 _ u1 hne1 hdone q key w hq with g | g
    · simp [hempty, Bucket.valueAt_nil] at g
    · exact g
  · rw [hroot, writeAll_valueCount ws1 _ u1 hne1 hdone hnd
      (by intro w _ last _; simp [hempty, Bucket.valueAt_nil])]
    simp [hempty, Bucket.valueCount]
  · intro q hq hd
    rw [hroot] at hd
    rcases writeAll_descend ws1 _ u1 hne1 hdone q hd with g | g
    · simp [hempty, Bucket.descend_nil_isSome, hq] at g
    · exact g

/-- Witness for C14: the engine commits two writes of the test store and fails
to commit the third. -/
theorem C14_failed_write_leaves_the_successful_writes_witness :
    (Shrink true { Old := openDB testStore, New := failingDB 2 }).1 = .err .commitFailed ∧
    (Shrink true { Old := openDB testStore, New := failingDB 2 }).2.New.root =
      .sub (str "names")
        (.sub (str "first")
          (.sub (str "american")
            (.sub (str "bob") (.val (str "bob") [2] .nil)
              (.sub (str "joe") (.val (str "joe") [1] .nil) .nil))
            .nil)
          .nil)
        .nil ∧
    (Shrink true { Old := openDB testStore, New := failingDB 2 }).2.New.root.valueCount = 2 :=
  have h := C14_failed_write_leaves_the_successful_writes
    { Old := openDB testStore, New := failingDB 2 } (by decide) rfl firstTwoWrites
    [] [str "names", str "first", str "american", str "john"] [0] (by decide)
    (writeAll firstTwoWrites { Old := (openDB testStore).View.2, New := failingDB 2 }).2
    (by decide) (by decide)
  ⟨h.1.trans (by decide), h.2.1.trans (by decide), h.2.2.2.2.1⟩

/-! ## The source is only read; `WriteCopy` never indexes outside its path -/

/-- C18: whatever `Shrink` returns, the source handle keeps its contents and
its commit budget; with the flag set exactly one transaction (the read
transaction of `View`) has been begun on it, without the flag none. All
mutations go to the destination handle. -/
theorem C18_source_is_only_read (DangerZone : Bool) (u : Upgrader) :
    (Shrink DangerZone u).2.Old.root = u.Old.root ∧
    (Shrink DangerZone u).2.Old.commitsLeft = u.Old.commitsLeft ∧
    (Shrink DangerZone u).2.Old.txs = u.Old.txs + (if DangerZone then 1 else 0) := by
  cases DangerZone with
  | false => simp [Shrink]
  | true =>
    have h : (Shrink true u).2.Old = u.Old.View.2 := by
      unfold Shrink
      simp only [Bool.not_true, Bool.false_eq_true, if_false, Tx.ForEach]
      refine Bucket.ForEach_invariant (fun u1 : Upgrader => u1.Old = u.Old.View.2) _ _ ?_ _ rfl
      intro k v s hs
      split
      · exact ReadyWalker_invariant (fun u1 : Upgrader => u1.Old = u.Old.View.2)
          (fun u1 v1 k1 h1 => (WriteCopy_Old u1 v1 k1).trans h1) _ s _ _ hs
      · exact hs
      · exact hs
    rw [h]
    simp [DB.View]

theorem WriteCopy.fn_no_crash (v : Bytes) (k : List Bytes) (r : Bucket) (f : Fault) :
    WriteCopy.fn v k ⟨r, true⟩ ≠ .crash f := by
  cases k with
  | nil => simp [WriteCopy.fn, GetNestedBucket]
  | cons k0 ks =>
    simp only [WriteCopy.fn, GetNestedBucket_create]
    cases he : r.ensure (k0 :: ks) with
    | err e => simp
    | crash f1 =>
      exfalso
      have : ∀ (path : List Bytes) (b : Bucket) (f : Fault), b.ensure path ≠ .crash f := by
        intro path
        induction path with
        | nil => intro b f; simp [Bucket.ensure]
        | cons n ns ih =>
          intro b f
          simp only [Bucket.ensure]
          split
          · simp
          · split
            · simp
            · rename_i c _
              cases hc : c.ensure ns with
              | ok c1 => simp
              | err e => simp
              | crash f1 => exact absurd hc (ih c f1)
            · cases hc : Bucket.nil.ensure ns with
              | ok c1 => simp
              | err e => simp
              | crash f1 => exact absurd hc (ih .nil f1)
      exact this _ _ _ he
    | ok r1 =>
      obtain ⟨b, hb⟩ := Bucket.ensure_descend (k0 :: ks) r r1 he
      cases hl : (k0 :: ks).getLast? with
      | none => simp at hl
      | some last =>
        simp only [Tx.put_eq r1 b (k0 :: ks) last v hb]
        split
        · simp
        · split
          · simp
          · split
            · simp
            · split <;> simp

/-- C20: `WriteCopy` never panics, in particular never with an index out of
range, whatever the value and the path, the empty path included: an empty
value makes it return nil at once, with no transaction begun; a non-empty
value with the empty path makes it return the error of `GetNestedBucket`
("need >1 keys") from inside the transaction, which is rolled back, so that
the destination contents are unchanged. -/
theorem C20_WriteCopy_never_indexes_outside_its_path (u : Upgrader) (v : Bytes)
    (k : List Bytes) :
    (∀ f, (WriteCopy u v k).1 ≠ .crash f) ∧
    WriteCopy u [] k = (.ok (), u) ∧
    (v ≠ [] →
      WriteCopy u v [] = (.err .needKeys, { u with New := { u.New with txs := u.New.txs + 1 } }) ∧
      (WriteCopy u v []).2.New.root = u.New.root) := by
  refine ⟨?_, by simp [WriteCopy], ?_⟩
  · intro f
    unfold WriteCopy
    split
    · simp
    · simp only [DB.Update]
      have := WriteCopy.fn_no_crash v k u.New.root
      cases hf : WriteCopy.fn v k ⟨u.New.root, true⟩ with
      | err e => simp
      | crash f1 => exact absurd hf (this f1)
      | ok tx =>
        simp only
        cases hc : u.New.commitsLeft with
        | none => simp
        | some n => cases n <;> simp
  · intro hv
    have hv1 : ¬ v.length = 0 := by intro e; exact hv (List.length_eq_zero.mp e)
    simp [WriteCopy, hv1, DB.Update, WriteCopy.fn, GetNestedBucket]

/-! ## Key order -/

theorem bytesLess_irrefl (a : Bytes) : bytesLess a a = false := by
  induction a with
  | nil => rfl
  | cons x xs ih => simp [bytesLess, ih]

theorem bytesLess_trans (a b c : Bytes) (h1 : bytesLess a b = true) (h2 : bytesLess b c = true) :
    bytesLess a c = true := by
  induction a generalizing b c with
  | nil =>
    cases b with
    | nil => simp [bytesLess] at h1
    | cons y ys =>
      cases c with
      | nil => simp [bytesLess] at h2
      | cons z zs => simp [bytesLess]
  | cons x xs ih =>
    cases b with
    | nil => simp [bytesLess] at h1
    | cons y ys =>
      cases c with
      | nil => simp [bytesLess] at h2
      | cons z zs =>
        simp only [bytesLess] at h1 h2 ⊢
        by_cases hxy : x.toNat < y.toNat
        · by_cases hyz : y.toNat < z.toNat
          · have : x.toNat < z.toNat := by omega
            simp [this]
          · simp only [hyz, if_false] at h2
            by_cases hzy : z.toNat < y.toNat
            · simp [hzy] at h2
            · have : x.toNat < z.toNat := by omega
              simp [this]
        · simp only [hxy, if_false] at h1
          by_cases hyx : y.toNat < x.toNat
          · simp [hyx] at h1
          · simp only [hyx, if_false] at h1
            by_cases hyz : y.toNat < z.toNat
            · have : x.toNat < z.toNat := by omega
              simp [this]
            · simp only [hyz, if_false] at h2
              by_cases hzy : z.toNat < y.toNat
              · simp [hzy] at h2
              · simp only [hzy, if_false] at h2
                have h3 : ¬ x.toNat < z.toNat := by omega
                have h4 : ¬ z.toNat < x.toNat := by omega
                simp only [h3, h4, if_false]
                exact ih ys zs h1 h2

theorem bytesLess_total (a b : Bytes) (h1 : bytesLess a b = false) (h2 : bytesLess b a = false) :
    a = b := by
  induction a generalizing b with
  | nil =>
    cases b with
    | nil => rfl
    | cons y ys => simp [bytesLess] at h1
  | cons x xs ih =>
    cases b with
    | nil => simp [bytesLess] at h2
    | cons y ys =>
      simp only [bytesLess] at h1 h2
      by_cases hxy : x.toNat < y.toNat
      · simp [hxy] at h1
      · by_cases hyx : y.toNat < x.toNat
        · simp [hyx] at h2
        · simp only [hxy, hyx, if_false] at h1 h2
          have hx : x = y := by
            have : x.toNat = y.toNat := by omega
            cases x; cases y
            simp only [UInt8.toNat] at this
            congr
            exact BitVec.eq_of_toNat_eq this
          rw [hx, ih ys h1 h2]

theorem bytesLess_asymm (a b : Bytes) (h1 : bytesLess a b = true) : bytesLess b a = false := by
  cases h : bytesLess b a with
  | false => rfl
  | true =>
    have := bytesLess_trans a b a h1 h
    rw [bytesLess_irrefl] at this
    exact absurd this (by simp)

namespace Bucket

theorem keys_cons (k : Bytes) (it : Item) (rest : Bucket) :
    (cons k it rest).keys = k :: rest.keys := by
  cases it <;> rfl

theorem Sorted_cons (k : Bytes) (it : Item) (rest : Bucket) :
    (cons k it rest).Sorted ↔
      (∀ k1 ∈ rest.keys, bytesLess k k1 = true) ∧ it.Sorted ∧ rest.Sorted := by
  cases it with
  | value v => simp [cons, Sorted, Item.Sorted]
  | bucket c => simp [cons, Sorted, Item.Sorted]

theorem mem_keys_store (b : Bucket) (k : Bytes) (it : Item) (x : Bytes)
    (h : x ∈ (b.store k it).keys) : x = k ∨ x ∈ b.keys := by
  induction b with
  | nil => simp [store, keys_cons, keys] at h; exact Or.inl h
  | val k0 v0 rest ih =>
    simp only [store] at h
    split at h
    · simp only [keys_cons, List.mem_cons] at h
      rcases h with h | h
      · exact Or.inl h
      · exact Or.inr (List.mem_cons_of_mem _ h)
    · split at h
      · simpa [keys_cons] using h
      · simp only [keys, List.mem_cons] at h ⊢
        rcases h with h | h
        · exact Or.inr (Or.inl h)
        · rcases ih h with g | g
          · exact Or.inl g
          · exact Or.inr (Or.inr g)
  | sub n0 c0 rest _ ih =>
    simp only [store] at h
    split at h
    · simp only [keys_cons, List.mem_cons] at h
      rcases h with h | h
      · exact Or.inl h
      · exact Or.inr (List.mem_cons_of_mem _ h)
    · split at h
      · simpa [keys_cons] using h
      · simp only [keys, List.mem_cons] at h ⊢
        rcases h with h | h
        · exact Or.inr (Or.inl h)
        · rcases ih h with g | g
          · exact Or.inl g
          · exact Or.inr (Or.inr g)

/-- An insertion keeps the keys in order. -/
theorem Sorted.of_store {b : Bucket} (h : b.Sorted) (k : Bytes) (it : Item) (hit : it.Sorted) :
    (b.store k it).Sorted := by
  induction b with
  | nil =>
    simp only [Bucket.store]
    exact (Sorted_cons k it .nil).mpr ⟨by simp [keys], hit, trivial⟩
  | val k0 v0 rest ih =>
    simp only [Bucket.store]
    split
    · rename_i e
      subst e
      exact (Sorted_cons k0 it rest).mpr ⟨h.1, hit, h.2⟩
    · rename_i hne
      split
      · rename_i hlt
        refine (Sorted_cons k it _).mpr ⟨?_, hit, h⟩
        intro k1 hk1
        simp only [keys, List.mem_cons] at hk1
        rcases hk1 with e | hk1
        · rw [e]; exact hlt
        · exact bytesLess_trans k k0 k1 hlt (h.1 k1 hk1)
      · rename_i hnlt
        refine ⟨?_, ih h.2⟩
        intro k1 hk1
        rcases mem_keys_store rest k it k1 hk1 with e | g
        · rw [e]
          cases hlt : bytesLess k0 k with
          | true => rfl
          | false =>
            have := bytesLess_total k k0 (by simpa using hnlt) hlt
            exact absurd this.symm hne
        · exact h.1 k1 g
  | sub n0 c0 rest _ ih =>
    simp only [Bucket.store]
    split
    · rename_i e
      subst e
      exact (Sorted_cons n0 it rest).mpr ⟨h.1, hit, h.2.2⟩
    · rename_i hne
      split
      · rename_i hlt
        refine (Sorted_cons k it _).mpr ⟨?_, hit, h⟩
        intro k1 hk1
        simp only [keys, List.mem_cons] at hk1
        rcases hk1 with e | hk1
        · rw [e]; exact hlt
        · exact bytesLess_trans k n0 k1 hlt (h.1 k1 hk1)
      · rename_i hnlt
        refine ⟨?_, h.2.1, ih h.2.2⟩
        intro k1 hk1
        rcases mem_keys_store rest k it k1 hk1 with e | g
        · rw [e]
          cases hlt : bytesLess n0 k with
          | true => rfl
          | false =>
            have := bytesLess_total k n0 (by simpa using hnlt) hlt
            exact absurd this.symm hne
        · exact h.1 k1 g

theorem keys_setChild (b : Bucket) (n : Bytes) (c : Bucket) : (b.setChild n c).keys = b.keys := by
  induction b with
  | nil => rfl
  | val k0 v0 rest ih =>
    simp only [setChild]
    split
    · rfl
    · simp [keys, ih]
  | sub n0 c0 rest _ ih =>
    simp only [setChild]
    split
    · rfl
    · simp [keys, ih]

theorem Sorted.of_setChild {b : Bucket} (h : b.Sorted) (n : Bytes) {c : Bucket} (hc : c.Sorted) :
    (b.setChild n c).Sorted := by
  induction b with
  | nil => trivial
  | val k0 v0 rest ih =>
    simp only [Bucket.setChild]
    split
    · exact h
    · exact ⟨by rw [keys_setChild]; exact h.1, ih h.2⟩
  | sub n0 c0 rest _ ih =>
    simp only [Bucket.setChild]
    split
    · exact ⟨h.1, hc, h.2.2⟩
    · exact ⟨by rw [keys_setChild]; exact h.1, h.2.1, ih h.2.2⟩

theorem Sorted.of_seek_bucket {b : Bucket} (h : b.Sorted) {n : Bytes} {c : Bucket}
    (hs : b.seek n = some (.bucket c)) : c.Sorted := by
  induction b with
  | nil => simp [Bucket.seek] at hs
  | val k0 v0 rest ih =>
    simp only [Bucket.seek] at hs
    split at hs
    · simp at hs
    · exact ih h.2 hs
  | sub n0 c0 rest _ ih =>
    simp only [Bucket.seek] at hs
    split at hs
    · simp at hs; subst hs; exact h.2.1
    · exact ih h.2.2 hs

theorem Sorted.of_descend {b c : Bucket} {p : List Bytes} (h : b.Sorted)
    (hc : b.descend p = some c) : c.Sorted := by
  induction p generalizing b with
  | nil => simp [Bucket.descend] at hc; subst hc; exact h
  | cons n ns ih =>
    simp only [descend_cons] at hc
    cases hn : b.child n with
    | none => simp [hn] at hc
    | some c1 => rw [hn] at hc; exact ih (h.of_seek_bucket (seek_eq_of_child hn)) hc

theorem Sorted.of_modifyAt {b : Bucket} (p : List Bytes) {f : Bucket → Bucket}
    (h : b.Sorted) (hf : ∀ c, c.Sorted → (f c).Sorted) : (Bucket.modifyAt p f b).Sorted := by
  induction p generalizing b with
  | nil => exact hf b h
  | cons n ns ih =>
    simp only [Bucket.modifyAt]
    cases hn : b.child n with
    | none => exact h
    | some c => exact h.of_setChild n (ih (h.of_seek_bucket (seek_eq_of_child hn)))

theorem Sorted.of_ensure {d d1 : Bucket} (p : List Bytes) (h : d.Sorted)
    (he : d.ensure p = .ok d1) : d1.Sorted := by
  induction p generalizing d d1 with
  | nil => simp [Bucket.ensure] at he; rw [← he]; exact h
  | cons n ns ih =>
    simp only [Bucket.ensure] at he
    split at he
    · simp at he
    · cases hs : d.seek n with
      | none =>
        rw [hs] at he
        cases h1 : Bucket.nil.ensure ns with
        | err e => simp [h1] at he
        | crash f => simp [h1] at he
        | ok c1 =>
          simp [h1] at he
          subst he
          exact h.of_store n _ (ih (d := .nil) trivial h1)
      | some it =>
        rw [hs] at he
        cases it with
        | value v => simp at he
        | bucket c =>
          cases h1 : c.ensure ns with
          | err e => simp [h1] at he
          | crash f => simp [h1] at he
          | ok c1 =>
            simp [h1] at he
            subst he
            exact h.of_setChild n (ih (h.of_seek_bucket hs) h1)

theorem mem_keys_of_seek {b : Bucket} {k : Bytes} {it : Item} (h : b.seek k = some it) :
    k ∈ b.keys := by
  induction b with
  | nil => simp [seek] at h
  | val k0 v0 rest ih =>
    simp only [seek] at h
    split at h
    · rename_i e; simp [keys, e]
    · exact List.mem_cons_of_mem _ (ih h)
  | sub n0 c0 rest _ ih =>
    simp only [seek] at h
    split at h
    · rename_i e; simp [keys, e]
    · exact List.mem_cons_of_mem _ (ih h)

end Bucket

namespace Bucket

theorem cons_induction {P : Bucket → Prop} (hnil : P .nil)
    (hcons : ∀ k it r, P r → P (cons k it r)) (b : Bucket) : P b := by
  induction b with
  | nil => exact hnil
  | val k v r ih => exact hcons k (.value v) r ih
  | sub n c r _ ih => exact hcons n (.bucket c) r ih

theorem eq_nil_or_cons (b : Bucket) : b = .nil ∨ ∃ k it r, b = cons k it r := by
  cases b with
  | nil => exact Or.inl rfl
  | val k v r => exact Or.inr ⟨k, .value v, r, rfl⟩
  | sub n c r => exact Or.inr ⟨n, .bucket c, r, rfl⟩

theorem seek_store (b : Bucket) (k : Bytes) (it : Item) (key : Bytes) :
    (b.store k it).seek key = if key = k then some it else b.seek key := by
  by_cases h : key = k
  · subst h; simp [seek_store_same]
  · simp [h, seek_store_other b k it key h]

theorem seek_none_of_lt (r : Bucket) (k : Bytes)
    (h : ∀ k1 ∈ r.keys, bytesLess k k1 = true) : r.seek k = none := by
  cases hs : r.seek k with
  | none => rfl
  | some it =>
    have := h k (mem_keys_of_seek hs)
    rw [bytesLess_irrefl] at this
    exact absurd this (by simp)

/-- Two key-ordered buckets with the same bindings are the same sequence of
items: the order of insertion leaves no trace. -/
theorem Sorted.ext (b1 b2 : Bucket) (h1 : b1.Sorted) (h2 : b2.Sorted)
    (hsame : ∀ k, b1.seek k = b2.seek k) : b1 = b2 := by
  induction b1 using cons_induction generalizing b2 with
  | hnil =>
    rcases eq_nil_or_cons b2 with e | ⟨k, it, r, e⟩
    · exact e.symm
    · subst e
      have := hsame k
      simp [seek, seek_cons] at this
  | hcons k it r ih =>
    rcases eq_nil_or_cons b2 with e | ⟨k2, it2, r2, e⟩
    · subst e
      have := hsame k
      simp [seek, seek_cons] at this
    · subst e
      rw [Sorted_cons] at h1 h2
      have hk : k = k2 := by
        by_contra hne
        have hne2 : ¬ k2 = k := fun e => hne e.symm
        have a1 := hsame k
        simp only [seek_cons, if_true, hne2, if_false] at a1
        have a2 := hsame k2
        simp only [seek_cons, if_true, hne, if_false] at a2
        have l1 := h2.1 k (mem_keys_of_seek a1.symm)
        have l2 := h1.1 k2 (mem_keys_of_seek a2)
        rw [bytesLess_asymm k2 k l1] at l2
        exact absurd l2 (by simp)
      subst hk
      have hit : it = it2 := by
        have := hsame k
        simpa [seek_cons] using this
      subst hit
      have hr : r = r2 := by
        apply ih r2 h1.2.2 h2.2.2
        intro key
        by_cases hkey : key = k
        · subst hkey
          rw [seek_none_of_lt r key h1.1, seek_none_of_lt r2 key h2.1]
        · have hkey2 : ¬ k = key := fun e => hkey e.symm
          have := hsame key
          simpa [seek_cons, hkey2] using this
      rw [hr]

/-- Insertions under different keys commute. -/
theorem Sorted.store_comm {b : Bucket} (h : b.Sorted) (k1 k2 : Bytes) (i1 i2 : Item)
    (hk : k1 ≠ k2) (h1 : i1.Sorted) (h2 : i2.Sorted) :
    (b.store k1 i1).store k2 i2 = (b.store k2 i2).store k1 i1 := by
  apply Sorted.ext _ _ ((h.of_store k1 i1 h1).of_store k2 i2 h2) ((h.of_store k2 i2 h2).of_store k1 i1 h1)
  intro key
  simp only [seek_store]
  by_cases e1 : key = k1
  · subst e1
    simp [hk]
  · simp [e1]

theorem Sorted.foldl_store {b : Bucket} (h : b.Sorted) (l : List (Bytes × Item))
    (hl : ∀ e ∈ l, e.2.Sorted) :
    (l.foldl (fun b e => b.store e.1 e.2) b).Sorted := by
  induction l generalizing b with
  | nil => exact h
  | cons e rest ih =>
    simp only [List.foldl_cons]
    exact ih (h.of_store e.1 e.2 (hl e (List.mem_cons_self _ _)))
      (fun x hx => hl x (List.mem_cons_of_mem _ hx))

/-- Filling a container with the same items in another order gives the same
container. -/
theorem Sorted.foldl_store_perm {l1 l2 : List (Bytes × Item)} (hp : l1.Perm l2) :
    ∀ (b : Bucket), b.Sorted → (l1.map Prod.fst).Nodup → (∀ e ∈ l1, e.2.Sorted) →
      l1.foldl (fun b e => b.store e.1 e.2) b = l2.foldl (fun b e => b.store e.1 e.2) b := by
  induction hp with
  | nil => intro b _ _ _; rfl
  | cons x _ ih =>
    intro b hb hnd hl
    simp only [List.foldl_cons]
    simp only [List.map_cons, List.nodup_cons] at hnd
    exact ih _ (hb.of_store x.1 x.2 (hl x (List.mem_cons_self _ _))) hnd.2
      (fun e he => hl e (List.mem_cons_of_mem _ he))
  | swap x y l =>
    intro b hb hnd hl
    simp only [List.foldl_cons]
    simp only [List.map_cons, List.nodup_cons, List.mem_cons, not_or] at hnd
    rw [hb.store_comm y.1 x.1 y.2 x.2 hnd.1.1 (hl y (by simp)) (hl x (by simp))]
  | trans p1 p2 ih1 ih2 =>
    intro b hb hnd hl
    rw [ih1 b hb hnd hl]
    exact ih2 b hb ((p1.map Prod.fst).nodup_iff.mp hnd)
      (fun e he => hl e (p1.mem_iff.mpr he))

theorem Sorted.pairwise_keys {b : Bucket} (h : b.Sorted) :
    b.keys.Pairwise (fun x y => bytesLess x y = true) := by
  induction b with
  | nil => simp [keys]
  | val k v rest ih => exact List.pairwise_cons.mpr ⟨h.1, ih h.2⟩
  | sub n c rest _ ih => exact List.pairwise_cons.mpr ⟨h.1, ih h.2.2⟩

/-- The iteration hands the keys to its callback in the order of `keys`. -/
theorem ForEach_keys (b : Bucket) (acc : List Bytes) :
    b.ForEach (fun k _ (s : List Bytes) => (Res.ok (), s ++ [k])) acc =
      (.ok (), acc ++ b.keys) := by
  induction b generalizing acc with
  | nil => simp [ForEach, keys]
  | val k v rest ih => simp [ForEach, keys, ih]
  | sub n c rest _ ih => simp [ForEach, keys, ih]

end Bucket

theorem WriteCopy_sorted (u : Upgrader) (v : Bytes) (k : List Bytes)
    (h : u.New.root.Sorted) : (WriteCopy u v k).2.New.root.Sorted := by
  by_cases hv : v = []
  · subst hv
    simpa [WriteCopy] using h
  · by_cases hok : (WriteCopy u v k).1 = .ok ()
    · obtain ⟨r1, b, last, _, g2, _, _, _, _, _, _, g9⟩ := WriteCopy_ok u v k hv hok
      rw [g9]
      exact (h.of_ensure k g2).of_modifyAt k (fun c hc => hc.of_store last _ trivial)
    · rw [WriteCopy_root_of_not_ok u v k hok]
      exact h

/-! ## Paths as Go slices -/

theorem List.take_set_of_le_index {α : Type} (l : List α) (n m : Nat) (x : α) (h : m ≤ n) :
    (l.set n x).take m = l.take m := by
  induction l generalizing n m with
  | nil => simp
  | cons y ys ih =>
    cases n with
    | zero =>
      have : m = 0 := by omega
      subst this
      simp
    | succ n1 =>
      cases m with
      | zero => simp
      | succ m1 => simp [List.set, ih n1 m1 (by omega)]

theorem List.take_succ_set_index {α : Type} (l : List α) (n : Nat) (x : α) (h : n < l.length) :
    (l.set n x).take (n + 1) = l.take n ++ [x] := by
  induction l generalizing n with
  | nil => simp at h
  | cons y ys ih =>
    cases n with
    | zero => simp
    | succ n1 =>
      simp only [List.length_cons] at h
      simp [List.set, ih n1 (by omega)]

namespace Heap

theorem Frame.refl (h : Heap) (s : Slice) : Frame h h s :=
  ⟨Nat.le_refl _, fun _ _ => ⟨rfl, fun _ _ => rfl⟩⟩

theorem Frame.trans {h h1 h2 : Heap} {s : Slice} (f1 : Frame h h1 s) (f2 : Frame h1 h2 s) :
    Frame h h2 s := by
  refine ⟨Nat.le_trans f1.1 f2.1, ?_⟩
  intro a ha
  obtain ⟨l1, t1⟩ := f1.2 a ha
  obtain ⟨l2, t2⟩ := f2.2 a (Nat.lt_of_lt_of_le ha f1.1)
  exact ⟨l2.trans l1, fun n hn => (t2 n hn).trans (t1 n hn)⟩

/-- What a callee did behind the slice it was given is behind the caller's
slice too, when the callee's slice extends the caller's in the same array or
lives in an array allocated after the caller's heap. -/
theorem Frame.call {h h2 h1 : Heap} {c s : Slice} (f1 : Frame h h2 s) (f2 : Frame h2 h1 c)
    (hc : (c.arr = s.arr ∧ s.len ≤ c.len) ∨ h.next ≤ c.arr) : Frame h h1 s := by
  refine ⟨Nat.le_trans f1.1 f2.1, ?_⟩
  intro a ha
  obtain ⟨l1, t1⟩ := f1.2 a ha
  obtain ⟨l2, t2⟩ := f2.2 a (Nat.lt_of_lt_of_le ha f1.1)
  refine ⟨l2.trans l1, ?_⟩
  intro n hn
  refine (t2 n ?_).trans (t1 n hn)
  rcases hc with ⟨e1, e2⟩ | e
  · rcases hn with hn | hn
    · exact Or.inl (by rw [e1]; exact hn)
    · exact Or.inr (by omega)
  · exact Or.inl (by omega)

theorem Frame.valid {h h1 : Heap} {s : Slice} (f : Frame h h1 s) (hv : h.Valid s) :
    h1.Valid s :=
  ⟨Nat.lt_of_lt_of_le hv.1 f.1, by rw [(f.2 s.arr hv.1).1]; exact hv.2⟩

theorem Frame.read {h h1 : Heap} {s : Slice} (f : Frame h h1 s) (hv : h.Valid s) :
    h1.read s = h.read s :=
  (f.2 s.arr hv.1).2 s.len (Or.inr (Nat.le_refl _))

theorem alloc_frame (h : Heap) (contents : List Bytes) (spare : Nat) (s : Slice) :
    Frame h (h.alloc contents spare).1 s := by
  refine ⟨by simp [alloc], ?_⟩
  intro a ha
  have : ¬ a = h.next := by omega
  simp [alloc, this]

theorem alloc_read (h : Heap) (contents : List Bytes) (spare : Nat) :
    (h.alloc contents spare).1.read (h.alloc contents spare).2 = contents := by
  simp [alloc, read]

theorem alloc_valid (h : Heap) (contents : List Bytes) (spare : Nat) :
    (h.alloc contents spare).1.Valid (h.alloc contents spare).2 := by
  simp [alloc, Valid]

/-- `append` yields the extended path and leaves every element in front of
the new one as it was, whether it writes in place or allocates. -/
theorem append_spec (grow : Nat → Nat) (h : Heap) (s : Slice) (k : Bytes) (hv : h.Valid s) :
    (h.append grow s k).1.read (h.append grow s k).2 = h.read s ++ [k] ∧
    (h.append grow s k).1.Valid (h.append grow s k).2 ∧
    Frame h (h.append grow s k).1 s ∧
    (((h.append grow s k).2.arr = s.arr ∧ s.len ≤ (h.append grow s k).2.len) ∨
      h.next ≤ (h.append grow s k).2.arr) := by
  unfold append
  split
  · rename_i hlt
    refine ⟨?_, ?_, ?_, Or.inl ⟨rfl, by simp⟩⟩
    · simp [read, List.take_succ_set_index _ _ _ hlt]
    · exact ⟨hv.1, by simp; omega⟩
    · refine ⟨Nat.le_refl _, ?_⟩
      intro a ha
      by_cases e : a = s.arr
      · subst e
        simp only [if_true, List.length_set, true_and]
        intro n hn
        rcases hn with hn | hn
        · exact absurd rfl hn
        · exact List.take_set_of_le_index _ _ _ _ hn
      · simp [e]
  · exact ⟨alloc_read _ _ _, alloc_valid _ _ _, alloc_frame _ _ _ _,
      Or.inr (by simp [alloc])⟩

end Heap

/-- Two iterations over the same container whose callbacks return the same
result on related states return the same result and end in related states. -/
theorem Bucket.ForEach_related {σ τ : Type} (R : σ → τ → Prop) (b : Bucket)
    (f : Bytes → Option Bytes → σ → Res Unit × σ)
    (g : Bytes → Option Bytes → τ → Res Unit × τ)
    (hfg : ∀ k v s t, R s t → (f k v s).1 = (g k v t).1 ∧ R (f k v s).2 (g k v t).2)
    (s : σ) (t : τ) (hst : R s t) :
    (b.ForEach f s).1 = (b.ForEach g t).1 ∧ R (b.ForEach f s).2 (b.ForEach g t).2 := by
  induction b generalizing s t with
  | nil => exact ⟨rfl, hst⟩
  | val k v rest ih =>
    simp only [Bucket.ForEach]
    have := hfg k (some v) s t hst
    cases hf : f k (some v) s with
    | mk r s1 =>
      cases hg : g k (some v) t with
      | mk r1 t1 =>
        rw [hf, hg] at this
        obtain ⟨e, hr⟩ := this
        simp only at e hr
        subst e
        cases r with
        | ok a => exact ih s1 t1 hr
        | err e => exact ⟨rfl, hr⟩
        | crash c => exact ⟨rfl, hr⟩
  | sub n c rest _ ih =>
    simp only [Bucket.ForEach]
    have := hfg n none s t hst
    cases hf : f n none s with
    | mk r s1 =>
      cases hg : g n none t with
      | mk r1 t1 =>
        rw [hf, hg] at this
        obtain ⟨e, hr⟩ := this
        simp only at e hr
        subst e
        cases r with
        | ok a => exact ih s1 t1 hr
        | err e => exact ⟨rfl, hr⟩
        | crash c => exact ⟨rfl, hr⟩

theorem Tx.forEachIn_related {σ τ : Type} (R : σ → τ → Prop) (tx : Tx) (bu : Option Handle)
    (f : Bytes → Option Bytes → σ → Res Unit × σ)
    (g : Bytes → Option Bytes → τ → Res Unit × τ)
    (hfg : ∀ k v s t, R s t → (f k v s).1 = (g k v t).1 ∧ R (f k v s).2 (g k v t).2)
    (s : σ) (t : τ) (hst : R s t) :
    (tx.forEachIn bu f s).1 = (tx.forEachIn bu g t).1 ∧
      R (tx.forEachIn bu f s).2 (tx.forEachIn bu g t).2 := by
  unfold Tx.forEachIn
  cases bu with
  | none => exact ⟨rfl, hst⟩
  | some h =>
    simp only
    cases tx.root.descend h with
    | none => exact ⟨rfl, hst⟩
    | some b => exact Bucket.ForEach_related R b f g hfg s t hst

/-- The walker on slices computes what the walker on path values computes
from the elements of its slice, and changes the heap only behind that slice. -/
theorem ReadyWalkerSlices_spec (grow : Nat → Nat) (fuel : Nat) (h : Heap) (u : Upgrader)
    (s : Slice) (tx : Tx) (hv : h.Valid s) :
    (ReadyWalkerSlices grow fuel (h, u) s tx).1 = (ReadyWalker fuel u (h.read s) tx).1 ∧
    (ReadyWalkerSlices grow fuel (h, u) s tx).2.2 = (ReadyWalker fuel u (h.read s) tx).2 ∧
    Heap.Frame h (ReadyWalkerSlices grow fuel (h, u) s tx).2.1 s := by
  induction fuel generalizing h u s tx with
  | zero => exact ⟨rfl, rfl, Heap.Frame.refl _ _⟩
  | succ fuel ih =>
    have hfr := Heap.alloc_frame h (h.read s) 0 s
    have hrd := Heap.alloc_read h (h.read s) 0
    simp only [ReadyWalkerSlices, ReadyWalker]
    rw [hrd]
    cases hg : GetNestedBucket tx (h.read s) false with
    | err e => exact ⟨rfl, rfl, hfr⟩
    | crash f => exact ⟨rfl, rfl, hfr⟩
    | ok p =>
      obtain ⟨ob, tx1⟩ := p
      cases ob with
      | none => exact ⟨rfl, rfl, hfr⟩
      | some oldbucket =>
        simp only
        have key := Tx.forEachIn_related
          (fun (st : Heap × Upgrader) (u1 : Upgrader) => st.2 = u1 ∧ Heap.Frame h st.1 s)
          tx1 (some oldbucket)
          (fun k v st1 =>
            match v, tx1.bucket (some oldbucket) k with
            | none, .ok (some _, _) =>
              ReadyWalkerSlices grow fuel ((st1.1.append grow s k).1, st1.2)
                (st1.1.append grow s k).2 tx1
            | none, .crash f => (.crash f, ((st1.1.append grow s k).1, st1.2))
            | none, _ => (.ok (), ((st1.1.append grow s k).1, st1.2))
            | some val, _ =>
              if val.length = 0 then (.ok (), ((st1.1.append grow s k).1, st1.2))
              else
                ((WriteCopy st1.2 val ((st1.1.append grow s k).1.read (st1.1.append grow s k).2)).1,
                  ((st1.1.append grow s k).1,
                    (WriteCopy st1.2 val
                      ((st1.1.append grow s k).1.read (st1.1.append grow s k).2)).2)))
          (fun k v u1 =>
            match v, tx1.bucket (some oldbucket) k with
            | none, .ok (some _, _) => ReadyWalker fuel u1 (h.read s ++ [k]) tx1
            | none, .crash f => (.crash f, u1)
            | none, _ => (.ok (), u1)
            | some val, _ =>
              if val.length = 0 then (.ok (), u1)
              else WriteCopy u1 val (h.read s ++ [k]))
          ?_ ((h.alloc (h.read s) 0).1, u) u ⟨rfl, hfr⟩
        · exact ⟨key.1, key.2.1, key.2.2⟩
        · rintro k v ⟨hc, u1⟩ u2 ⟨e, hf⟩
          simp only at e hf
          subst e
          have hvc := hf.valid hv
          obtain ⟨a1, a2, a3, a4⟩ := Heap.append_spec grow hc s k hvc
          rw [hf.read hv] at a1
          have hf2 : Heap.Frame h (hc.append grow s k).1 s := hf.trans a3
          cases v with
          | none =>
            simp only
            cases hb : tx1.bucket (some oldbucket) k with
            | err e => exact ⟨rfl, rfl, hf2⟩
            | crash f => exact ⟨rfl, rfl, hf2⟩
            | ok p =>
              obtain ⟨ob1, tx2⟩ := p
              cases ob1 with
              | none => exact ⟨rfl, rfl, hf2⟩
              | some hdl =>
                simp only
                obtain ⟨i1, i2, i3⟩ := ih (hc.append grow s k).1 u1 (hc.append grow s k).2 tx1 a2
                rw [a1] at i1 i2
                exact ⟨i1, i2, hf.trans (a3.call i3 a4)⟩
          | some val =>
            simp only
            by_cases hz : val.length = 0
            · rw [if_pos hz, if_pos hz]
              exact ⟨rfl, rfl, hf2⟩
            · rw [if_neg hz, if_neg hz, a1]
              exact ⟨rfl, rfl, hf2⟩

/-- `Shrink` on slices computes what `Shrink` on path values computes. -/
theorem ShrinkSlices_spec (grow : Nat → Nat) (DangerZone : Bool) (h : Heap) (u : Upgrader) :
    (ShrinkSlices grow DangerZone (h, u)).1 = (Shrink DangerZone u).1 ∧
    (ShrinkSlices grow DangerZone (h, u)).2.2 = (Shrink DangerZone u).2 := by
  cases DangerZone with
  | false => exact ⟨rfl, rfl⟩
  | true =>
    simp only [ShrinkSlices, Shrink, Tx.ForEach, Bool.not_true, Bool.false_eq_true, if_false]
    refine Bucket.ForEach_related (fun (st : Heap × Upgrader) (u1 : Upgrader) => st.2 = u1)
      _ _ _ ?_ _ _ rfl
    rintro k v ⟨hc, u1⟩ u2 e
    simp only at e
    subst e
    simp only
    cases hb : u.Old.View.1.bucket (some []) k with
    | err e => exact ⟨rfl, rfl⟩
    | crash f => exact ⟨rfl, rfl⟩
    | ok p =>
      obtain ⟨ob, tx1⟩ := p
      simp only
      have := ReadyWalkerSlices_spec grow (u.Old.View.1.root.depth + 1) (hc.alloc [k] 0).1 u1
        (hc.alloc [k] 0).2 u.Old.View.1 (Heap.alloc_valid _ _ _)
      rw [Heap.alloc_read] at this
      exact ⟨this.1, this.2.1⟩

theorem Heap.Frame.read_other {h h1 : Heap} {s : Slice} (f : Heap.Frame h h1 s) (t : Slice)
    (ht : h.Valid t) (hts : t.arr ≠ s.arr ∨ t.len ≤ s.len) : h1.read t = h.read t :=
  (f.2 t.arr ht.1).2 t.len hts

/-- C15: with the paths of the walk as Go slices, `append(baseBucket, k)`
writing in place whenever the backing array has spare capacity and the
runtime free to choose the capacity of a new array: the walk of a source store
issues exactly the writes of the walk on path values, each to the names of the
containers from the root followed by the key of the entry; extending a path
yields the parent path followed by the key and changes no path that lives in
another array or is no longer than the parent path (the parent path itself and
the paths of its ancestors), so the path built for the next sibling is the
parent path followed by that sibling's key; and a whole call of the walker
returns what the walker on path values returns for the elements of its slice
and changes no such path either. -/
theorem C15_extending_a_path_changes_no_other_path (grow : Nat → Nat) (fuel : Nat) (h : Heap)
    (u : Upgrader) (s : Slice) (tx : Tx) (hstore : u.Old.root.IsStore) (hv : h.Valid s) :
    ((ShrinkSlices grow true (h, u)).1 =
        (writeAll (u.Old.root.writes []) { u with Old := u.Old.View.2 }).1 ∧
      (ShrinkSlices grow true (h, u)).2.2 =
        (writeAll (u.Old.root.writes []) { u with Old := u.Old.View.2 }).2 ∧
      ∀ p v, (p, v) ∈ u.Old.root.writes [] →
        ∃ P k, p = P ++ [k] ∧ u.Old.root.valueAt P k = some v) ∧
    (∀ k, (h.append grow s k).1.read (h.append grow s k).2 = h.read s ++ [k] ∧
      ∀ t : Slice, h.Valid t → (t.arr ≠ s.arr ∨ t.len ≤ s.len) →
        (h.append grow s k).1.read t = h.read t) ∧
    (∀ k1 k2,
      ((h.append grow s k1).1.append grow s k2).1.read
        ((h.append grow s k1).1.append grow s k2).2 = h.read s ++ [k2]) ∧
    ((ReadyWalkerSlices grow fuel (h, u) s tx).1 = (ReadyWalker fuel u (h.read s) tx).1 ∧
      (ReadyWalkerSlices grow fuel (h, u) s tx).2.2 = (ReadyWalker fuel u (h.read s) tx).2 ∧
      ∀ t : Slice, h.Valid t → (t.arr ≠ s.arr ∨ t.len ≤ s.len) →
        (ReadyWalkerSlices grow fuel (h, u) s tx).2.1.read t = h.read t) := by
  refine ⟨⟨?_, ?_, ?_⟩, ?_, ?_, ?_⟩
  · rw [(ShrinkSlices_spec grow true h u).1, Shrink_writes u hstore.1 hstore.2]
  · rw [(ShrinkSlices_spec grow true h u).2, Shrink_writes u hstore.1 hstore.2]
  · intro p v hmem
    obtain ⟨P, k, e1, e2, _⟩ := Bucket.mem_writes u.Old.root [] p v hstore.2 hmem
    exact ⟨P, k, by simpa using e1, e2⟩
  · intro k
    obtain ⟨a1, _, a3, _⟩ := Heap.append_spec grow h s k hv
    exact ⟨a1, fun t ht hts => a3.read_other t ht hts⟩
  · intro k1 k2
    obtain ⟨_, _, a3, _⟩ := Heap.append_spec grow h s k1 hv
    obtain ⟨b1, _, _, _⟩ := Heap.append_spec grow (h.append grow s k1).1 s k2 (a3.valid hv)
    rw [b1, a3.read hv]
  · obtain ⟨r1, r2, r3⟩ := ReadyWalkerSlices_spec grow fuel h u s tx hv
    exact ⟨r1, r2, fun t ht hts => r3.read_other t ht hts⟩

/-- Witness for C15: the test store, and a parent path whose backing array
has spare capacity, so that the paths of its children share that array. -/
theorem C15_extending_a_path_changes_no_other_path_witness :
    testStore.IsStore ∧ spareHeap.Valid { arr := 0, len := 2 } ∧
    (spareHeap.append (fun n => n) { arr := 0, len := 2 } (str "american")).2.arr = 0 ∧
    ((spareHeap.append (fun n => n) { arr := 0, len := 2 } (str "american")).1.append
        (fun n => n) { arr := 0, len := 2 } (str "british")).1.read
      ((spareHeap.append (fun n => n) { arr := 0, len := 2 } (str "american")).1.append
        (fun n => n) { arr := 0, len := 2 } (str "british")).2 =
      spareHeap.read { arr := 0, len := 2 } ++ [str "british"] ∧
    (ReadyWalkerSlices (fun n => n) 3 (spareHeap, { Old := openDB testStore, New := openDB .nil })
        { arr := 0, len := 2 } (openDB testStore).View.1).2.1.read { arr := 0, len := 2 } =
      spareHeap.read { arr := 0, len := 2 } :=
  ⟨by decide, ⟨by decide, by decide⟩, rfl,
    (C15_extending_a_path_changes_no_other_path (fun n => n) 3 spareHeap
      { Old := openDB testStore, New := openDB .nil } { arr := 0, len := 2 }
      (openDB testStore).View.1 (by decide) ⟨by decide, by decide⟩).2.2.1
      (str "american") (str "british"),
    (C15_extending_a_path_changes_no_other_path (fun n => n) 3 spareHeap
      { Old := openDB testStore, New := openDB .nil } { arr := 0, len := 2 }
      (openDB testStore).View.1 (by decide) ⟨by decide, by decide⟩).2.2.2.2.2
      { arr := 0, len := 2 } ⟨by decide, by decide⟩ (Or.inr (Nat.le_refl _))⟩

/-! ## Filling a store -/

theorem Tx.putEntry_ok (r : Bucket) (e : Entry) (tx1 : Tx)
    (h : Tx.putEntry ⟨r, true⟩ e = .ok tx1) :
    ∃ r1 b, e.path ≠ [] ∧ r.ensure e.path = .ok r1 ∧ r1.descend e.path = some b ∧
      (∀ c, b.seek e.key ≠ some (.bucket c)) ∧
      tx1 = ⟨Bucket.modifyAt e.path (fun c => c.store e.key (.value e.value)) r1, true⟩ := by
  obtain ⟨path, key, value⟩ := e
  cases path with
  | nil => simp [Tx.putEntry, GetNestedBucket] at h
  | cons k0 ks =>
    simp only [Tx.putEntry, GetNestedBucket_create] at h
    cases he : r.ensure (k0 :: ks) with
    | err x => simp [he] at h
    | crash f => simp [he] at h
    | ok r1 =>
      obtain ⟨b, hb⟩ := Bucket.ensure_descend (k0 :: ks) r r1 he
      simp only [he, Tx.put_eq r1 b (k0 :: ks) key value hb] at h
      refine ⟨r1, b, by simp, rfl, hb, ?_⟩
      split at h
      · simp at h
      · split at h
        · simp at h
        · split at h
          · simp at h
          · constructor
            · intro c hc
              simp [hc] at h
            · split at h
              · simp at h
              · simp at h
                exact h.symm

theorem Tx.putEntry_valueAt (r : Bucket) (e : Entry) (tx1 : Tx)
    (h : Tx.putEntry ⟨r, true⟩ e = .ok tx1) (q : List Bytes) (key : Bytes) :
    tx1.root.valueAt q key =
      if q = e.path ∧ key = e.key then some e.value else r.valueAt q key := by
  obtain ⟨r1, b, _, g2, g3, g4, g5⟩ := Tx.putEntry_ok r e tx1 h
  rw [g5]
  simp only
  rw [Bucket.valueAt_put e.path r1 b e.key e.value g3 g4 q key,
    Bucket.valueAt_ensure e.path _ r1 g2]

theorem Tx.putEntry_descend (r : Bucket) (e : Entry) (tx1 : Tx)
    (h : Tx.putEntry ⟨r, true⟩ e = .ok tx1) (q : List Bytes) :
    (tx1.root.descend q).isSome = ((r.descend q).isSome || decide (q <+: e.path)) := by
  obtain ⟨r1, b, _, g2, g3, g4, g5⟩ := Tx.putEntry_ok r e tx1 h
  rw [g5]
  simp only
  rw [Bucket.descend_put e.path r1 b e.key e.value g3 g4 q, Bucket.descend_ensure e.path _ r1 g2]

theorem Tx.putEntry_sorted (r : Bucket) (e : Entry) (tx1 : Tx)
    (h : Tx.putEntry ⟨r, true⟩ e = .ok tx1) (hs : r.Sorted) :
    tx1.root.Sorted ∧ tx1.writable = true := by
  obtain ⟨r1, b, _, g2, _, _, g5⟩ := Tx.putEntry_ok r e tx1 h
  rw [g5]
  exact ⟨(hs.of_ensure e.path g2).of_modifyAt e.path (fun c hc => hc.of_store e.key _ trivial),
    rfl⟩

theorem Tx.putEntry_writable (r : Bucket) (e : Entry) (tx1 : Tx)
    (h : Tx.putEntry ⟨r, true⟩ e = .ok tx1) : tx1.writable = true := by
  obtain ⟨r1, b, _, _, _, _, g5⟩ := Tx.putEntry_ok r e tx1 h
  rw [g5]

theorem Tx.putEntries_sorted (l : List Entry) (r : Bucket) (tx : Tx)
    (h : Tx.putEntries l ⟨r, true⟩ = .ok tx) (hs : r.Sorted) : tx.root.Sorted := by
  induction l generalizing r with
  | nil =>
    simp only [Tx.putEntries, Res.ok.injEq] at h
    rw [← h]
    exact hs
  | cons e rest ih =>
    simp only [Tx.putEntries] at h
    cases he : Tx.putEntry ⟨r, true⟩ e with
    | err x => simp [he] at h
    | crash f => simp [he] at h
    | ok tx1 =>
      rw [he] at h
      obtain ⟨g1, g2⟩ := Tx.putEntry_sorted r e tx1 he hs
      obtain ⟨r1, w1⟩ := tx1
      simp only at g2
      subst g2
      exact ih r1 h g1

/-- The values of a store after entries with pairwise different locations
were written into it: those written, and those it held elsewhere. -/
theorem Tx.putEntries_valueAt (l : List Entry) (r : Bucket) (tx : Tx)
    (h : Tx.putEntries l ⟨r, true⟩ = .ok tx)
    (hnd : (l.map (fun e => (e.path, e.key))).Nodup) (q : List Bytes) (key v : Bytes) :
    tx.root.valueAt q key = some v ↔
      ((∃ e ∈ l, e.path = q ∧ e.key = key ∧ e.value = v) ∨
        (r.valueAt q key = some v ∧ ∀ e ∈ l, ¬ (e.path = q ∧ e.key = key))) := by
  induction l generalizing r with
  | nil =>
    simp only [Tx.putEntries, Res.ok.injEq] at h
    rw [← h]
    simp
  | cons e rest ih =>
    simp only [Tx.putEntries] at h
    cases he : Tx.putEntry ⟨r, true⟩ e with
    | err x => simp [he] at h
    | crash f => simp [he] at h
    | ok tx1 =>
      rw [he] at h
      have hv := Tx.putEntry_valueAt r e tx1 he q key
      have g2 := Tx.putEntry_writable r e tx1 he
      obtain ⟨r1, w1⟩ := tx1
      simp only at g2 hv
      subst g2
      simp only [List.map_cons, List.nodup_cons] at hnd
      rw [ih r1 h hnd.2, hv]
      by_cases hm : q = e.path ∧ key = e.key
      · obtain ⟨hq, hk⟩ := hm
        subst hq hk
        have hno : ∀ e1 ∈ rest, ¬ (e1.path = e.path ∧ e1.key = e.key) := by
          intro e1 he1 hc
          apply hnd.1
          exact List.mem_map.mpr ⟨e1, he1, by rw [hc.1, hc.2]⟩
        constructor
        · rintro (⟨e1, he1, a1, a2, _⟩ | ⟨hval, _⟩)
          · exact absurd ⟨a1, a2⟩ (hno e1 he1)
          · simp only [and_self, if_true, Option.some.injEq] at hval
            exact Or.inl ⟨e, List.mem_cons_self _ _, rfl, rfl, hval⟩
        · rintro (⟨e1, he1, a1, a2, a3⟩ | ⟨_, hall⟩)
          · rcases List.mem_cons.mp he1 with e2 | e2
            · subst e2
              exact Or.inr ⟨by simp [a3], hno⟩
            · exact absurd ⟨a1, a2⟩ (hno e1 e2)
          · exact absurd ⟨rfl, rfl⟩ (hall e (List.mem_cons_self _ _))
      · simp only [hm, if_false]
        constructor
        · rintro (⟨e1, he1, a⟩ | ⟨hval, hall⟩)
          · exact Or.inl ⟨e1, List.mem_cons_of_mem _ he1, a⟩
          · refine Or.inr ⟨hval, ?_⟩
            intro e1 he1
            rcases List.mem_cons.mp he1 with e2 | e2
            · subst e2
              exact fun hc => hm ⟨hc.1.symm, hc.2.symm⟩
            · exact hall e1 e2
        · rintro (⟨e1, he1, a1, a2, a3⟩ | ⟨hval, hall⟩)
          · rcases List.mem_cons.mp he1 with e2 | e2
            · subst e2
              exact absurd ⟨a1.symm, a2.symm⟩ hm
            · exact Or.inl ⟨e1, e2, a1, a2, a3⟩
          · exact Or.inr ⟨hval, fun e1 he1 => hall e1 (List.mem_cons_of_mem _ he1)⟩

/-- The containers of a store after entries were written into it: those it
had, and those along the paths of the entries. -/
theorem Tx.putEntries_descend (l : List Entry) (r : Bucket) (tx : Tx)
    (h : Tx.putEntries l ⟨r, true⟩ = .ok tx) (q : List Bytes) :
    (tx.root.descend q).isSome = true ↔
      ((r.descend q).isSome = true ∨ ∃ e ∈ l, q <+: e.path) := by
  induction l generalizing r with
  | nil =>
    simp only [Tx.putEntries, Res.ok.injEq] at h
    rw [← h]
    simp
  | cons e rest ih =>
    simp only [Tx.putEntries] at h
    cases he : Tx.putEntry ⟨r, true⟩ e with
    | err x => simp [he] at h
    | crash f => simp [he] at h
    | ok tx1 =>
      rw [he] at h
      have hd := Tx.putEntry_descend r e tx1 he q
      have g2 := Tx.putEntry_writable r e tx1 he
      obtain ⟨r1, w1⟩ := tx1
      simp only at g2 hd
      subst g2
      rw [ih r1 h, hd]
      simp only [Bool.or_eq_true, decide_eq_true_eq, List.mem_cons, exists_eq_or_imp]
      tauto

theorem Tx.putEntries_paths (l : List Entry) (r : Bucket) (tx : Tx)
    (h : Tx.putEntries l ⟨r, true⟩ = .ok tx) : ∀ e ∈ l, e.path ≠ [] := by
  induction l generalizing r with
  | nil => simp
  | cons e rest ih =>
    simp only [Tx.putEntries] at h
    cases he : Tx.putEntry ⟨r, true⟩ e with
    | err x => simp [he] at h
    | crash f => simp [he] at h
    | ok tx1 =>
      rw [he] at h
      obtain ⟨_, _, g1, _⟩ := Tx.putEntry_ok r e tx1 he
      have g2 := Tx.putEntry_writable r e tx1 he
      obtain ⟨r1, w1⟩ := tx1
      simp only at g2
      subst g2
      intro e1 he1
      rcases List.mem_cons.mp he1 with e2 | e2
      · rw [e2]; exact g1
      · exact ih r1 h e1 e2

theorem Tx.putEntries_writable (l : List Entry) (r : Bucket) (tx : Tx)
    (h : Tx.putEntries l ⟨r, true⟩ = .ok tx) : tx.writable = true := by
  induction l generalizing r with
  | nil =>
    simp only [Tx.putEntries, Res.ok.injEq] at h
    rw [← h]
  | cons e rest ih =>
    simp only [Tx.putEntries] at h
    cases he : Tx.putEntry ⟨r, true⟩ e with
    | err x => simp [he] at h
    | crash f => simp [he] at h
    | ok tx1 =>
      rw [he] at h
      have g2 := Tx.putEntry_writable r e tx1 he
      obtain ⟨r1, w1⟩ := tx1
      simp only at g2
      subst g2
      exact ih r1 h

theorem storeOf_ok (l : List Entry) (b : Bucket) (h : storeOf l = .ok b) :
    Tx.putEntries l ⟨.nil, true⟩ = .ok ⟨b, true⟩ := by
  unfold storeOf at h
  cases hp : Tx.putEntries l ⟨.nil, true⟩ with
  | err x => simp [hp] at h
  | crash f => simp [hp] at h
  | ok tx =>
    simp only [hp, Res.ok.injEq] at h
    have hw := Tx.putEntries_writable l .nil tx hp
    obtain ⟨r1, w1⟩ := tx
    simp only at h hw
    subst h hw
    rfl

namespace Bucket

theorem Sorted.unique {b : Bucket} (h : b.Sorted) : b.Unique := by
  induction b with
  | nil => trivial
  | val k v rest ih =>
    refine ⟨?_, ih h.2⟩
    intro hk
    have := h.1 k hk
    rw [bytesLess_irrefl] at this
    exact absurd this (by simp)
  | sub n c rest ihc ih =>
    refine ⟨?_, ihc h.2.1, ih h.2.2⟩
    intro hk
    have := h.1 n hk
    rw [bytesLess_irrefl] at this
    exact absurd this (by simp)

theorem Sorted.onlyBuckets {b : Bucket} (h : b.Sorted)
    (hv : ∀ key, b.valueAt [] key = none) : b.OnlyBuckets := by
  induction b with
  | nil => trivial
  | val k v rest _ =>
    have := hv k
    simp [valueAt_nil_path, seek] at this
  | sub n c rest _ ih =>
    apply ih h.2.2
    intro key
    by_cases e : n = key
    · subst e
      rw [valueAt_nil_path, seek_none_of_lt rest n h.1]
    · have := hv key
      simp only [valueAt_nil_path, seek, e, if_false] at this
      rw [valueAt_nil_path]
      exact this

/-- Two key-ordered stores that hold the same values at the same places and
the same containers are equal. -/
theorem Sorted.ext_deep (n : Nat) : ∀ (b1 b2 : Bucket), b1.depth < n → b1.Sorted → b2.Sorted →
    (∀ q key, b1.valueAt q key = b2.valueAt q key) →
    (∀ q, (b1.descend q).isSome = (b2.descend q).isSome) → b1 = b2 := by
  induction n with
  | zero => intro b1 b2 hd; omega
  | succ n ih =>
    intro b1 b2 hd h1 h2 hval hdesc
    apply Sorted.ext b1 b2 h1 h2
    intro k
    have hv := hval [] k
    have hc := hdesc [k]
    simp only [valueAt_nil_path] at hv
    simp only [descend_cons, descend] at hc
    cases hs1 : b1.seek k with
    | none =>
      rw [hs1] at hv
      rw [child_eq_none_of_seek hs1] at hc
      cases hs2 : b2.seek k with
      | none => rfl
      | some it =>
        cases it with
        | value v => rw [hs2] at hv; simp at hv
        | bucket c => rw [child_eq_of_seek hs2] at hc; simp at hc
    | some it =>
      cases it with
      | value v =>
        rw [hs1] at hv
        cases hs2 : b2.seek k with
        | none => rw [hs2] at hv; simp at hv
        | some it2 =>
          cases it2 with
          | value v2 => rw [hs2] at hv; simp at hv; rw [hv]
          | bucket c => rw [hs2] at hv; simp at hv
      | bucket c1 =>
        rw [child_eq_of_seek hs1] at hc
        cases hs2 : b2.seek k with
        | none => rw [child_eq_none_of_seek hs2] at hc; simp at hc
        | some it2 =>
          cases it2 with
          | value v2 =>
            have : b2.child k = none := by simp [child, hs2]
            rw [this] at hc
            simp at hc
          | bucket c2 =>
            have e : c1 = c2 := by
              apply ih c1 c2 _ (h1.of_seek_bucket hs1) (h2.of_seek_bucket hs2)
              · intro q key
                have := hval (k :: q) key
                simpa [valueAt_cons, child_eq_of_seek hs1, child_eq_of_seek hs2] using this
              · intro q
                have := hdesc (k :: q)
                simpa [descend_cons, child_eq_of_seek hs1, child_eq_of_seek hs2] using this
              · have := depth_of_seek hs1
                omega
            rw [e]

theorem pathLess_append (base : List Bytes) (a b : Bytes) (s t : List Bytes)
    (h : bytesLess a b = true) : pathLess (base ++ a :: s) (base ++ b :: t) = true := by
  induction base with
  | nil => simp [pathLess, h]
  | cons x xs ih => simp [pathLess, ih]

/-- The walk of a key-ordered container issues its writes in ascending order
of their paths. -/
theorem Sorted.writes_pairwise {b : Bucket} (h : b.Sorted) (base : List Bytes) :
    ((b.writes base).map Prod.fst).Pairwise (fun p q => pathLess p q = true) := by
  induction b generalizing base with
  | nil => simp [writes]
  | val k v rest ih =>
    simp only [writes]
    split
    · exact ih h.2 base
    · simp only [List.map_cons, List.pairwise_cons]
      refine ⟨?_, ih h.2 base⟩
      intro p hp
      obtain ⟨⟨p1, w⟩, hm, e⟩ := List.mem_map.mp hp
      simp only at e
      subst e
      obtain ⟨k1, hk1, t, ht⟩ := mem_writes_head rest base p1 w hm
      rw [ht]
      exact pathLess_append base k k1 [] t (h.1 k1 hk1)
  | sub n c rest ihc ih =>
    simp only [writes, List.map_append]
    rw [List.pairwise_append]
    refine ⟨ihc h.2.1 _, ih h.2.2 base, ?_⟩
    intro p hp q hq
    obtain ⟨⟨p1, w1⟩, hm1, e1⟩ := List.mem_map.mp hp
    obtain ⟨⟨q1, w2⟩, hm2, e2⟩ := List.mem_map.mp hq
    simp only at e1 e2
    subst e1 e2
    obtain ⟨k1, _, t1, ht1⟩ := mem_writes_head c (base ++ [n]) p1 w1 hm1
    obtain ⟨k2, hk2, t2, ht2⟩ := mem_writes_head rest base q1 w2 hm2
    rw [ht1, ht2, List.append_assoc]
    exact pathLess_append base n k2 _ t2 (h.1 k2 hk2)

end Bucket

/-- What a store filled with entries at pairwise different locations holds:
it is key-ordered, its root holds containers only, its values are those of the
entries, and its containers are those along their paths. -/
theorem storeOf_spec (l : List Entry) (b : Bucket) (h : storeOf l = .ok b)
    (hnd : (l.map (fun e => (e.path, e.key))).Nodup) :
    b.Sorted ∧ b.IsStore ∧
    (∀ q key v, b.valueAt q key = some v ↔ ∃ e ∈ l, e.path = q ∧ e.key = key ∧ e.value = v) ∧
    (∀ q, (b.descend q).isSome = true ↔ (q = [] ∨ ∃ e ∈ l, q <+: e.path)) := by
  have hp := storeOf_ok l b h
  have hs : b.Sorted := Tx.putEntries_sorted l .nil _ hp trivial
  have hval : ∀ q key v, b.valueAt q key = some v ↔
      ∃ e ∈ l, e.path = q ∧ e.key = key ∧ e.value = v := by
    intro q key v
    have := Tx.putEntries_valueAt l .nil _ hp hnd q key v
    simpa [Bucket.valueAt_nil] using this
  refine ⟨hs, ⟨?_, hs.unique⟩, hval, ?_⟩
  · apply hs.onlyBuckets
    intro key
    cases hv : b.valueAt [] key with
    | none => rfl
    | some v =>
      obtain ⟨e, he, e1, _⟩ := (hval [] key v).mp hv
      exact absurd e1 (Tx.putEntries_paths l .nil _ hp e he)
  · intro q
    have := Tx.putEntries_descend l .nil _ hp q
    simpa [Bucket.descend_nil_isSome] using this

/-- The order in which the entries were written leaves no trace in the store. -/
theorem storeOf_perm (l1 l2 : List Entry) (b1 b2 : Bucket) (h1 : storeOf l1 = .ok b1)
    (h2 : storeOf l2 = .ok b2) (hp : l1.Perm l2)
    (hnd : (l1.map (fun e => (e.path, e.key))).Nodup) : b1 = b2 := by
  have hnd2 : (l2.map (fun e => (e.path, e.key))).Nodup :=
    (hp.map (fun e => (e.path, e.key))).nodup_iff.mp hnd
  obtain ⟨s1, _, v1, d1⟩ := storeOf_spec l1 b1 h1 hnd
  obtain ⟨s2, _, v2, d2⟩ := storeOf_spec l2 b2 h2 hnd2
  apply Bucket.Sorted.ext_deep (b1.depth + 1) b1 b2 (Nat.lt_succ_self _) s1 s2
  · intro q key
    apply Option.ext
    intro v
    rw [Option.mem_def, Option.mem_def, v1, v2]
    constructor
    · rintro ⟨e, he, a⟩
      exact ⟨e, hp.mem_iff.mp he, a⟩
    · rintro ⟨e, he, a⟩
      exact ⟨e, hp.mem_iff.mpr he, a⟩
  · intro q
    rw [Bool.eq_iff_iff, d1, d2]
    constructor
    · rintro (a | ⟨e, he, a⟩)
      · exact Or.inl a
      · exact Or.inr ⟨e, hp.mem_iff.mp he, a⟩
    · rintro (a | ⟨e, he, a⟩)
      · exact Or.inl a
      · exact Or.inr ⟨e, hp.mem_iff.mpr he, a⟩

/-- C11: for two source stores filled through the engine with the same
entries (pairwise different locations) in different orders, the walk of either
store issues the same sequence of writes, in ascending lexicographic order of
their paths (every container is enumerated in ascending bytewise key order):
one write for every entry of non-zero length and no other; compaction returns
the same result and leaves the same destination for both; and every container
of the destination, the destination having been key-ordered before, hands its
keys to an iteration in ascending bytewise order. -/
theorem C11_walk_follows_key_order (l1 l2 : List Entry) (b1 b2 : Bucket)
    (h1 : storeOf l1 = .ok b1) (h2 : storeOf l2 = .ok b2) (hp : l1.Perm l2)
    (hnd : (l1.map (fun e => (e.path, e.key))).Nodup)
    (txs : Nat) (budget : Option Nat) (new : DB) (hnew : new.root.Sorted) :
    (Shrink true { Old := { root := b1, txs := txs, commitsLeft := budget }, New := new } =
        writeAll (b1.writes [])
          { Old := { root := b1, txs := txs + 1, commitsLeft := budget }, New := new } ∧
      Shrink true { Old := { root := b2, txs := txs, commitsLeft := budget }, New := new } =
        writeAll (b1.writes [])
          { Old := { root := b2, txs := txs + 1, commitsLeft := budget }, New := new } ∧
      ((b1.writes []).map Prod.fst).Pairwise (fun p q => pathLess p q = true) ∧
      (∀ e ∈ l1, e.value ≠ [] → (e.path ++ [e.key], e.value) ∈ b1.writes []) ∧
      (∀ p v, (p, v) ∈ b1.writes [] → ∃ e ∈ l1, p = e.path ++ [e.key] ∧ v = e.value)) ∧
    ((Shrink true
        { Old := { root := b1, txs := txs, commitsLeft := budget }, New := new }).1 =
      (Shrink true
        { Old := { root := b2, txs := txs, commitsLeft := budget }, New := new }).1 ∧
      (Shrink true
        { Old := { root := b1, txs := txs, commitsLeft := budget }, New := new }).2.New =
      (Shrink true
        { Old := { root := b2, txs := txs, commitsLeft := budget }, New := new }).2.New) ∧
    (∀ path c,
      (Shrink true
        { Old := { root := b1, txs := txs, commitsLeft := budget }, New := new }).2.New.root.descend
        path = some c →
      c.keys.Pairwise (fun x y => bytesLess x y = true) ∧
      c.ForEach (fun k _ (s : List Bytes) => (Res.ok (), s ++ [k])) [] = (.ok (), c.keys)) := by
  have heq : b1 = b2 := storeOf_perm l1 l2 b1 b2 h1 h2 hp hnd
  obtain ⟨hs, hstore, hval, _⟩ := storeOf_spec l1 b1 h1 hnd
  subst heq
  have hw := Shrink_writes { Old := { root := b1, txs := txs, commitsLeft := budget }, New := new }
    hstore.1 hstore.2
  refine ⟨⟨hw, hw, hs.writes_pairwise [], ?_, ?_⟩, ⟨rfl, rfl⟩, ?_⟩
  · intro e he hne
    have := Bucket.writes_of_valueAt b1 [] e.path e.key e.value
      ((hval e.path e.key e.value).mpr ⟨e, he, rfl, rfl, rfl⟩) hne
    simpa using this
  · intro p v hmem
    obtain ⟨P, k, e1, e2, _⟩ := Bucket.mem_writes b1 [] p v hstore.2 hmem
    obtain ⟨e, he, a1, a2, a3⟩ := (hval P k v).mp e2
    exact ⟨e, he, by simpa [a1, a2] using e1, a3.symm⟩
  · intro path c hc
    have hd := Shrink_invariant (fun u => u.New.root.Sorted)
      (fun u v k hu => WriteCopy_sorted u v k hu) (fun _ _ hu => hu) true
      { Old := { root := b1, txs := txs, commitsLeft := budget }, New := new } hnew
    exact ⟨(Bucket.Sorted.of_descend hd hc).pairwise_keys, by simpa using Bucket.ForEach_keys c []⟩

/-- Witness for C11: the entries of `names/first/american` written in the
order of `testExpand` (john, joe, bob) and in the opposite order give the test
store, whose walk writes bob, joe, john. -/
theorem C11_walk_follows_key_order_witness :
    storeOf testEntries = .ok testStore ∧ storeOf testEntries.reverse = .ok testStore ∧
    Shrink true { Old := openDB testStore, New := openDB .nil } =
      writeAll (testStore.writes [])
        { Old := { root := testStore, txs := 1, commitsLeft := none }, New := openDB .nil } ∧
    ((testStore.writes []).map Prod.fst).Pairwise (fun p q => pathLess p q = true) ∧
    (testStore.writes []).map Prod.snd = [[2], [1], [0]] :=
  have h := C11_walk_follows_key_order testEntries testEntries.reverse testStore testStore
    (by decide) (by decide) (List.reverse_perm testEntries).symm (by decide) 0 none
    (openDB .nil) trivial
  ⟨by decide, by decide, h.1.1, h.1.2.2.1, by decide⟩

/-! ## One file under two spellings -/

/-- Source and destination given as two spellings of one file that does not
exist yet: the path comparison and `os.Stat` let them pass, the first
`bbolt.Open` creates the file and holds its lock, and the second fails on the
lock. -/
theorem ShrinkBoltDatabase_two_spellings (DangerZone : Bool) :
    (ShrinkBoltDatabase DangerZone aliasWorld "x.db" "./x.db").1 = .err .openFailed ∧
    (ShrinkBoltDatabase DangerZone aliasWorld "x.db" "./x.db").2.log =
      [.stat "./x.db", .opened "x.db", .closed "x.db"] ∧
    (ShrinkBoltDatabase DangerZone aliasWorld "x.db" "./x.db").2.locked = [] := by
  cases DangerZone <;> decide

end Shrinkbolt
